import Mathlib

/-!
# MapDelivery: a verification development

Shallow embedding of the delivery-planning program:

* `ExpandableHashMap` (ExpandableHashMap.h): bucket vector, association counter,
  `associate` / `find` / `rehash`;
* the point-to-point router (PointToPointRouter.cpp): breadth-first search and
  route reconstruction;
* the delivery optimizer (DeliveryOptimizer.cpp): greedy nearest-neighbour ordering;
* the street map (StreetMap.cpp): registration of segments in both directions and
  lookup by start coordinate;
* the delivery planner (DeliveryPlanner.cpp): leg routing, turn and direction
  classification, narration of routes as commands.

Modelling conventions.  `double` values are rationals; where the planner accumulates
distances the addition is a parameter (`Geometry.add`), so that rounding is covered.
Machine integers are unbounded naturals where the machine range plays no part; the
`int newSize` of `rehash`, which decides what happens for very small maximum load
factors, is modelled with its conversion in `rehashWithInt` and `associateInt`.  Coordinates, street names and item
labels, whose declarations live in `provided.h`, are type parameters; coordinates
carry decidable equality (`operator==`).  Loops whose termination is not structural
take an iteration bound and return `none` when it is reached; the theorems show that a
large enough bound always exists.
-/

set_option autoImplicit false
set_option linter.unusedSectionVars false

/-! ## Definitions -/

namespace MapDelivery

/-- The constant `INITIAL_NUMBER_OF_BUCKETS`. -/
def INITIAL_NUMBER_OF_BUCKETS : Nat := 8

/-- The default argument of the constructor, `maximumLoadFactor = 0.5`. -/
def DEFAULT_MAXIMUM_LOAD_FACTOR : ℚ := 1 / 2

/-- The data members of `ExpandableHashMap<KeyType, ValueType>`: the vector of bucket
lists, the association counter and the maximum load factor. -/
structure ExpandableHashMap (K V : Type) where
  m_buckets : List (List (K × V))
  m_nAssociations : Nat
  m_maximumLoadFactor : ℚ

namespace ExpandableHashMap

variable {K V : Type} [DecidableEq K]

/-- The constructor followed by `reset()` on the fresh, empty bucket vector:
`INITIAL_NUMBER_OF_BUCKETS` empty lists and a zero counter. -/
def create (maximumLoadFactor : ℚ) : ExpandableHashMap K V where
  m_buckets := List.replicate INITIAL_NUMBER_OF_BUCKETS []
  m_nAssociations := 0
  m_maximumLoadFactor := maximumLoadFactor

/-- The member `size()`: returns `m_nAssociations`. -/
def size (m : ExpandableHashMap K V) : Nat := m.m_nAssociations

/-- The member `getBucketNumber`: `hasher(key) % m_buckets->size()`, for a bucket vector
that is not empty (on an empty one the code divides by zero, see `associateInt`). -/
def getBucketNumber (hasher : K → Nat) (m : ExpandableHashMap K V) (key : K) : Nat :=
  hasher key % m.m_buckets.length

/-- The scan of one bucket list in `find`: the value of the first entry whose key
equals `key`. -/
def findInBucket (key : K) : List (K × V) → Option V
  | [] => none
  | p :: rest => if p.1 = key then some p.2 else findInBucket key rest

/-- The member `find`: scan the bucket selected by `getBucketNumber`; `none` is
`nullptr`. -/
def find (hasher : K → Nat) (m : ExpandableHashMap K V) (key : K) : Option V :=
  findInBucket key (m.m_buckets.getD (getBucketNumber hasher m key) [])

/-- The assignment `*findAttempt = value` through the pointer returned by `find`: the
first entry of the bucket whose key equals `key` gets the new value. -/
def assignInBucket (key : K) (value : V) : List (K × V) → List (K × V)
  | [] => []
  | p :: rest =>
    if p.1 = key then (p.1, value) :: rest else p :: assignInBucket key value rest

/-- The member `currentLoadFactor`: `m_nAssociations / m_buckets->size()`. -/
def currentLoadFactor (m : ExpandableHashMap K V) : ℚ :=
  (m.m_nAssociations : ℚ) / (m.m_buckets.length : ℚ)

/-- The inner loop of `rehash` over one old bucket list, calling `assoc` (the
recursive `associate`) on every entry in list order. -/
def reinsertBucket (assoc : ExpandableHashMap K V → K → V → Option (ExpandableHashMap K V)) :
    List (K × V) → ExpandableHashMap K V → Option (ExpandableHashMap K V)
  | [], m => some m
  | p :: rest, m =>
    match assoc m p.1 p.2 with
    | none => none
    | some m1 => reinsertBucket assoc rest m1

/-- The outer loop of `rehash` over the old bucket vector, in index order. -/
def reinsertAll (assoc : ExpandableHashMap K V → K → V → Option (ExpandableHashMap K V)) :
    List (List (K × V)) → ExpandableHashMap K V → Option (ExpandableHashMap K V)
  | [], m => some m
  | bucket :: rest, m =>
    match reinsertBucket assoc bucket m with
    | none => none
    | some m1 => reinsertAll assoc rest m1

/-- The body of `rehash` with its calls to `associate` passed as `assoc`: the bucket
vector is replaced by twice as many empty lists (the counter is left as it is) and
every entry of the old vector is re-associated.  `newSize` is taken here as the number
`size * 2` itself, which is the value of the `int newSize` of the code as long as the
old vector has fewer than 2^30 lists; `rehashWithInt` is the body with the conversion to
`int`, and `associateInt_of_associate` and `associate_of_associateInt` show that the two
give the same runs while the bucket count stays below 2^31. -/
def rehashWith (assoc : ExpandableHashMap K V → K → V → Option (ExpandableHashMap K V))
    (m : ExpandableHashMap K V) : Option (ExpandableHashMap K V) :=
  let oldBuckets := m.m_buckets
  let newSize := m.m_buckets.length * 2
  reinsertAll assoc oldBuckets { m with m_buckets := List.replicate newSize [] }

/-- The member `associate`.  `associate` and `rehash` call each other; the first
argument bounds the depth of that mutual recursion and `none` means the bound was
reached.  `rehash` is taken as `rehashWith`, without the conversion of `newSize` to
`int`; `associateInt` is the member with that conversion. -/
def associate (hasher : K → Nat) :
    Nat → ExpandableHashMap K V → K → V → Option (ExpandableHashMap K V)
  | 0, _, _, _ => none
  | fuel + 1, m, key, value =>
    match find hasher m key with
    | some _ =>
      let i := getBucketNumber hasher m key
      some { m with m_buckets :=
        m.m_buckets.set i (assignInBucket key value (m.m_buckets.getD i [])) }
    | none =>
      let i := getBucketNumber hasher m key
      let m1 : ExpandableHashMap K V :=
        { m with
          m_buckets := m.m_buckets.set i (m.m_buckets.getD i [] ++ [(key, value)])
          m_nAssociations := m.m_nAssociations + 1 }
      if currentLoadFactor m1 > m1.m_maximumLoadFactor then
        rehashWith (associate hasher fuel) m1
      else
        some m1

/-- The member `rehash`, whose re-insertions run `associate` one level deeper. -/
def rehash (hasher : K → Nat) (fuel : Nat) (m : ExpandableHashMap K V) :
    Option (ExpandableHashMap K V) :=
  rehashWith (associate hasher fuel) m

/-- A sequence of `associate(key, value)` calls, in order, on the map `m`. -/
def associateAll (hasher : K → Nat) (fuel : Nat) :
    List (K × V) → ExpandableHashMap K V → Option (ExpandableHashMap K V)
  | [], m => some m
  | p :: rest, m =>
    match associate hasher fuel m p.1 p.2 with
    | none => none
    | some m1 => associateAll hasher fuel rest m1

/-- All stored entries, bucket after bucket. -/
def entries (m : ExpandableHashMap K V) : List (K × V) := m.m_buckets.flatten

end ExpandableHashMap

/-- The finite map a sequence of `associate` calls is meant to build: the value of the
most recent call for `key`, `none` if there was no call for `key`. -/
def mostRecent {K V : Type} [DecidableEq K] (key : K) : List (K × V) → Option V
  | [] => none
  | p :: rest =>
    match mostRecent key rest with
    | some v => some v
    | none => if p.1 = key then some p.2 else none

namespace ExpandableHashMap

variable {K V : Type} [DecidableEq K]

/-- The representation invariant: there is at least one bucket, every entry sits in the
bucket its hash selects, and no bucket holds a key twice. -/
def Inv (hasher : K → Nat) (m : ExpandableHashMap K V) : Prop :=
  0 < m.m_buckets.length ∧
  ∀ i b, m.m_buckets[i]? = some b →
    (∀ p ∈ b, hasher p.1 % m.m_buckets.length = i) ∧ (b.map Prod.fst).Nodup

/-- What a correct `associate` step guarantees. -/
def StepOk (hasher : K → Nat)
    (assoc : ExpandableHashMap K V → K → V → Option (ExpandableHashMap K V)) : Prop :=
  ∀ m key value m1, Inv hasher m → assoc m key value = some m1 →
    Inv hasher m1 ∧
    (∀ k, find hasher m1 k = if k = key then some value else find hasher m k) ∧
    m1.m_maximumLoadFactor = m.m_maximumLoadFactor

/-- The outcome of a terminating run that started in `m` and made `extra` insertions:
the bucket count was doubled `j` times, the counter grew by at most `extra` plus `bound`
per doubling, and no more than `extra` entries were added. -/
def RunsTo (bound : Nat) (m : ExpandableHashMap K V) (r : Option (ExpandableHashMap K V))
    (extra : Nat) : Prop :=
  ∃ m1 j, r = some m1 ∧
    m1.m_buckets.length = m.m_buckets.length * 2 ^ j ∧
    m1.m_nAssociations ≤ m.m_nAssociations + extra + bound * j ∧
    (entries m1).length ≤ (entries m).length + extra ∧
    m1.m_maximumLoadFactor = m.m_maximumLoadFactor ∧
    (((m.m_nAssociations + extra : Nat) : ℚ) ≤
        m.m_maximumLoadFactor * (m.m_buckets.length : ℚ) → j = 0)

/-- The condition under which depth `f` is enough: after `f` further doublings the load
stays within the maximum even if every doubling adds `bound` to the counter. -/
def Enough (bound : Nat) (L : ℚ) (f c s : Nat) : Prop :=
  (c : ℚ) + (bound : ℚ) * (f : ℚ) ≤ L * (s : ℚ) * 2 ^ f

/-- What depth `f + 1` achieves for a single `associate` call. -/
def AssocRuns (hasher : K → Nat) (bound : Nat) (L : ℚ) (f : Nat) : Prop :=
  ∀ (m : ExpandableHashMap K V) (key : K) (value : V),
    m.m_maximumLoadFactor = L → 0 < m.m_buckets.length →
    (entries m).length + 1 ≤ bound →
    Enough bound L f (m.m_nAssociations + 1) m.m_buckets.length →
    RunsTo bound m (associate hasher (f + 1) m key value) 1

end ExpandableHashMap

/-- The enumeration `DeliveryResult` of `provided.h`, as far as this program uses it. -/
inductive DeliveryResult where
  | DELIVERY_SUCCESS
  | NO_ROUTE
  | BAD_COORD
  deriving DecidableEq

/-- The class `StreetSegment` of `provided.h`: start and end coordinate and street name
(`end_` is the member `end`). -/
structure StreetSegment (G S : Type) where
  start : G
  end_ : G
  name : S
  deriving DecidableEq

/-- The street graph as the router sees it: `StreetMap::getSegmentsThatStartWith(gc, segs)`
either reports not-found (`none`, `segs` untouched) or fills `segs` with the segments
stored under `gc`. -/
abbrev StreetMap (G S : Type) := G → Option (List (StreetSegment G S))

/-- A street graph given by a finite table of coordinates and their segment vectors. -/
def StreetMap.ofList {G S : Type} [DecidableEq G]
    (table : List (G × List (StreetSegment G S))) : StreetMap G S :=
  fun gc => (table.find? (fun e => decide (e.1 = gc))).map (fun e => e.2)

/-- The router's local `ExpandableHashMap<GeoCoord, GeoCoord> locationOfPreviousWayPoint`,
taken at the level of the finite map it implements (`wayPointMap_is_hashMap`): `none`
is the `nullptr` of `find`. -/
abbrev WayPointMap (G : Type) := G → Option G

/-- The call `locationOfPreviousWayPoint.associate(key, value)` on the finite map. -/
def WayPointMap.associate {G : Type} [DecidableEq G] (loc : WayPointMap G) (key value : G) :
    WayPointMap G :=
  fun k => if k = key then some value else loc k

section Router

variable {G S : Type} [DecidableEq G]

/-- The inner `j` loop of the search: `true` iff no element of `visited` equals `c`. -/
def notVisited (c : G) : List G → Bool
  | [] => true
  | v :: rest => if c = v then false else notVisited c rest

/-- The `i` loop over the segments leaving `current`: every segment whose end is not in
`visited` has its end pushed on the queue and recorded with predecessor `current`. -/
def scanSegments (current : G) (visited : List G) :
    List (StreetSegment G S) → List G × WayPointMap G → List G × WayPointMap G
  | [], st => st
  | s :: rest, (coords, loc) =>
    if notVisited s.end_ visited then
      scanSegments current visited rest (coords ++ [s.end_], loc.associate s.end_ current)
    else
      scanSegments current visited rest (coords, loc)

/-- The state of the search when its `while` loop is left. -/
structure SearchEnd (G : Type) where
  pathFound : Bool
  visited : List G
  locationOfPreviousWayPoint : WayPointMap G

/-- The loop `while (!coords.empty())` of the search; the first argument bounds the
number of iterations and `none` means the bound was reached. -/
def searchLoop (sm : StreetMap G S) (end_ : G) :
    Nat → List G → List G → WayPointMap G → Option (SearchEnd G)
  | 0, _, _, _ => none
  | _ + 1, [], visited, loc => some ⟨false, visited, loc⟩
  | fuel + 1, current :: coords, visited, loc =>
    if current = end_ then some ⟨true, visited, loc⟩
    else
      let segs := (sm current).getD []
      let visited1 := visited ++ [current]
      let st := scanSegments current visited1 segs (coords, loc)
      searchLoop sm end_ fuel st.1 visited1 st.2

/-- The loop that picks the street name: the name of the first segment of `segs` whose
end is `endUse`, the empty string (`default`) if there is none. -/
def pickStreetName [Inhabited S] (endUse : G) : List (StreetSegment G S) → S
  | [] => default
  | s :: rest => if s.end_ = endUse then s.name else pickStreetName endUse rest

/-- The loop `while (prev != start)` that builds the route back to front; `none` is a
dereferenced `nullptr` or the iteration bound. -/
def buildRoute [Inhabited S] (sm : StreetMap G S) (loc : WayPointMap G) (start : G) :
    Nat → G → G → List (StreetSegment G S) → Option (List (StreetSegment G S))
  | 0, _, _, _ => none
  | fuel + 1, endUse, prev, optimalRoute =>
    if prev = start then some optimalRoute
    else
      match loc endUse with
      | none => none
      | some prev1 =>
        let streetName := pickStreetName endUse ((sm prev1).getD [])
        buildRoute sm loc start fuel prev1 prev1
          (optimalRoute ++ [⟨prev1, endUse, streetName⟩])

/-- The outputs of `generatePointToPointRoute`: the result code and the two reference
parameters `route` and `totalDistanceTravelled`. -/
structure RouteResult (G S : Type) where
  result : DeliveryResult
  route : List (StreetSegment G S)
  totalDistanceTravelled : ℚ

/-- The member `PointToPointRouterImpl::generatePointToPointRoute`.  Both outputs are
cleared first; `fuel` bounds the iterations of each of the two `while` loops. -/
def generatePointToPointRoute [Inhabited S] (sm : StreetMap G S) (fuel : Nat)
    (start end_ : G) : Option (RouteResult G S) :=
  if start = end_ then some ⟨DeliveryResult.DELIVERY_SUCCESS, [], 0⟩
  else if (sm end_).isNone then some ⟨DeliveryResult.BAD_COORD, [], 0⟩
  else if (sm start).isNone then some ⟨DeliveryResult.BAD_COORD, [], 0⟩
  else
    match searchLoop sm end_ fuel [start] [] (fun _ => none) with
    | none => none
    | some fin =>
      if fin.pathFound then
        match buildRoute sm fin.locationOfPreviousWayPoint start fuel end_ end_ [] with
        | none => none
        | some built =>
          let optimalRoute := built.reverse
          if optimalRoute.isEmpty then some ⟨DeliveryResult.NO_ROUTE, [], 0⟩
          else some ⟨DeliveryResult.DELIVERY_SUCCESS, optimalRoute, 0⟩
      else some ⟨DeliveryResult.NO_ROUTE, [], 0⟩

/-- A connected path of graph segments from `a` to `b`: every segment is stored under
its own start coordinate and starts where the previous one ended. -/
def IsPath (sm : StreetMap G S) : G → List (StreetSegment G S) → G → Prop
  | a, [], b => a = b
  | a, s :: rest, b =>
    s.start = a ∧ (∃ segs, sm a = some segs ∧ s ∈ segs) ∧ IsPath sm s.end_ rest b

/-- A well-formed street graph: the segments stored under a coordinate start there. -/
def StreetMap.WellFormed (sm : StreetMap G S) : Prop :=
  ∀ c segs, sm c = some segs → ∀ s ∈ segs, s.start = c

/-- The list `nodes` holds every coordinate some stored segment ends at. -/
def StreetMap.EndsIn (sm : StreetMap G S) (nodes : List G) : Prop :=
  ∀ c segs, sm c = some segs → ∀ s ∈ segs, s.end_ ∈ nodes

/-- The sum of the lengths of the segments of a route under the distance function. -/
def routeLength (dist : G → G → ℚ) (route : List (StreetSegment G S)) : ℚ :=
  (route.map (fun s => dist s.start s.end_)).sum

end Router

/-- A triangle of streets between the coordinates 0, 1 and 2, every street loaded in
both directions. -/
def triangle : StreetMap Nat Nat :=
  StreetMap.ofList
    [(0, [⟨0, 1, 7⟩, ⟨0, 2, 8⟩]), (1, [⟨1, 0, 7⟩, ⟨1, 2, 9⟩]), (2, [⟨2, 0, 8⟩, ⟨2, 1, 9⟩])]

section RouterProofs

variable {G S : Type} [DecidableEq G]

/-- The coordinates pushed by one run of the `i` loop. -/
def pushedEnds (visited : List G) (segs : List (StreetSegment G S)) : List G :=
  (segs.map (fun s => s.end_)).filter (fun x => notVisited x visited)

/-- The invariant of the search loop. -/
structure SearchInv (sm : StreetMap G S) (start end_ : G) (coords visited : List G)
    (loc : WayPointMap G) : Prop where
  end_not : end_ ∉ visited
  queue_pred : ∀ x ∈ coords, x = start ∨ ∃ p, loc x = some p
  pred_ok : ∀ x p, loc x = some p →
    (∃ s ∈ (sm p).getD [], s.end_ = x) ∧ visited.indexOf p < visited.indexOf x
  visited_pred : ∀ x ∈ visited, x = start ∨ ∃ p, loc x = some p
  start_none : loc start = none
  start_seen : start ∈ visited ∨ (coords = [start] ∧ visited = [])
  closed : ∀ x ∈ visited, ∀ s ∈ (sm x).getD [], s.end_ ∈ visited ∨ s.end_ ∈ coords

end RouterProofs

section RouterTermination

variable {G S : Type} [DecidableEq G]

/-- The number of coordinates of `nodes` not yet expanded. -/
def unexpanded (nodes visited : List G) : Nat :=
  (nodes.filter (fun x => notVisited x visited)).length

/-- The number of queue entries whose coordinate has been expanded already. -/
def staleEntries (coords visited : List G) : Nat :=
  (coords.filter (fun x => !notVisited x visited)).length

end RouterTermination

section RouteProofs

variable {G S : Type} [DecidableEq G] [Inhabited S]

/-- The chain of predecessors the route is built from, starting at `e` and walking back
to `start`: the segments in the order `buildRoute` appends them. -/
def BackChain (sm : StreetMap G S) (loc : WayPointMap G) (start : G) :
    G → List (StreetSegment G S) → Prop
  | e, [] => e = start
  | e, s :: l =>
    e ≠ start ∧ ∃ p, loc e = some p ∧
      s = ⟨p, e, pickStreetName e ((sm p).getD [])⟩ ∧ BackChain sm loc start p l

end RouteProofs

section RouterMain

variable {G S : Type} [DecidableEq G] [Inhabited S]

/-- The classification of a router call the specification gives: success with an empty
route and zero distance when start equals end; otherwise `BAD_COORD` when start or end is
not registered; otherwise success when some connected path of graph segments leads from
start to end; otherwise `NO_ROUTE`. -/
def referenceClassification (sm : StreetMap G S) (start end_ : G) (r : RouteResult G S) :
    Prop :=
  (start = end_ →
    r.result = DeliveryResult.DELIVERY_SUCCESS ∧ r.route = [] ∧
      r.totalDistanceTravelled = 0) ∧
  (start ≠ end_ → (sm start = none ∨ sm end_ = none) →
    r.result = DeliveryResult.BAD_COORD) ∧
  (start ≠ end_ → sm start ≠ none → sm end_ ≠ none →
    (∃ route, IsPath sm start route end_) → r.result = DeliveryResult.DELIVERY_SUCCESS) ∧
  (start ≠ end_ → sm start ≠ none → sm end_ ≠ none →
    (¬ ∃ route, IsPath sm start route end_) → r.result = DeliveryResult.NO_ROUTE)

end RouterMain

/-- The class `DeliveryRequest` of `provided.h`: an item label and a location. -/
structure DeliveryRequest (G I : Type) where
  item : I
  location : G
  deriving DecidableEq

section Optimizer

variable {G I : Type}

/-- The three statements that compute a crow distance: the leg from the depot to
`deliveries[0]`, the loop over `i = 1 .. size - 1` adding the leg from `deliveries[i - 1]`
to `deliveries[i]`, and the leg from `deliveries[size - 1]` back to the depot.  `oob` is
the value an out-of-range `deliveries[i]` yields. -/
def crowDistance (dist : G → G → ℚ) (oob : DeliveryRequest G I) (depot : G)
    (deliveries : List (DeliveryRequest G I)) : ℚ :=
  let d0 := dist depot (deliveries.getD 0 oob).location
  let d1 := (List.range' 1 (deliveries.length - 1)).foldl
    (fun acc i =>
      acc + dist (deliveries.getD (i - 1) oob).location (deliveries.getD i oob).location)
    d0
  d1 + dist (deliveries.getD (deliveries.length - 1) oob).location depot

/-- The scan for the closest delivery: start with index 0 and, for `i = 1 .. size - 1`,
move to `i` when `deliveries[i]` is strictly closer to `current` than the best so far.
Returns the index found. -/
def nearestIndex (dist : G → G → ℚ) (oob : DeliveryRequest G I) (current : G)
    (deliveries : List (DeliveryRequest G I)) : Nat :=
  ((List.range' 1 (deliveries.length - 1)).foldl
    (fun (st : ℚ × Nat) i =>
      let currentDistance := dist current (deliveries.getD i oob).location
      if currentDistance < st.1 then (currentDistance, i) else st)
    (dist current (deliveries.getD 0 oob).location, 0)).2

/-- The loop `while (deliveries.size() > 1)`: move the delivery closest to `current`
from `deliveries` to the end of `newOrder`.  Every iteration erases one element, so
`deliveries.length` iterations always suffice for the first argument. -/
def orderLoop (dist : G → G → ℚ) (oob : DeliveryRequest G I) :
    Nat → G → List (DeliveryRequest G I) → List (DeliveryRequest G I) →
      List (DeliveryRequest G I) × List (DeliveryRequest G I)
  | 0, _, deliveries, newOrder => (deliveries, newOrder)
  | fuel + 1, current, deliveries, newOrder =>
    if deliveries.length > 1 then
      let shortestDistancePosition := nearestIndex dist oob current deliveries
      orderLoop dist oob fuel (deliveries.getD shortestDistancePosition oob).location
        (deliveries.eraseIdx shortestDistancePosition)
        (newOrder ++ [deliveries.getD shortestDistancePosition oob])
    else (deliveries, newOrder)

/-- The outputs of `optimizeDeliveryOrder`: the reference parameters `deliveries`,
`oldCrowDistance` and `newCrowDistance`. -/
structure OptimizeResult (G I : Type) where
  deliveries : List (DeliveryRequest G I)
  oldCrowDistance : ℚ
  newCrowDistance : ℚ

/-- The member `DeliveryOptimizerImpl::optimizeDeliveryOrder`.  After the loop the code
reads `deliveries[0]` without a test; when the input had a single request the vector is
empty at that point and the read yields `oob`. -/
def optimizeDeliveryOrder (dist : G → G → ℚ) (oob : DeliveryRequest G I) (depot : G)
    (deliveries : List (DeliveryRequest G I)) : OptimizeResult G I :=
  let oldCrowDistance := crowDistance dist oob depot deliveries
  let shortestFromDepotLocationNumber := nearestIndex dist oob depot deliveries
  let newOrder := [deliveries.getD shortestFromDepotLocationNumber oob]
  let current := (deliveries.getD shortestFromDepotLocationNumber oob).location
  let deliveries1 := deliveries.eraseIdx shortestFromDepotLocationNumber
  let st := orderLoop dist oob deliveries1.length current deliveries1 newOrder
  let deliveries2 := st.2 ++ [st.1.getD 0 oob]
  { deliveries := deliveries2
    oldCrowDistance := oldCrowDistance
    newCrowDistance := crowDistance dist oob depot deliveries2 }

/-- The candidate the specification selects: among `(index, request)` candidates the one
closest to `current`, a tie in distance going to the lowest index of the original list. -/
def refNearest (dist : G → G → ℚ) (current : G) :
    List (Nat × DeliveryRequest G I) → Option (Nat × DeliveryRequest G I)
  | [] => none
  | c :: rest =>
    match refNearest dist current rest with
    | none => some c
    | some b =>
      if dist current c.2.location < dist current b.2.location ∨
          (dist current c.2.location = dist current b.2.location ∧ c.1 ≤ b.1) then some c
      else some b

/-- The reference greedy nearest-neighbour order of the specification: repeatedly take
the candidate `refNearest` selects for the current position and continue from its
location with the candidates not yet chosen. -/
def refGreedy (dist : G → G → ℚ) :
    Nat → G → List (Nat × DeliveryRequest G I) → List (DeliveryRequest G I)
  | 0, _, _ => []
  | n + 1, current, candidates =>
    match refNearest dist current candidates with
    | none => []
    | some b =>
      b.2 :: refGreedy dist n b.2.location (candidates.filter (fun c => decide (c.1 ≠ b.1)))

/-- The sum of the distances between consecutive coordinates of a list. -/
def pathLength (dist : G → G → ℚ) : List G → ℚ
  | a :: b :: rest => dist a b + pathLength dist (b :: rest)
  | _ => 0

/-- The crow distance of the specification for a visiting order: depot, the locations in
order, and back to the depot. -/
def tourLength (dist : G → G → ℚ) (depot : G) (order : List (DeliveryRequest G I)) : ℚ :=
  pathLength dist (depot :: order.map (fun d => d.location) ++ [depot])

end Optimizer

section GreedyProofs

variable {G I : Type}

/-- The invariant of the scan for the closest delivery after the indices below `m`. -/
def ScanInv (dist : G → G → ℚ) (oob : DeliveryRequest G I) (current : G)
    (l : List (DeliveryRequest G I)) (m : Nat) (st : ℚ × Nat) : Prop :=
  st.2 < m ∧ st.1 = dist current (l.getD st.2 oob).location ∧
    ∀ q, q < m → st.1 ≤ dist current (l.getD q oob).location ∧
      (q < st.2 → st.1 < dist current (l.getD q oob).location)

/-- One candidate is at least as good as another: strictly closer, or equally close with
an index that is not higher. -/
def Preferred (dist : G → G → ℚ) (current : G) (b c : Nat × DeliveryRequest G I) : Prop :=
  dist current b.2.location < dist current c.2.location ∨
    (dist current b.2.location = dist current c.2.location ∧ b.1 ≤ c.1)

/-- The candidate list is ordered by strictly increasing original index. -/
def IndexSorted (cands : List (Nat × DeliveryRequest G I)) : Prop :=
  cands.Pairwise (fun x y => x.1 < y.1)

end GreedyProofs

namespace StreetMapImpl

variable {G S : Type} [DecidableEq G]

/-- The call `found->push_back(seg)` through the pointer `find` returned: the segment
vector of the first entry of the bucket whose key equals `key` gets `seg` appended. -/
def pushBackInBucket (key : G) (seg : StreetSegment G S) :
    List (G × List (StreetSegment G S)) → List (G × List (StreetSegment G S))
  | [] => []
  | p :: rest =>
    if p.1 = key then (p.1, p.2 ++ [seg]) :: rest
    else p :: pushBackInBucket key seg rest

/-- One of the two blocks of `load` that add a segment to the data map under `key`:
when `data.find(key)` finds a vector the segment is pushed onto it, otherwise a new
one-element vector is associated with `key`. -/
def addSegment (hasher : G → Nat) (fuel : Nat)
    (data : ExpandableHashMap G (List (StreetSegment G S))) (key : G)
    (seg : StreetSegment G S) : Option (ExpandableHashMap G (List (StreetSegment G S))) :=
  match ExpandableHashMap.find hasher data key with
  | some _ =>
    let i := ExpandableHashMap.getBucketNumber hasher data key
    some { data with m_buckets :=
      data.m_buckets.set i (pushBackInBucket key seg (data.m_buckets.getD i [])) }
  | none => ExpandableHashMap.associate hasher fuel data key [seg]

/-- The part of `load` that registers the parsed segments `(start, end, streetName)`, in
file order: the forward segment under `start`, then the reverse segment under `end`.
(Reading the lines of the map file into these triples is left out.) -/
def load (hasher : G → Nat) (fuel : Nat) :
    List (G × G × S) → ExpandableHashMap G (List (StreetSegment G S)) →
      Option (ExpandableHashMap G (List (StreetSegment G S)))
  | [], data => some data
  | (start, end_, streetName) :: rest, data =>
    let forward : StreetSegment G S := ⟨start, end_, streetName⟩
    let reverse : StreetSegment G S := ⟨end_, start, streetName⟩
    match addSegment hasher fuel data start forward with
    | none => none
    | some data1 =>
      match addSegment hasher fuel data1 end_ reverse with
      | none => none
      | some data2 => load hasher fuel rest data2

/-- The member `StreetMapImpl::getSegmentsThatStartWith`: `none` is the return value
`false` (with `segs` untouched), `some segs` is `true` with `segs` set to a copy of the
vector found. -/
def getSegmentsThatStartWith (hasher : G → Nat)
    (data : ExpandableHashMap G (List (StreetSegment G S))) (gc : G) :
    Option (List (StreetSegment G S)) :=
  ExpandableHashMap.find hasher data gc

/-- What the specification expects under coordinate `c` after loading `segments`: in
load order, the forward segment of every loaded segment starting at `c` and the reverse
segment of every loaded segment ending at `c`. -/
def expectedSegments (c : G) : List (G × G × S) → List (StreetSegment G S)
  | [] => []
  | (start, end_, streetName) :: rest =>
    (if start = c then [⟨c, end_, streetName⟩] else []) ++
      ((if end_ = c then [⟨c, start, streetName⟩] else []) ++ expectedSegments c rest)

/-- The answer of a lookup whose vector is `segs`: not-found when there is none. -/
def lookupOf (segs : List (StreetSegment G S)) : Option (List (StreetSegment G S)) :=
  if segs.isEmpty then none else some segs

end StreetMapImpl

/-- The class `DeliveryCommand` of `provided.h` after one of its three initialisers:
`initAsProceedCommand(direction, streetName, distance)`,
`initAsTurnCommand(direction, streetName)` and `initAsDeliverCommand(item)`. -/
inductive DeliveryCommand (S I : Type) where
  | Proceed (direction : String) (streetName : S) (distance : ℚ)
  | Turn (direction : String) (streetName : S)
  | Deliver (item : I)
  deriving DecidableEq

/-- The geometry functions of `provided.h` the planner calls: `distanceEarthMiles`,
`angleOfLine` and `angleBetween2Lines`, taken as arbitrary pure functions, together with
`add`, the operator `+` on `double` values as the machine performs it (the exact sum
rounded to a `double`).  `add` is an arbitrary function too, so what is proved for every
geometry holds whatever the rounding does. -/
structure Geometry (G S : Type) where
  distanceEarthMiles : G → G → ℚ
  angleOfLine : StreetSegment G S → ℚ
  angleBetween2Lines : StreetSegment G S → StreetSegment G S → ℚ
  add : ℚ → ℚ → ℚ

/-- The member `DeliveryPlannerImpl::turn`. -/
def turn (angle : ℚ) : String :=
  if angle ≥ 1 ∧ angle < 180 then "left"
  else if angle ≥ 180 ∧ angle ≤ 359 then "right"
  else "error"

/-- The member `DeliveryPlannerImpl::direction`. -/
def direction (angle : ℚ) : String :=
  if angle ≥ 0 ∧ angle < 22.5 then "east"
  else if angle ≥ 22.5 ∧ angle < 67.5 then "northeast"
  else if angle ≥ 67.5 ∧ angle < 112.5 then "north"
  else if angle ≥ 112.5 ∧ angle < 157.5 then "northwest"
  else if angle ≥ 157.5 ∧ angle < 202.5 then "west"
  else if angle ≥ 202.5 ∧ angle < 247.5 then "southwest"
  else if angle ≥ 247.5 ∧ angle < 292.5 then "south"
  else if angle ≥ 292.5 ∧ angle < 337.5 then "southeast"
  else "east"

/-- The variables the narration of one leg works on: the output parameters `commands`
and `totalDistanceTravelled` and the locals `prev` (`none` is `nullptr`), `prevStreet`,
`currentDistance` and `currentDirection`. -/
structure LegState (G S I : Type) where
  commands : List (DeliveryCommand S I)
  totalDistanceTravelled : ℚ
  prev : Option (StreetSegment G S)
  prevStreet : S
  currentDistance : ℚ
  currentDirection : String

section Planner

variable {G S I : Type} [DecidableEq G] [DecidableEq S] [Inhabited S]

/-- The body of the loop over the segments of one route. -/
def narrateSegment (geo : Geometry G S) (st : LegState G S I) (p : StreetSegment G S) :
    LegState G S I :=
  let currentDirection := direction (geo.angleOfLine p)
  let currentStreet := p.name
  let segmentDistance := geo.distanceEarthMiles p.start p.end_
  let upd : List (DeliveryCommand S I) × ℚ :=
    match st.prev with
    | some prev =>
      if st.prevStreet = currentStreet then
        (st.commands, geo.add st.currentDistance (geo.distanceEarthMiles prev.end_ p.end_))
      else
        let currentTurn := turn (geo.angleBetween2Lines p prev)
        let commands1 :=
          if currentTurn ≠ "error" then
            st.commands ++ [DeliveryCommand.Turn currentTurn currentStreet]
          else st.commands
        (commands1 ++ [DeliveryCommand.Proceed currentDirection st.prevStreet st.currentDistance],
          0)
    | none => (st.commands, geo.distanceEarthMiles p.start p.end_)
  { commands := upd.1
    totalDistanceTravelled := geo.add st.totalDistanceTravelled segmentDistance
    prev := some p
    prevStreet := currentStreet
    currentDistance := upd.2
    currentDirection := currentDirection }

/-- The narration of one route: the loop over its segments with fresh locals, then the
final `Proceed` command when `currentDistance` is not zero.  Returns `commands` and
`totalDistanceTravelled`. -/
def narrateLeg (geo : Geometry G S) (acc : List (DeliveryCommand S I) × ℚ)
    (currentRoute : List (StreetSegment G S)) : List (DeliveryCommand S I) × ℚ :=
  let st := currentRoute.foldl (narrateSegment geo)
    { commands := acc.1, totalDistanceTravelled := acc.2, prev := none,
      prevStreet := default, currentDistance := 0, currentDirection := "" }
  let commands1 :=
    if st.currentDistance ≠ 0 then
      st.commands ++
        [DeliveryCommand.Proceed st.currentDirection st.prevStreet st.currentDistance]
    else st.commands
  (commands1, st.totalDistanceTravelled)

/-- The loop `for (i = 0; i < routes.size(); i++)` from index `i` on: narrate `routes[i]`
and, when `i < routes.size() - 1`, add the `Deliver` command for
`targetDeliveries[i].item`.  `nRoutes` is `routes.size()`. -/
def narrateRoutes (geo : Geometry G S) (oob : DeliveryRequest G I)
    (targetDeliveries : List (DeliveryRequest G I)) (nRoutes : Nat) :
    Nat → List (List (StreetSegment G S)) → List (DeliveryCommand S I) × ℚ →
      List (DeliveryCommand S I) × ℚ
  | _, [], acc => acc
  | i, currentRoute :: rest, acc =>
    let leg := narrateLeg geo acc currentRoute
    let commands1 :=
      if i < nRoutes - 1 then
        leg.1 ++ [DeliveryCommand.Deliver (targetDeliveries.getD i oob).item]
      else leg.1
    narrateRoutes geo oob targetDeliveries nRoutes (i + 1) rest (commands1, leg.2)

/-- The loop over `i = 0 .. targetDeliveries.size() - 2` that routes from
`targetDeliveries[i]` to `targetDeliveries[i + 1]`, given the indices still to do: it
stops with the result code of the first call that does not succeed.  `router` is the
call `router.generatePointToPointRoute`. -/
def legLoop (router : G → G → Option (RouteResult G S)) (oob : DeliveryRequest G I)
    (targetDeliveries : List (DeliveryRequest G I)) :
    List Nat → List (List (StreetSegment G S)) →
      Option (DeliveryResult × List (List (StreetSegment G S)))
  | [], routes => some (DeliveryResult.DELIVERY_SUCCESS, routes)
  | i :: rest, routes =>
    match router (targetDeliveries.getD i oob).location
        (targetDeliveries.getD (i + 1) oob).location with
    | none => none
    | some r =>
      if r.result = DeliveryResult.BAD_COORD then some (DeliveryResult.BAD_COORD, routes)
      else if r.result = DeliveryResult.NO_ROUTE then some (DeliveryResult.NO_ROUTE, routes)
      else legLoop router oob targetDeliveries rest (routes ++ [r.route])

/-- The outputs of `generateDeliveryPlan`: the result code and the reference parameters
`commands` and `totalDistanceTravelled`. -/
structure PlanResult (S I : Type) where
  result : DeliveryResult
  commands : List (DeliveryCommand S I)
  totalDistanceTravelled : ℚ

/-- The body of `DeliveryPlannerImpl::generateDeliveryPlan` with its calls to the
router passed as `router`.  `commands` and `totalDistanceTravelled` are the values the
caller's variables hold on entry; `commands` is cleared first, `totalDistanceTravelled`
is assigned only after all legs were routed. -/
def generateDeliveryPlanWith (router : G → G → Option (RouteResult G S))
    (geo : Geometry G S) (oob : DeliveryRequest G I) (depot : G)
    (deliveries : List (DeliveryRequest G I)) (_commands : List (DeliveryCommand S I))
    (totalDistanceTravelled : ℚ) : Option (PlanResult S I) :=
  if deliveries.isEmpty then
    some ⟨DeliveryResult.DELIVERY_SUCCESS, [], totalDistanceTravelled⟩
  else
    let targetDeliveries :=
      (optimizeDeliveryOrder geo.distanceEarthMiles oob depot deliveries).deliveries
    match router depot (deliveries.getD 0 oob).location with
    | none => none
    | some r0 =>
      if r0.result = DeliveryResult.BAD_COORD then
        some ⟨DeliveryResult.BAD_COORD, [], totalDistanceTravelled⟩
      else if r0.result = DeliveryResult.NO_ROUTE then
        some ⟨DeliveryResult.NO_ROUTE, [], totalDistanceTravelled⟩
      else
        match legLoop router oob targetDeliveries
            (List.range (targetDeliveries.length - 1)) [r0.route] with
        | none => none
        | some (code, routes1) =>
          if code = DeliveryResult.BAD_COORD then
            some ⟨DeliveryResult.BAD_COORD, [], totalDistanceTravelled⟩
          else if code = DeliveryResult.NO_ROUTE then
            some ⟨DeliveryResult.NO_ROUTE, [], totalDistanceTravelled⟩
          else
            match router (targetDeliveries.getD (targetDeliveries.length - 1) oob).location
                depot with
            | none => none
            | some r2 =>
              if r2.result = DeliveryResult.BAD_COORD then
                some ⟨DeliveryResult.BAD_COORD, [], totalDistanceTravelled⟩
              else if r2.result = DeliveryResult.NO_ROUTE then
                some ⟨DeliveryResult.NO_ROUTE, [], totalDistanceTravelled⟩
              else
                let routes := routes1 ++ [r2.route]
                let out := narrateRoutes geo oob targetDeliveries routes.length 0 routes ([], 0)
                some ⟨DeliveryResult.DELIVERY_SUCCESS, out.1, out.2⟩

/-- The member `DeliveryPlannerImpl::generateDeliveryPlan` on the street graph `sm`;
`fuel` is the iteration bound handed to every router call. -/
def generateDeliveryPlan (sm : StreetMap G S) (geo : Geometry G S)
    (oob : DeliveryRequest G I) (fuel : Nat) (depot : G)
    (deliveries : List (DeliveryRequest G I)) (commands : List (DeliveryCommand S I))
    (totalDistanceTravelled : ℚ) : Option (PlanResult S I) :=
  generateDeliveryPlanWith (generatePointToPointRoute sm fuel) geo oob depot deliveries
    commands totalDistanceTravelled

/-- The pairs of neighbouring elements of a list, in order. -/
def consecutivePairs : List G → List (G × G)
  | a :: b :: rest => (a, b) :: consecutivePairs (b :: rest)
  | _ => []

/-- The legs of a plan as the specification lists them: from the depot to the first
element of the original list, then every consecutive pair of the optimized list, then
from the last optimized delivery back to the depot. -/
def planLegs (depot : G) (deliveries targetDeliveries : List (DeliveryRequest G I)) :
    List (G × G) :=
  match deliveries.head?, targetDeliveries.getLast? with
  | some first, some last =>
    (depot, first.location) ::
      (consecutivePairs (targetDeliveries.map (fun d => d.location)) ++
        [(last.location, depot)])
  | _, _ => []

/-- The result code of the first leg that does not succeed, `DELIVERY_SUCCESS` when all
succeed. -/
def firstFailure : List DeliveryResult → DeliveryResult
  | [] => DeliveryResult.DELIVERY_SUCCESS
  | c :: rest => if c = DeliveryResult.DELIVERY_SUCCESS then firstFailure rest else c

/-- The number of `Deliver` commands in a command list. -/
def deliverCount : List (DeliveryCommand S I) → Nat
  | [] => 0
  | DeliveryCommand.Deliver _ :: rest => deliverCount rest + 1
  | _ :: rest => deliverCount rest

/-- The value of a `double` variable that is set to 0 and then increased by every element
of `xs` in turn (`x += ...`), the additions performed by `add`. -/
def accumulate (add : ℚ → ℚ → ℚ) (xs : List ℚ) : ℚ :=
  xs.foldl add 0

/-- The items of the `Deliver` commands of a command list, in order. -/
def deliveredItems : List (DeliveryCommand S I) → List I
  | [] => []
  | DeliveryCommand.Deliver item :: rest => item :: deliveredItems rest
  | _ :: rest => deliveredItems rest

end Planner

/-- A street graph on a line: street 7 between 0 and 1, street 9 between 1 and 2 and
between 2 and 3, every segment loaded in both directions. -/
def lineGraph : StreetMap Nat Nat :=
  StreetMap.ofList
    [(0, [⟨0, 1, 7⟩]), (1, [⟨1, 0, 7⟩, ⟨1, 2, 9⟩]), (2, [⟨2, 1, 9⟩, ⟨2, 3, 9⟩]),
      (3, [⟨3, 2, 9⟩])]

/-- A geometry for examples: every segment is one unit long, the segment leaving 0 heads
east (angle 0), every other segment heads north (angle 90), and every change of street
is a left turn (angle 90).  Sums of such lengths are small whole numbers, which `double`
addition gives exactly. -/
def unitGeometry : Geometry Nat Nat where
  distanceEarthMiles := fun _ _ => 1
  angleOfLine := fun s => if s.start = 0 then 0 else 90
  angleBetween2Lines := fun _ _ => 90
  add := fun a b => a + b

/-- A geometry for examples on numbered coordinates: the distance is the difference of
the coordinate numbers, every segment heads east and no change of street is a turn.
Sums of such lengths are small whole numbers, which `double` addition gives exactly. -/
def gapGeometry : Geometry Nat Nat where
  distanceEarthMiles := fun a b => |(a : ℚ) - (b : ℚ)|
  angleOfLine := fun _ => 0
  angleBetween2Lines := fun _ _ => 0
  add := fun a b => a + b

section PlannerProofDefs

variable {G S I : Type} [DecidableEq G] [DecidableEq S] [Inhabited S]

/-- The legs in the order the code routes them, written with the indices it uses. -/
def indexLegs (oob : DeliveryRequest G I) (depot : G)
    (deliveries targetDeliveries : List (DeliveryRequest G I)) : List (G × G) :=
  (depot, (deliveries.getD 0 oob).location) ::
    ((List.range (targetDeliveries.length - 1)).map
        (fun i => ((targetDeliveries.getD i oob).location,
          (targetDeliveries.getD (i + 1) oob).location)) ++
      [((targetDeliveries.getD (targetDeliveries.length - 1) oob).location, depot)])

end PlannerProofDefs

/-- The triangle of streets between 0, 1 and 2 with one more street from 2 to 3, every
street loaded in both directions. -/
def kite : StreetMap Nat Nat :=
  StreetMap.ofList
    [(0, [⟨0, 1, 7⟩, ⟨0, 2, 8⟩]), (1, [⟨1, 0, 7⟩, ⟨1, 2, 9⟩]),
      (2, [⟨2, 0, 8⟩, ⟨2, 1, 9⟩, ⟨2, 3, 6⟩]), (3, [⟨3, 2, 6⟩])]

namespace ExpandableHashMap

variable {K V : Type} [DecidableEq K]

/-- The conversion of a `size_t` value to `int` (32 bits, two's complement): the value
modulo 2^32, read as a negative number from 2^31 on. -/
def toInt (n : Nat) : Int :=
  if n % 2 ^ 32 < 2 ^ 31 then ((n % 2 ^ 32 : Nat) : Int)
  else ((n % 2 ^ 32 : Nat) : Int) - 2 ^ 32

/-- The body of `rehash` with `newSize` as the `int` the code declares
(`int newSize = m_buckets->size() * 2`), its calls to `associate` passed as `assoc`.  The
loop `for (int i = 0; i < newSize; i++)` pushes `newSize` empty lists, none at all when
`newSize` is not positive; the counter is left as it is and every entry of the old vector
is re-associated. -/
def rehashWithInt (assoc : ExpandableHashMap K V → K → V → Option (ExpandableHashMap K V))
    (m : ExpandableHashMap K V) : Option (ExpandableHashMap K V) :=
  let oldBuckets := m.m_buckets
  let newSize : Int := toInt (m.m_buckets.length * 2)
  reinsertAll assoc oldBuckets { m with m_buckets := List.replicate newSize.toNat [] }

/-- The member `associate` with `rehash` as `rehashWithInt`.  Its first statement,
`find(key)`, computes `hasher(key) % m_buckets->size()`, a division by zero when the
bucket vector is empty: `none` is that failure as well as the bound on the depth of the
mutual recursion of `associate` and `rehash`. -/
def associateInt (hasher : K → Nat) :
    Nat → ExpandableHashMap K V → K → V → Option (ExpandableHashMap K V)
  | 0, _, _, _ => none
  | fuel + 1, m, key, value =>
    if m.m_buckets.length = 0 then none
    else
      match find hasher m key with
      | some _ =>
        let i := getBucketNumber hasher m key
        some { m with m_buckets :=
          m.m_buckets.set i (assignInBucket key value (m.m_buckets.getD i [])) }
      | none =>
        let i := getBucketNumber hasher m key
        let m1 : ExpandableHashMap K V :=
          { m with
            m_buckets := m.m_buckets.set i (m.m_buckets.getD i [] ++ [(key, value)])
            m_nAssociations := m.m_nAssociations + 1 }
        if currentLoadFactor m1 > m1.m_maximumLoadFactor then
          rehashWithInt (associateInt hasher fuel) m1
        else
          some m1

/-- A sequence of `associate(key, value)` calls, in order, on the map `m`, with `newSize`
as an `int`. -/
def associateAllInt (hasher : K → Nat) (fuel : Nat) :
    List (K × V) → ExpandableHashMap K V → Option (ExpandableHashMap K V)
  | [], m => some m
  | p :: rest, m =>
    match associateInt hasher fuel m p.1 p.2 with
    | none => none
    | some m1 => associateAllInt hasher fuel rest m1

/-- A condition under which `n` calls of `associate` on a fresh map with maximum load
factor `L` stay within the bucket counts an `int` can hold: `28 * n ≤ L * 2^29`.  With
the default `L = 0.5` it allows more than nine million calls. -/
def WithinIntRange (L : ℚ) (n : Nat) : Prop :=
  (28 : ℚ) * (n : ℚ) ≤ L * 2 ^ 29

end ExpandableHashMap

end MapDelivery

/-! ## Theorems -/

namespace MapDelivery

namespace ExpandableHashMap

variable {K V : Type} [DecidableEq K]

theorem findInBucket_none_iff (key : K) (b : List (K × V)) :
    findInBucket key b = none ↔ ∀ p ∈ b, p.1 ≠ key := by
  induction b with
  | nil => simp [findInBucket]
  | cons p rest ih =>
    by_cases h : p.1 = key
    · simp [findInBucket, h]
    · simp [findInBucket, h, ih]

theorem findInBucket_some_mem (key : K) (b : List (K × V)) (v : V)
    (h : findInBucket key b = some v) : (key, v) ∈ b := by
  induction b with
  | nil => simp [findInBucket] at h
  | cons p rest ih =>
    by_cases hp : p.1 = key
    · simp [findInBucket, hp] at h
      subst hp; subst h
      simp
    · simp [findInBucket, hp] at h
      exact List.mem_cons_of_mem _ (ih h)

theorem findInBucket_of_mem (key : K) (b : List (K × V)) (v : V)
    (hnd : (b.map Prod.fst).Nodup) (h : (key, v) ∈ b) : findInBucket key b = some v := by
  induction b with
  | nil => simp at h
  | cons p rest ih =>
    simp only [List.map_cons, List.nodup_cons] at hnd
    rcases List.mem_cons.mp h with h1 | h1
    · subst h1
      simp [findInBucket]
    · have hne : p.1 ≠ key := by
        intro hp
        apply hnd.1
        rw [hp]
        exact List.mem_map.mpr ⟨(key, v), h1, rfl⟩
      simp [findInBucket, hne, ih hnd.2 h1]

theorem findInBucket_append (key : K) (b c : List (K × V)) :
    findInBucket key (b ++ c) =
      match findInBucket key b with
      | some v => some v
      | none => findInBucket key c := by
  induction b with
  | nil => simp [findInBucket]
  | cons p rest ih =>
    by_cases hp : p.1 = key
    · simp [findInBucket, hp]
    · simp [findInBucket, hp, ih]

theorem findInBucket_assign (key : K) (value : V) (k : K) (b : List (K × V)) :
    findInBucket k (assignInBucket key value b) =
      if k = key then (findInBucket key b).map (fun _ => value) else findInBucket k b := by
  induction b with
  | nil => simp [findInBucket, assignInBucket]
  | cons p rest ih =>
    by_cases hp : p.1 = key
    · by_cases hk : k = key
      · subst hk; simp [findInBucket, assignInBucket, hp]
      · have : ¬ p.1 = k := fun h => hk (h ▸ hp)
        have h2 : ¬ key = k := fun h => hk h.symm
        simp [findInBucket, assignInBucket, hp, hk, this, h2]
    · by_cases hk : k = key
      · subst hk; simp [findInBucket, assignInBucket, hp, ih]
      · simp [findInBucket, assignInBucket, hp, hk, ih]

theorem map_fst_assignInBucket (key : K) (value : V) (b : List (K × V)) :
    (assignInBucket key value b).map Prod.fst = b.map Prod.fst := by
  induction b with
  | nil => simp [assignInBucket]
  | cons p rest ih =>
    by_cases hp : p.1 = key
    · simp [assignInBucket, hp]
    · simp [assignInBucket, hp, ih]

theorem length_assignInBucket (key : K) (value : V) (b : List (K × V)) :
    (assignInBucket key value b).length = b.length := by
  have := congrArg List.length (map_fst_assignInBucket key value b)
  simpa using this

/-- Replacing the bucket selected by `key` changes `find` only for keys of that bucket. -/
theorem find_set_bucket (hasher : K → Nat) (m : ExpandableHashMap K V) (key : K)
    (b : List (K × V)) (n : Nat) (L : ℚ) (hpos : 0 < m.m_buckets.length) (k : K) :
    find hasher
        { m_buckets := m.m_buckets.set (getBucketNumber hasher m key) b
          m_nAssociations := n, m_maximumLoadFactor := L } k =
      if getBucketNumber hasher m k = getBucketNumber hasher m key then findInBucket k b
      else find hasher m k := by
  have hlt : getBucketNumber hasher m key < m.m_buckets.length := Nat.mod_lt _ hpos
  simp only [find, getBucketNumber, List.length_set, List.getD_eq_getElem?_getD,
    List.getElem?_set]
  simp only [getBucketNumber] at hlt
  by_cases h : hasher k % m.m_buckets.length = hasher key % m.m_buckets.length
  · simp [h, hlt]
  · have h2 : ¬ hasher key % m.m_buckets.length = hasher k % m.m_buckets.length :=
      fun e => h e.symm
    simp [h, h2]

theorem Inv_set_bucket (hasher : K → Nat) (m : ExpandableHashMap K V) (key : K)
    (b : List (K × V)) (n : Nat) (L : ℚ) (hinv : Inv hasher m)
    (hb1 : ∀ p ∈ b, hasher p.1 % m.m_buckets.length = getBucketNumber hasher m key)
    (hb2 : (b.map Prod.fst).Nodup) :
    Inv hasher
        { m_buckets := m.m_buckets.set (getBucketNumber hasher m key) b
          m_nAssociations := n, m_maximumLoadFactor := L } := by
  refine ⟨by simpa using hinv.1, ?_⟩
  intro i c hc
  simp only [List.length_set]
  simp only [List.getElem?_set] at hc
  by_cases h : getBucketNumber hasher m key = i
  · have hlt : getBucketNumber hasher m key < m.m_buckets.length := Nat.mod_lt _ hinv.1
    simp only [h, if_true] at hc
    rw [h] at hlt
    simp only [hlt, if_true, Option.some.injEq] at hc
    subst hc
    exact ⟨fun p hp => h ▸ hb1 p hp, hb2⟩
  · simp only [h, if_false] at hc
    exact hinv.2 i c hc

theorem getD_bucket_spec (hasher : K → Nat) (m : ExpandableHashMap K V) (key : K)
    (hinv : Inv hasher m) :
    (∀ p ∈ m.m_buckets.getD (getBucketNumber hasher m key) [],
        hasher p.1 % m.m_buckets.length = getBucketNumber hasher m key) ∧
      ((m.m_buckets.getD (getBucketNumber hasher m key) []).map Prod.fst).Nodup := by
  have hlt : getBucketNumber hasher m key < m.m_buckets.length := Nat.mod_lt _ hinv.1
  have h := hinv.2 (getBucketNumber hasher m key) (m.m_buckets[getBucketNumber hasher m key])
    (List.getElem?_eq_getElem hlt)
  simpa [List.getD_eq_getElem?_getD, List.getElem?_eq_getElem hlt] using h

end ExpandableHashMap

theorem mostRecent_none_iff {K V : Type} [DecidableEq K] (key : K) (es : List (K × V)) :
    mostRecent key es = none ↔ ∀ p ∈ es, p.1 ≠ key := by
  induction es with
  | nil => simp [mostRecent]
  | cons p rest ih =>
    cases hr : mostRecent key rest with
    | none =>
      have h1 := ih.mp hr
      by_cases hp : p.1 = key
      · simp [mostRecent, hr, hp]
      · simp only [mostRecent, hr, hp, if_false, true_iff]
        intro q hq
        rcases List.mem_cons.mp hq with rfl | hq
        · exact hp
        · exact h1 q hq
    | some v =>
      simp only [mostRecent, hr]
      constructor
      · intro h
        cases h
      · intro hall
        have : mostRecent key rest = none :=
          ih.mpr (fun q hq => hall q (List.mem_cons_of_mem _ hq))
        rw [hr] at this
        cases this

theorem mostRecent_some_mem {K V : Type} [DecidableEq K] (key : K) (es : List (K × V)) (v : V)
    (h : mostRecent key es = some v) : (key, v) ∈ es := by
  induction es with
  | nil => simp [mostRecent] at h
  | cons p rest ih =>
    cases hr : mostRecent key rest with
    | none =>
      by_cases hp : p.1 = key
      · simp [mostRecent, hr, hp] at h
        subst hp; subst h
        simp
      · simp [mostRecent, hr, hp] at h
    | some w =>
      simp [mostRecent, hr] at h
      subst h
      exact List.mem_cons_of_mem _ (ih hr)

theorem mostRecent_append {K V : Type} [DecidableEq K] (key : K) (as bs : List (K × V)) :
    mostRecent key (as ++ bs) =
      match mostRecent key bs with
      | some v => some v
      | none => mostRecent key as := by
  induction as with
  | nil =>
    cases h : mostRecent key bs <;> simp [mostRecent, h]
  | cons p rest ih =>
    have e : mostRecent key (p :: rest ++ bs) =
        match mostRecent key (rest ++ bs) with
        | some v => some v
        | none => if p.1 = key then some p.2 else none := rfl
    rw [e, ih]
    cases h : mostRecent key bs with
    | none => rfl
    | some v => rfl

namespace ExpandableHashMap

variable {K V : Type} [DecidableEq K]

theorem mem_entries_iff (m : ExpandableHashMap K V) (p : K × V) :
    p ∈ entries m ↔ ∃ (i : Nat) (b : List (K × V)), m.m_buckets[i]? = some b ∧ p ∈ b := by
  simp only [entries, List.mem_flatten]
  constructor
  · rintro ⟨b, hb, hp⟩
    obtain ⟨i, hi⟩ := List.mem_iff_getElem?.mp hb
    exact ⟨i, b, hi, hp⟩
  · rintro ⟨i, b, hi, hp⟩
    exact ⟨b, List.mem_iff_getElem?.mpr ⟨i, hi⟩, hp⟩

theorem mem_entries_bucket (hasher : K → Nat) (m : ExpandableHashMap K V)
    (hinv : Inv hasher m) (p : K × V) (hp : p ∈ entries m) :
    p ∈ m.m_buckets.getD (getBucketNumber hasher m p.1) [] := by
  obtain ⟨i, b, hi, hpb⟩ := (mem_entries_iff m p).mp hp
  have h1 := (hinv.2 i b hi).1 p hpb
  simp only [getBucketNumber, List.getD_eq_getElem?_getD, h1, hi, Option.getD_some]
  exact hpb

theorem bucket_subset_entries (hasher : K → Nat) (m : ExpandableHashMap K V)
    (hinv : Inv hasher m) (key : K) (p : K × V)
    (hp : p ∈ m.m_buckets.getD (getBucketNumber hasher m key) []) : p ∈ entries m := by
  have hlt : getBucketNumber hasher m key < m.m_buckets.length := Nat.mod_lt _ hinv.1
  refine (mem_entries_iff m p).mpr ⟨_, _, List.getElem?_eq_getElem hlt, ?_⟩
  simpa [List.getD_eq_getElem?_getD, List.getElem?_eq_getElem hlt] using hp

/-- Under the invariant `find` returns `v` for `key` exactly when `(key, v)` is stored. -/
theorem find_eq_some_iff (hasher : K → Nat) (m : ExpandableHashMap K V)
    (hinv : Inv hasher m) (key : K) (v : V) :
    find hasher m key = some v ↔ (key, v) ∈ entries m := by
  constructor
  · intro h
    exact bucket_subset_entries hasher m hinv key _ (findInBucket_some_mem key _ v h)
  · intro h
    have h1 := mem_entries_bucket hasher m hinv (key, v) h
    exact findInBucket_of_mem key _ v (getD_bucket_spec hasher m key hinv).2 h1

theorem find_eq_none_iff (hasher : K → Nat) (m : ExpandableHashMap K V)
    (hinv : Inv hasher m) (key : K) :
    find hasher m key = none ↔ ∀ p ∈ entries m, p.1 ≠ key := by
  constructor
  · intro h p hp hk
    have h1 := mem_entries_bucket hasher m hinv p hp
    rw [hk] at h1
    exact (findInBucket_none_iff key _).mp h p h1 hk
  · intro h
    apply (findInBucket_none_iff key _).mpr
    intro p hp
    exact h p (bucket_subset_entries hasher m hinv key p hp)

/-- Under the invariant `find` is the finite map read off the stored entries. -/
theorem find_eq_mostRecent_entries (hasher : K → Nat) (m : ExpandableHashMap K V)
    (hinv : Inv hasher m) (key : K) :
    mostRecent key (entries m) = find hasher m key := by
  cases hf : find hasher m key with
  | none =>
    exact (mostRecent_none_iff key _).mpr ((find_eq_none_iff hasher m hinv key).mp hf)
  | some v =>
    cases hr : mostRecent key (entries m) with
    | none =>
      have h1 := (mostRecent_none_iff key _).mp hr
      have h2 := (find_eq_some_iff hasher m hinv key v).mp hf
      exact absurd rfl (h1 _ h2)
    | some w =>
      have h2 := mostRecent_some_mem key _ w hr
      have h3 := (find_eq_some_iff hasher m hinv key w).mpr h2
      rw [hf] at h3
      exact h3.symm

theorem Inv_emptied (hasher : K → Nat) (c : Nat) (L : ℚ) (n : Nat) (hn : 0 < n) :
    Inv hasher ({ m_buckets := List.replicate n [], m_nAssociations := c,
                  m_maximumLoadFactor := L } : ExpandableHashMap K V) := by
  refine ⟨by simpa using hn, ?_⟩
  intro i b hb
  simp only [List.getElem?_replicate] at hb
  split_ifs at hb
  simp only [Option.some.injEq] at hb
  subst hb
  simp

theorem find_emptied (hasher : K → Nat) (c : Nat) (L : ℚ) (n : Nat) (key : K) :
    find hasher ({ m_buckets := List.replicate n [], m_nAssociations := c,
                   m_maximumLoadFactor := L } : ExpandableHashMap K V) key = none := by
  simp only [find, getBucketNumber, List.getD_eq_getElem?_getD, List.getElem?_replicate]
  split_ifs <;> simp [findInBucket]

theorem reinsertBucket_spec (hasher : K → Nat)
    (assoc : ExpandableHashMap K V → K → V → Option (ExpandableHashMap K V))
    (hA : StepOk hasher assoc) :
    ∀ (es : List (K × V)) (m m1 : ExpandableHashMap K V), Inv hasher m →
      reinsertBucket assoc es m = some m1 →
      Inv hasher m1 ∧
      (∀ k, find hasher m1 k =
        match mostRecent k es with
        | some v => some v
        | none => find hasher m k) ∧
      m1.m_maximumLoadFactor = m.m_maximumLoadFactor := by
  intro es
  induction es with
  | nil =>
    intro m m1 hinv h
    simp only [reinsertBucket, Option.some.injEq] at h
    subst h
    exact ⟨hinv, fun k => by simp [mostRecent], rfl⟩
  | cons p rest ih =>
    intro m m1 hinv h
    simp only [reinsertBucket] at h
    cases ha : assoc m p.1 p.2 with
    | none => simp [ha] at h
    | some m2 =>
      simp only [ha] at h
      obtain ⟨hi2, hf2, hl2⟩ := hA m p.1 p.2 m2 hinv ha
      obtain ⟨hi1, hf1, hl1⟩ := ih m2 m1 hi2 h
      refine ⟨hi1, ?_, hl1.trans hl2⟩
      intro k
      rw [hf1 k, hf2 k]
      simp only [mostRecent]
      cases hr : mostRecent k rest with
      | some v => rfl
      | none =>
        by_cases hk : k = p.1
        · simp [hk]
        · have : ¬ p.1 = k := fun e => hk e.symm
          simp [hk, this]

theorem reinsertAll_spec (hasher : K → Nat)
    (assoc : ExpandableHashMap K V → K → V → Option (ExpandableHashMap K V))
    (hA : StepOk hasher assoc) :
    ∀ (bs : List (List (K × V))) (m m1 : ExpandableHashMap K V), Inv hasher m →
      reinsertAll assoc bs m = some m1 →
      Inv hasher m1 ∧
      (∀ k, find hasher m1 k =
        match mostRecent k bs.flatten with
        | some v => some v
        | none => find hasher m k) ∧
      m1.m_maximumLoadFactor = m.m_maximumLoadFactor := by
  intro bs
  induction bs with
  | nil =>
    intro m m1 hinv h
    simp only [reinsertAll, Option.some.injEq] at h
    subst h
    exact ⟨hinv, fun k => by simp [mostRecent], rfl⟩
  | cons b rest ih =>
    intro m m1 hinv h
    simp only [reinsertAll] at h
    cases ha : reinsertBucket assoc b m with
    | none => simp [ha] at h
    | some m2 =>
      simp only [ha] at h
      obtain ⟨hi2, hf2, hl2⟩ := reinsertBucket_spec hasher assoc hA b m m2 hinv ha
      obtain ⟨hi1, hf1, hl1⟩ := ih m2 m1 hi2 h
      refine ⟨hi1, ?_, hl1.trans hl2⟩
      intro k
      rw [hf1 k, hf2 k, List.flatten_cons, mostRecent_append]
      cases hr : mostRecent k rest.flatten <;> rfl

/-- Functional correctness of `associate`: whenever it returns, the invariant is kept and
`find` changes at `key` only. -/
theorem associate_spec (hasher : K → Nat) (fuel : Nat) :
    StepOk hasher (associate (V := V) hasher fuel) := by
  induction fuel with
  | zero =>
    intro m key value m1 _ h
    simp [associate] at h
  | succ fuel ih =>
    intro m key value m1 hinv h
    have hbk := getD_bucket_spec hasher m key hinv
    simp only [associate] at h
    cases hf : find hasher m key with
    | some w =>
      simp only [hf, Option.some.injEq] at h
      subst h
      refine ⟨?_, ?_, rfl⟩
      · apply Inv_set_bucket hasher m key _ _ _ hinv
        · intro p hp
          have hmem : p.1 ∈ (assignInBucket key value
              (m.m_buckets.getD (getBucketNumber hasher m key) [])).map Prod.fst :=
            List.mem_map.mpr ⟨p, hp, rfl⟩
          rw [map_fst_assignInBucket] at hmem
          obtain ⟨q, hq, hqe⟩ := List.mem_map.mp hmem
          rw [← hqe]
          exact hbk.1 q hq
        · rw [map_fst_assignInBucket]
          exact hbk.2
      · intro k
        rw [find_set_bucket hasher m key _ _ _ hinv.1 k, findInBucket_assign]
        by_cases hk : k = key
        · subst hk
          have : findInBucket k (m.m_buckets.getD (getBucketNumber hasher m k) []) = some w := hf
          rw [if_pos rfl, if_pos rfl, if_pos rfl, this]
          rfl
        · simp only [hk, if_false]
          split_ifs with hb
          · simp only [find, hb]
          · rfl
    | none =>
      simp only [hf] at h
      have hnone : ∀ p ∈ m.m_buckets.getD (getBucketNumber hasher m key) [], p.1 ≠ key :=
        (findInBucket_none_iff key _).mp hf
      have hinv1 : Inv hasher
          { m_buckets := m.m_buckets.set (getBucketNumber hasher m key)
              (m.m_buckets.getD (getBucketNumber hasher m key) [] ++ [(key, value)])
            m_nAssociations := m.m_nAssociations + 1
            m_maximumLoadFactor := m.m_maximumLoadFactor } := by
        apply Inv_set_bucket hasher m key _ _ _ hinv
        · intro p hp
          rcases List.mem_append.mp hp with hp | hp
          · exact hbk.1 p hp
          · simp only [List.mem_singleton] at hp
            subst hp
            rfl
        · rw [List.map_append, List.nodup_append]
          refine ⟨hbk.2, by simp, ?_⟩
          intro a ha hb
          simp only [List.map_cons, List.map_nil, List.mem_singleton] at hb
          obtain ⟨q, hq, hqe⟩ := List.mem_map.mp ha
          exact hnone q hq (hqe.trans hb)
      have hfind1 : ∀ k, find hasher
          { m_buckets := m.m_buckets.set (getBucketNumber hasher m key)
              (m.m_buckets.getD (getBucketNumber hasher m key) [] ++ [(key, value)])
            m_nAssociations := m.m_nAssociations + 1
            m_maximumLoadFactor := m.m_maximumLoadFactor } k =
          if k = key then some value else find hasher m k := by
        intro k
        rw [find_set_bucket hasher m key _ _ _ hinv.1 k, findInBucket_append]
        by_cases hk : k = key
        · subst hk
          have : findInBucket k (m.m_buckets.getD (getBucketNumber hasher m k) []) = none := hf
          rw [if_pos rfl, if_pos rfl, this]
          simp only [findInBucket, if_true]
        · have hk2 : ¬ key = k := fun e => hk e.symm
          simp only [hk, if_false]
          split_ifs with hb
          · simp only [find, hb, findInBucket, hk2, if_false]
            cases findInBucket k (m.m_buckets.getD (getBucketNumber hasher m key) []) <;> rfl
          · rfl
      split_ifs at h with hload
      · simp only [rehashWith] at h
        have hlen : 0 < (m.m_buckets.set (getBucketNumber hasher m key)
              (m.m_buckets.getD (getBucketNumber hasher m key) [] ++ [(key, value)])).length * 2 := by
          have := hinv.1
          simp only [List.length_set]
          omega
        obtain ⟨hi, hfd, hl⟩ := reinsertAll_spec hasher _ ih _ _ m1
          (Inv_emptied hasher _ _ _ hlen) h
        refine ⟨hi, ?_, hl⟩
        intro k
        rw [hfd k, find_emptied, ← hfind1 k, ← find_eq_mostRecent_entries hasher _ hinv1 k]
        simp only [entries]
        cases mostRecent k _ <;> rfl
      · simp only [Option.some.injEq] at h
        subst h
        exact ⟨hinv1, hfind1, rfl⟩

theorem Inv_create (hasher : K → Nat) (L : ℚ) : Inv hasher (create L : ExpandableHashMap K V) := by
  refine ⟨by simp [create, INITIAL_NUMBER_OF_BUCKETS], ?_⟩
  intro i b hb
  simp only [create, List.getElem?_replicate] at hb
  split_ifs at hb
  simp only [Option.some.injEq] at hb
  subst hb
  simp

theorem find_create (hasher : K → Nat) (L : ℚ) (key : K) :
    find hasher (create L : ExpandableHashMap K V) key = none := by
  simp only [find, create, List.getD_eq_getElem?_getD, List.getElem?_replicate]
  split_ifs <;> simp [findInBucket]

theorem associateAll_spec (hasher : K → Nat) (fuel : Nat) :
    ∀ (ops : List (K × V)) (m m1 : ExpandableHashMap K V), Inv hasher m →
      associateAll hasher fuel ops m = some m1 →
      Inv hasher m1 ∧
      (∀ k, find hasher m1 k =
        match mostRecent k ops with
        | some v => some v
        | none => find hasher m k) ∧
      m1.m_maximumLoadFactor = m.m_maximumLoadFactor := by
  intro ops
  induction ops with
  | nil =>
    intro m m1 hinv h
    simp only [associateAll, Option.some.injEq] at h
    subst h
    exact ⟨hinv, fun k => by simp [mostRecent], rfl⟩
  | cons p rest ih =>
    intro m m1 hinv h
    simp only [associateAll] at h
    cases ha : associate hasher fuel m p.1 p.2 with
    | none => simp [ha] at h
    | some m2 =>
      simp only [ha] at h
      obtain ⟨hi2, hf2, hl2⟩ := associate_spec hasher fuel m p.1 p.2 m2 hinv ha
      obtain ⟨hi1, hf1, hl1⟩ := ih m2 m1 hi2 h
      refine ⟨hi1, ?_, hl1.trans hl2⟩
      intro k
      rw [hf1 k, hf2 k]
      simp only [mostRecent]
      cases hr : mostRecent k rest with
      | some v => rfl
      | none =>
        by_cases hk : k = p.1
        · simp [hk]
        · have : ¬ p.1 = k := fun e => hk e.symm
          simp [hk, this]

theorem reinsertAll_eq_flatten
    (assoc : ExpandableHashMap K V → K → V → Option (ExpandableHashMap K V)) :
    ∀ (bs : List (List (K × V))) (m : ExpandableHashMap K V),
      reinsertAll assoc bs m = reinsertBucket assoc bs.flatten m := by
  have happ : ∀ (as cs : List (K × V)) (m : ExpandableHashMap K V),
      reinsertBucket assoc (as ++ cs) m =
        match reinsertBucket assoc as m with
        | none => none
        | some m1 => reinsertBucket assoc cs m1 := by
    intro as
    induction as with
    | nil => intro cs m; rfl
    | cons p rest ih =>
      intro cs m
      simp only [List.cons_append, reinsertBucket]
      cases assoc m p.1 p.2 with
      | none => rfl
      | some m1 => exact ih cs m1
  intro bs
  induction bs with
  | nil => intro m; rfl
  | cons b rest ih =>
    intro m
    simp only [reinsertAll, List.flatten_cons, happ]
    cases reinsertBucket assoc b m with
    | none => rfl
    | some m1 => exact ih m1

theorem length_flatten_set (l : List (List (K × V))) :
    ∀ (i : Nat) (b : List (K × V)), i < l.length →
      (l.set i b).flatten.length + (l.getD i []).length = l.flatten.length + b.length := by
  induction l with
  | nil => intro i b h; simp at h
  | cons a rest ih =>
    intro i b h
    cases i with
    | zero => simp; omega
    | succ i =>
      have := ih i b (by simpa using h)
      simp only [List.set_cons_succ, List.flatten_cons, List.length_append, List.getD_cons_succ]
      omega

theorem Enough_mono (bound : Nat) (L : ℚ) (f c c1 s : Nat) (h : c1 ≤ c)
    (he : Enough bound L f c s) : Enough bound L f c1 s := by
  unfold Enough at *
  have : (c1 : ℚ) ≤ (c : ℚ) := by exact_mod_cast h
  linarith

theorem Enough_step (bound : Nat) (L : ℚ) (f c s c1 j : Nat)
    (he : Enough bound L f c s) (hc1 : c1 ≤ c + bound * j)
    (hj : j = 0 ∨ 0 < f) : Enough bound L f c1 (s * 2 ^ j) := by
  unfold Enough at *
  have hc1q : (c1 : ℚ) ≤ (c : ℚ) + (bound : ℚ) * (j : ℚ) := by exact_mod_cast hc1
  rcases hj with hj | hf
  · subst hj
    simp only [pow_zero, Nat.mul_one, Nat.cast_zero, mul_zero, add_zero] at hc1q ⊢
    linarith
  · have hX : (bound : ℚ) ≤ L * (s : ℚ) * 2 ^ f := by
      have h1 : (1 : ℚ) ≤ (f : ℚ) := by exact_mod_cast hf
      have hb : (0 : ℚ) ≤ (bound : ℚ) := Nat.cast_nonneg _
      have hc : (0 : ℚ) ≤ (c : ℚ) := Nat.cast_nonneg _
      nlinarith
    have hpow : ((j : ℚ) + 1) ≤ (2 : ℚ) ^ j := by
      have : j + 1 ≤ 2 ^ j := Nat.lt_two_pow j
      exact_mod_cast this
    have hX0 : (0 : ℚ) ≤ L * (s : ℚ) * 2 ^ f := le_trans (Nat.cast_nonneg _) hX
    have hjq : (0 : ℚ) ≤ (j : ℚ) := Nat.cast_nonneg _
    have key : (c1 : ℚ) + (bound : ℚ) * (f : ℚ) ≤ ((j : ℚ) + 1) * (L * (s : ℚ) * 2 ^ f) := by
      nlinarith
    have key2 : ((j : ℚ) + 1) * (L * (s : ℚ) * 2 ^ f) ≤ (2 : ℚ) ^ j * (L * (s : ℚ) * 2 ^ f) :=
      mul_le_mul_of_nonneg_right hpow hX0
    have e : L * ((s * 2 ^ j : Nat) : ℚ) * 2 ^ f = (2 : ℚ) ^ j * (L * (s : ℚ) * 2 ^ f) := by
      push_cast
      ring
    rw [e]
    linarith

theorem reinsertBucket_runs (hasher : K → Nat) (bound f : Nat) (L : ℚ)
    (hA : AssocRuns (V := V) hasher bound L f) :
    ∀ (es : List (K × V)) (m : ExpandableHashMap K V),
      m.m_maximumLoadFactor = L → 0 < m.m_buckets.length →
      (entries m).length + es.length ≤ bound →
      Enough bound L f (m.m_nAssociations + es.length) m.m_buckets.length →
      RunsTo bound m (reinsertBucket (associate hasher (f + 1)) es m) es.length := by
  intro es
  induction es with
  | nil =>
    intro m _ _ _ _
    exact ⟨m, 0, rfl, by simp, by simp, by simp, rfl, fun _ => rfl⟩
  | cons p es ih =>
    intro m hL hpos hent hen
    simp only [List.length_cons] at hent hen
    obtain ⟨m1, j1, h1, hs1, hc1, he1, hl1, hj1⟩ := hA m p.1 p.2 hL hpos (by omega)
      (Enough_mono bound L f _ _ _ (by omega) hen)
    have hjf : j1 = 0 ∨ 0 < f := by
      rcases Nat.eq_zero_or_pos f with hf | hf
      · left
        apply hj1
        subst hf
        unfold Enough at hen
        simp only [Nat.cast_zero, mul_zero, add_zero, pow_zero, mul_one] at hen
        rw [hL]
        have : ((m.m_nAssociations + 1 : Nat) : ℚ) ≤
            ((m.m_nAssociations + (es.length + 1) : Nat) : ℚ) := by
          exact_mod_cast (by omega : m.m_nAssociations + 1 ≤ m.m_nAssociations + (es.length + 1))
        linarith
      · exact Or.inr hf
    have hen1 : Enough bound L f (m1.m_nAssociations + es.length) m1.m_buckets.length := by
      rw [hs1]
      exact Enough_step bound L f _ _ _ j1 hen (by omega) hjf
    have hpos1 : 0 < m1.m_buckets.length := by
      rw [hs1]
      exact Nat.mul_pos hpos (Nat.two_pow_pos j1)
    obtain ⟨m2, j2, h2, hs2, hc2, he2, hl2, hj2⟩ :=
      ih m1 (hl1.trans hL) hpos1 (by omega) hen1
    refine ⟨m2, j1 + j2, ?_, ?_, ?_, ?_, hl2.trans hl1, ?_⟩
    · simp only [reinsertBucket, h1, h2]
    · rw [hs2, hs1, pow_add, Nat.mul_assoc]
    · have : bound * (j1 + j2) = bound * j1 + bound * j2 := Nat.mul_add _ _ _
      simp only [List.length_cons]
      omega
    · simp only [List.length_cons]
      omega
    · intro hle
      simp only [List.length_cons] at hle
      have hq1 : ((m.m_nAssociations + 1 : Nat) : ℚ) ≤
          ((m.m_nAssociations + (es.length + 1) : Nat) : ℚ) := by
        exact_mod_cast (by omega : m.m_nAssociations + 1 ≤ m.m_nAssociations + (es.length + 1))
      have hj10 : j1 = 0 := hj1 (le_trans hq1 hle)
      subst hj10
      simp only [pow_zero, Nat.mul_one, Nat.mul_zero, Nat.add_zero] at hs1 hc1
      have hq2 : ((m1.m_nAssociations + es.length : Nat) : ℚ) ≤
          ((m.m_nAssociations + (es.length + 1) : Nat) : ℚ) := by
        exact_mod_cast (by omega : m1.m_nAssociations + es.length ≤
          m.m_nAssociations + (es.length + 1))
      have hj20 : j2 = 0 := by
        apply hj2
        rw [hl1, hs1]
        exact le_trans hq2 hle
      omega

theorem currentLoadFactor_gt_iff (m : ExpandableHashMap K V) (L : ℚ)
    (hpos : 0 < m.m_buckets.length) :
    currentLoadFactor m > L ↔ L * (m.m_buckets.length : ℚ) < (m.m_nAssociations : ℚ) := by
  have hq : (0 : ℚ) < (m.m_buckets.length : ℚ) := by exact_mod_cast hpos
  unfold currentLoadFactor
  rw [gt_iff_lt, lt_div_iff₀ hq]

theorem associate_succ (hasher : K → Nat) (fuel : Nat) (m : ExpandableHashMap K V)
    (key : K) (value : V) :
    associate hasher (fuel + 1) m key value =
      match find hasher m key with
      | some _ =>
        some { m_buckets := m.m_buckets.set (getBucketNumber hasher m key)
                (assignInBucket key value (m.m_buckets.getD (getBucketNumber hasher m key) [])),
               m_nAssociations := m.m_nAssociations,
               m_maximumLoadFactor := m.m_maximumLoadFactor }
      | none =>
        if currentLoadFactor
            ({ m_buckets := m.m_buckets.set (getBucketNumber hasher m key)
                (m.m_buckets.getD (getBucketNumber hasher m key) [] ++ [(key, value)]),
               m_nAssociations := m.m_nAssociations + 1,
               m_maximumLoadFactor := m.m_maximumLoadFactor } : ExpandableHashMap K V) >
            m.m_maximumLoadFactor then
          rehashWith (associate hasher fuel)
            { m_buckets := m.m_buckets.set (getBucketNumber hasher m key)
                (m.m_buckets.getD (getBucketNumber hasher m key) [] ++ [(key, value)]),
              m_nAssociations := m.m_nAssociations + 1,
              m_maximumLoadFactor := m.m_maximumLoadFactor }
        else
          some { m_buckets := m.m_buckets.set (getBucketNumber hasher m key)
                  (m.m_buckets.getD (getBucketNumber hasher m key) [] ++ [(key, value)]),
                 m_nAssociations := m.m_nAssociations + 1,
                 m_maximumLoadFactor := m.m_maximumLoadFactor } := rfl

/-- A single `associate` call returns as soon as the allowed depth satisfies `Enough`. -/
theorem associate_runs (hasher : K → Nat) (bound : Nat) (L : ℚ) :
    ∀ f, AssocRuns (V := V) hasher bound L f := by
  intro f
  induction f with
  | zero =>
    intro m key value hL hpos hent hen
    have hlt : getBucketNumber hasher m key < m.m_buckets.length := Nat.mod_lt _ hpos
    rw [associate_succ]
    cases hf : find hasher m key with
    | some w =>
      refine ⟨_, 0, rfl, by simp, by simp, ?_, rfl, fun _ => rfl⟩
      have h1 := length_flatten_set m.m_buckets _
        (assignInBucket key value (m.m_buckets.getD (getBucketNumber hasher m key) [])) hlt
      simp only [length_assignInBucket] at h1
      simp only [entries]
      omega
    | none =>
      simp only []
      have hnl : ¬ currentLoadFactor
          ({ m_buckets := m.m_buckets.set (getBucketNumber hasher m key)
              (m.m_buckets.getD (getBucketNumber hasher m key) [] ++ [(key, value)])
             m_nAssociations := m.m_nAssociations + 1
             m_maximumLoadFactor := m.m_maximumLoadFactor } : ExpandableHashMap K V) >
          m.m_maximumLoadFactor := by
        rw [currentLoadFactor_gt_iff _ _ (by simpa using hpos)]
        unfold Enough at hen
        simp only [Nat.cast_zero, mul_zero, add_zero, pow_zero, mul_one] at hen
        simp only [List.length_set, hL]
        exact not_lt.mpr hen
      rw [if_neg hnl]
      refine ⟨_, 0, rfl, by simp, by simp, ?_, rfl, fun _ => rfl⟩
      have h1 := length_flatten_set m.m_buckets _
        (m.m_buckets.getD (getBucketNumber hasher m key) [] ++ [(key, value)]) hlt
      simp only [List.length_append, List.length_singleton] at h1
      simp only [entries]
      omega
  | succ f ih =>
    intro m key value hL hpos hent hen
    have hlt : getBucketNumber hasher m key < m.m_buckets.length := Nat.mod_lt _ hpos
    rw [associate_succ]
    cases hf : find hasher m key with
    | some w =>
      refine ⟨_, 0, rfl, by simp, by simp, ?_, rfl, fun _ => rfl⟩
      have h1 := length_flatten_set m.m_buckets _
        (assignInBucket key value (m.m_buckets.getD (getBucketNumber hasher m key) [])) hlt
      simp only [length_assignInBucket] at h1
      simp only [entries]
      omega
    | none =>
      simp only []
      have h1 := length_flatten_set m.m_buckets _
        (m.m_buckets.getD (getBucketNumber hasher m key) [] ++ [(key, value)]) hlt
      simp only [List.length_append, List.length_singleton] at h1
      split_ifs with hload
      · rw [currentLoadFactor_gt_iff _ _ (by simpa using hpos)] at hload
        simp only [List.length_set, hL] at hload
        simp only [rehashWith, reinsertAll_eq_flatten]
        have hen2 : Enough bound L f
            (m.m_nAssociations + 1 + (m.m_buckets.set (getBucketNumber hasher m key)
              (m.m_buckets.getD (getBucketNumber hasher m key) [] ++ [(key, value)])).flatten.length)
            (m.m_buckets.length * 2) := by
          unfold Enough at hen ⊢
          have hle : (m.m_buckets.set (getBucketNumber hasher m key)
              (m.m_buckets.getD (getBucketNumber hasher m key) [] ++ [(key, value)])).flatten.length
              ≤ bound := by
            simp only [entries] at hent
            omega
          have hleq : (((m.m_buckets.set (getBucketNumber hasher m key)
              (m.m_buckets.getD (getBucketNumber hasher m key) [] ++
                [(key, value)])).flatten.length : Nat) : ℚ) ≤ (bound : ℚ) := by
            exact_mod_cast hle
          push_cast at hen ⊢
          have e : L * ((m.m_buckets.length : ℚ) * 2) * 2 ^ f =
              L * (m.m_buckets.length : ℚ) * 2 ^ (f + 1) := by
            rw [pow_succ]; ring
          rw [e]
          linarith
        obtain ⟨m2, j, h2, hs2, hc2, he2, hl2, _⟩ :=
          reinsertBucket_runs hasher bound f L ih
            (m.m_buckets.set (getBucketNumber hasher m key)
              (m.m_buckets.getD (getBucketNumber hasher m key) [] ++ [(key, value)])).flatten
            ({ m_buckets := List.replicate (m.m_buckets.length * 2) []
               m_nAssociations := m.m_nAssociations + 1
               m_maximumLoadFactor := m.m_maximumLoadFactor } : ExpandableHashMap K V)
            hL (by simpa using hpos)
            (by simp only [entries, List.flatten_replicate_nil, List.length_nil] at hent ⊢
                omega)
            (by simpa using hen2)
        refine ⟨m2, j + 1, ?_, ?_, ?_, ?_, hl2, ?_⟩
        · simpa using h2
        · rw [hs2]
          simp only [List.length_replicate, pow_succ]
          ring
        · have hle : (m.m_buckets.set (getBucketNumber hasher m key)
              (m.m_buckets.getD (getBucketNumber hasher m key) [] ++ [(key, value)])).flatten.length
              ≤ bound := by
            simp only [entries] at hent
            omega
          have : bound * (j + 1) = bound * j + bound := by ring
          simp only [] at hc2
          omega
        · simp only [entries, List.flatten_replicate_nil, List.length_nil] at he2 ⊢
          omega
        · intro hle
          exfalso
          rw [hL] at hle
          push_cast at hle hload
          linarith
      · refine ⟨_, 0, rfl, by simp, by simp, ?_, rfl, fun _ => rfl⟩
        simp only [entries]
        omega

theorem reinsertBucket_mono
    (a1 a2 : ExpandableHashMap K V → K → V → Option (ExpandableHashMap K V))
    (h : ∀ m k v r, a1 m k v = some r → a2 m k v = some r) :
    ∀ (es : List (K × V)) (m r : ExpandableHashMap K V),
      reinsertBucket a1 es m = some r → reinsertBucket a2 es m = some r := by
  intro es
  induction es with
  | nil => intro m r hr; exact hr
  | cons p rest ih =>
    intro m r hr
    simp only [reinsertBucket] at hr ⊢
    cases h1 : a1 m p.1 p.2 with
    | none => simp [h1] at hr
    | some m1 =>
      simp only [h1] at hr
      simp only [h m p.1 p.2 m1 h1]
      exact ih m1 r hr

theorem associate_mono_succ (hasher : K → Nat) :
    ∀ (fuel : Nat) (m : ExpandableHashMap K V) (key : K) (value : V)
      (r : ExpandableHashMap K V),
      associate hasher fuel m key value = some r →
      associate hasher (fuel + 1) m key value = some r := by
  intro fuel
  induction fuel with
  | zero => intro m key value r h; simp [associate] at h
  | succ fuel ih =>
    intro m key value r h
    rw [associate_succ] at h ⊢
    cases hf : find hasher m key with
    | some w => simpa [hf] using h
    | none =>
      simp only [hf] at h ⊢
      split_ifs at h ⊢ with hload
      · simp only [rehashWith, reinsertAll_eq_flatten] at h ⊢
        exact reinsertBucket_mono _ _ ih _ _ _ h
      · exact h

theorem associate_mono (hasher : K → Nat) (f g : Nat) (hfg : f ≤ g)
    (m : ExpandableHashMap K V) (key : K) (value : V) (r : ExpandableHashMap K V)
    (h : associate hasher f m key value = some r) :
    associate hasher g m key value = some r := by
  induction hfg with
  | refl => exact h
  | step _ ih => exact associate_mono_succ hasher _ m key value r ih

theorem sq_bound (n : Nat) : n * (2 * n + 1) ≤ 2 ^ (2 * n) := by
  induction n with
  | zero => simp
  | succ n ih =>
    have e : 2 ^ (2 * (n + 1)) = 4 * 2 ^ (2 * n) := by
      rw [Nat.mul_add, pow_add]; ring
    rw [e]
    rcases Nat.eq_zero_or_pos n with h0 | hp
    · subst h0; simp
    · nlinarith

theorem exists_enough (bound c s : Nat) (hs : 0 < s) (L : ℚ) (hL : 0 < L) :
    ∃ f, Enough bound L f c s := by
  have hq : (0 : ℚ) < L * (s : ℚ) := mul_pos hL (by exact_mod_cast hs)
  obtain ⟨M, hM⟩ := exists_nat_ge (((c : ℚ) + (bound : ℚ)) / (L * (s : ℚ)))
  rw [div_le_iff₀ hq] at hM
  refine ⟨2 * M, ?_⟩
  unfold Enough
  have h1 : ((M * (2 * M + 1) : Nat) : ℚ) ≤ ((2 ^ (2 * M) : Nat) : ℚ) := by
    exact_mod_cast sq_bound M
  push_cast at h1 ⊢
  have hc : (0 : ℚ) ≤ (c : ℚ) := Nat.cast_nonneg _
  have hb : (0 : ℚ) ≤ (bound : ℚ) := Nat.cast_nonneg _
  have hMq : (0 : ℚ) ≤ (M : ℚ) := Nat.cast_nonneg _
  have h2 : (c : ℚ) + (bound : ℚ) * (2 * (M : ℚ)) ≤ ((c : ℚ) + (bound : ℚ)) * (2 * (M : ℚ) + 1) := by
    nlinarith
  have h3 : ((c : ℚ) + (bound : ℚ)) * (2 * (M : ℚ) + 1) ≤
      (M : ℚ) * (L * (s : ℚ)) * (2 * (M : ℚ) + 1) :=
    mul_le_mul_of_nonneg_right hM (by linarith)
  have h4 : (M : ℚ) * (L * (s : ℚ)) * (2 * (M : ℚ) + 1) ≤ L * (s : ℚ) * 2 ^ (2 * M) := by
    have := mul_le_mul_of_nonneg_left h1 hq.le
    linarith
  linarith

/-- Termination of a single call: from every state with a positive maximum load factor
and at least one bucket, a large enough depth makes `associate` return. -/
theorem associate_terminates (hasher : K → Nat) (m : ExpandableHashMap K V)
    (hL : 0 < m.m_maximumLoadFactor) (hpos : 0 < m.m_buckets.length) (key : K) (value : V) :
    ∃ N, ∀ fuel, N ≤ fuel → ∃ r, associate hasher fuel m key value = some r ∧
      0 < r.m_buckets.length ∧ r.m_maximumLoadFactor = m.m_maximumLoadFactor := by
  obtain ⟨f, hf⟩ := exists_enough ((entries m).length + 1) (m.m_nAssociations + 1)
    m.m_buckets.length hpos m.m_maximumLoadFactor hL
  obtain ⟨r, j, hr, hs, _, _, hl, _⟩ :=
    associate_runs hasher ((entries m).length + 1) m.m_maximumLoadFactor f m key value rfl hpos
      (le_refl _) hf
  refine ⟨f + 1, fun fuel hfuel => ⟨r, associate_mono hasher _ _ hfuel m key value r hr, ?_, hl⟩⟩
  rw [hs]
  exact Nat.mul_pos hpos (Nat.two_pow_pos j)

theorem associateAll_terminates (hasher : K → Nat) (L : ℚ) (hL : 0 < L) :
    ∀ (ops : List (K × V)) (m : ExpandableHashMap K V),
      m.m_maximumLoadFactor = L → 0 < m.m_buckets.length →
      ∃ N, ∀ fuel, N ≤ fuel → ∃ r, associateAll hasher fuel ops m = some r := by
  intro ops
  induction ops with
  | nil => intro m _ _; exact ⟨0, fun _ _ => ⟨m, rfl⟩⟩
  | cons p rest ih =>
    intro m hm hpos
    obtain ⟨N1, h1⟩ := associate_terminates hasher m (hm ▸ hL) hpos p.1 p.2
    obtain ⟨r1, hr1, hp1, hl1⟩ := h1 N1 (le_refl _)
    obtain ⟨N2, h2⟩ := ih r1 (hl1.trans hm) hp1
    refine ⟨max N1 N2, fun fuel hfuel => ?_⟩
    obtain ⟨r, hr⟩ := h2 fuel (le_trans (le_max_right _ _) hfuel)
    refine ⟨r, ?_⟩
    simp only [associateAll,
      associate_mono hasher N1 fuel (le_trans (le_max_left _ _) hfuel) m p.1 p.2 r1 hr1]
    exact hr

/-- An insertion of a new key that leaves the load within the maximum. -/
theorem associate_new_within (hasher : K → Nat) (fuel : Nat) (m : ExpandableHashMap K V)
    (key : K) (value : V) (bs : List (List (K × V))) (c : Nat)
    (hf : find hasher m key = none)
    (hbs : m.m_buckets.set (getBucketNumber hasher m key)
      (m.m_buckets.getD (getBucketNumber hasher m key) [] ++ [(key, value)]) = bs)
    (hc : m.m_nAssociations + 1 = c)
    (hl : (c : ℚ) / (bs.length : ℚ) ≤ m.m_maximumLoadFactor) :
    associate hasher (fuel + 1) m key value =
      some { m_buckets := bs, m_nAssociations := c,
             m_maximumLoadFactor := m.m_maximumLoadFactor } := by
  rw [associate_succ, hf]
  simp only [hbs, hc]
  rw [if_neg]
  simp only [currentLoadFactor]
  exact not_lt.mpr hl

/-- An insertion of a new key that pushes the load over the maximum: `rehash` runs. -/
theorem associate_new_over (hasher : K → Nat) (fuel : Nat) (m : ExpandableHashMap K V)
    (key : K) (value : V) (bs : List (List (K × V))) (c : Nat)
    (hf : find hasher m key = none)
    (hbs : m.m_buckets.set (getBucketNumber hasher m key)
      (m.m_buckets.getD (getBucketNumber hasher m key) [] ++ [(key, value)]) = bs)
    (hc : m.m_nAssociations + 1 = c)
    (hl : m.m_maximumLoadFactor < (c : ℚ) / (bs.length : ℚ)) :
    associate hasher (fuel + 1) m key value =
      reinsertBucket (associate hasher fuel) bs.flatten
        { m_buckets := List.replicate (bs.length * 2) [], m_nAssociations := c,
          m_maximumLoadFactor := m.m_maximumLoadFactor } := by
  rw [associate_succ, hf]
  simp only [hbs, hc]
  rw [if_pos]
  · simp only [rehashWith, reinsertAll_eq_flatten]
  · simp only [currentLoadFactor]
    exact hl

theorem associateAll_mono (hasher : K → Nat) (f g : Nat) (hfg : f ≤ g) :
    ∀ (ops : List (K × V)) (m r : ExpandableHashMap K V),
      associateAll hasher f ops m = some r → associateAll hasher g ops m = some r := by
  intro ops
  induction ops with
  | nil => intro m r h; exact h
  | cons p rest ih =>
    intro m r h
    simp only [associateAll] at h ⊢
    cases h1 : associate hasher f m p.1 p.2 with
    | none => simp [h1] at h
    | some m1 =>
      simp only [h1] at h
      simp only [associate_mono hasher f g hfg m p.1 p.2 m1 h1]
      exact ih m1 r h

theorem five_associates_run :
    (associateAll (fun k : Nat => k) 3 [(1, 10), (2, 20), (3, 30), (4, 40), (5, 50)]
        (create DEFAULT_MAXIMUM_LOAD_FACTOR : ExpandableHashMap Nat Nat)).map
      (fun m => (size m, (entries m).length)) = some (14, 5) := by
  have e0 : (create DEFAULT_MAXIMUM_LOAD_FACTOR : ExpandableHashMap Nat Nat) =
      ⟨[[], [], [], [], [], [], [], []], 0, 1 / 2⟩ := rfl
  rw [e0]
  simp only [associateAll]
  rw [associate_new_within (fun k : Nat => k) 2 ⟨[[], [], [], [], [], [], [], []], 0, 1 / 2⟩ 1 10
    [[], [(1, 10)], [], [], [], [], [], []] 1 rfl rfl rfl (by norm_num)]
  simp only []
  rw [associate_new_within (fun k : Nat => k) 2 ⟨[[], [(1, 10)], [], [], [], [], [], []], 1, 1 / 2⟩ 2 20
    [[], [(1, 10)], [(2, 20)], [], [], [], [], []] 2 rfl rfl rfl (by norm_num)]
  simp only []
  rw [associate_new_within (fun k : Nat => k) 2 ⟨[[], [(1, 10)], [(2, 20)], [], [], [], [], []], 2, 1 / 2⟩ 3 30
    [[], [(1, 10)], [(2, 20)], [(3, 30)], [], [], [], []] 3 rfl rfl rfl (by norm_num)]
  simp only []
  rw [associate_new_within (fun k : Nat => k) 2 ⟨[[], [(1, 10)], [(2, 20)], [(3, 30)], [], [], [], []], 3, 1 / 2⟩ 4 40
    [[], [(1, 10)], [(2, 20)], [(3, 30)], [(4, 40)], [], [], []] 4 rfl rfl rfl (by norm_num)]
  simp only []
  rw [associate_new_over (fun k : Nat => k) 2 ⟨[[], [(1, 10)], [(2, 20)], [(3, 30)], [(4, 40)], [], [], []], 4, 1 / 2⟩ 5 50
    [[], [(1, 10)], [(2, 20)], [(3, 30)], [(4, 40)], [(5, 50)], [], []] 5 rfl rfl rfl (by norm_num)]
  simp only [List.flatten, List.append, reinsertBucket, List.length, List.replicate,
    List.cons_append, List.nil_append, List.append_nil, Nat.reduceMul, Nat.reduceAdd]
  rw [associate_new_within (fun k : Nat => k) 1 ⟨[[], [], [], [], [], [], [], [], [], [], [], [], [], [], [], []], 5, 1 / 2⟩ 1 10
    [[], [(1, 10)], [], [], [], [], [], [], [], [], [], [], [], [], [], []] 6 rfl rfl rfl (by norm_num)]
  simp only []
  rw [associate_new_within (fun k : Nat => k) 1 ⟨[[], [(1, 10)], [], [], [], [], [], [], [], [], [], [], [], [], [], []], 6, 1 / 2⟩ 2 20
    [[], [(1, 10)], [(2, 20)], [], [], [], [], [], [], [], [], [], [], [], [], []] 7 rfl rfl rfl (by norm_num)]
  simp only []
  rw [associate_new_within (fun k : Nat => k) 1 ⟨[[], [(1, 10)], [(2, 20)], [], [], [], [], [], [], [], [], [], [], [], [], []], 7, 1 / 2⟩ 3 30
    [[], [(1, 10)], [(2, 20)], [(3, 30)], [], [], [], [], [], [], [], [], [], [], [], []] 8 rfl rfl rfl (by norm_num)]
  simp only []
  rw [associate_new_over (fun k : Nat => k) 1 ⟨[[], [(1, 10)], [(2, 20)], [(3, 30)], [], [], [], [], [], [], [], [], [], [], [], []], 8, 1 / 2⟩ 4 40
    [[], [(1, 10)], [(2, 20)], [(3, 30)], [(4, 40)], [], [], [], [], [], [], [], [], [], [], []] 9 rfl rfl rfl (by norm_num)]
  simp only [List.flatten, List.append, reinsertBucket, List.length, List.replicate,
    List.cons_append, List.nil_append, List.append_nil, Nat.reduceMul, Nat.reduceAdd]
  rw [associate_new_within (fun k : Nat => k) 0 ⟨[[], [], [], [], [], [], [], [], [], [], [], [], [], [], [], [], [], [], [], [], [], [], [], [], [], [], [], [], [], [], [], []], 9, 1 / 2⟩ 1 10
    [[], [(1, 10)], [], [], [], [], [], [], [], [], [], [], [], [], [], [], [], [], [], [], [], [], [], [], [], [], [], [], [], [], [], []] 10 rfl rfl rfl (by norm_num)]
  simp only []
  rw [associate_new_within (fun k : Nat => k) 0 ⟨[[], [(1, 10)], [], [], [], [], [], [], [], [], [], [], [], [], [], [], [], [], [], [], [], [], [], [], [], [], [], [], [], [], [], []], 10, 1 / 2⟩ 2 20
    [[], [(1, 10)], [(2, 20)], [], [], [], [], [], [], [], [], [], [], [], [], [], [], [], [], [], [], [], [], [], [], [], [], [], [], [], [], []] 11 rfl rfl rfl (by norm_num)]
  simp only []
  rw [associate_new_within (fun k : Nat => k) 0 ⟨[[], [(1, 10)], [(2, 20)], [], [], [], [], [], [], [], [], [], [], [], [], [], [], [], [], [], [], [], [], [], [], [], [], [], [], [], [], []], 11, 1 / 2⟩ 3 30
    [[], [(1, 10)], [(2, 20)], [(3, 30)], [], [], [], [], [], [], [], [], [], [], [], [], [], [], [], [], [], [], [], [], [], [], [], [], [], [], [], []] 12 rfl rfl rfl (by norm_num)]
  simp only []
  rw [associate_new_within (fun k : Nat => k) 0 ⟨[[], [(1, 10)], [(2, 20)], [(3, 30)], [], [], [], [], [], [], [], [], [], [], [], [], [], [], [], [], [], [], [], [], [], [], [], [], [], [], [], []], 12, 1 / 2⟩ 4 40
    [[], [(1, 10)], [(2, 20)], [(3, 30)], [(4, 40)], [], [], [], [], [], [], [], [], [], [], [], [], [], [], [], [], [], [], [], [], [], [], [], [], [], [], []] 13 rfl rfl rfl (by norm_num)]
  simp only []
  rw [associate_new_within (fun k : Nat => k) 1 ⟨[[], [(1, 10)], [(2, 20)], [(3, 30)], [(4, 40)], [], [], [], [], [], [], [], [], [], [], [], [], [], [], [], [], [], [], [], [], [], [], [], [], [], [], []], 13, 1 / 2⟩ 5 50
    [[], [(1, 10)], [(2, 20)], [(3, 30)], [(4, 40)], [(5, 50)], [], [], [], [], [], [], [], [], [], [], [], [], [], [], [], [], [], [], [], [], [], [], [], [], [], []] 14 rfl rfl rfl (by norm_num)]
  simp only []
  rfl

/-- C7 (evaluation at the failing input): five distinct keys associated with a fresh
default map leave five entries stored but `size()` at 14: the insertion of the fifth key
triggers `rehash`, whose re-insertions go through `associate` and increment the counter
again.  The outcome is the same for every recursion depth that lets the calls return. -/
theorem size_after_five_associates (k : Nat) :
    (associateAll (fun k : Nat => k) (3 + k) [(1, 10), (2, 20), (3, 30), (4, 40), (5, 50)]
        (create DEFAULT_MAXIMUM_LOAD_FACTOR : ExpandableHashMap Nat Nat)).map
      (fun m => (size m, (entries m).length)) = some (14, 5) := by
  have h := five_associates_run
  cases hr : associateAll (fun k : Nat => k) 3 [(1, 10), (2, 20), (3, 30), (4, 40), (5, 50)]
      (create DEFAULT_MAXIMUM_LOAD_FACTOR : ExpandableHashMap Nat Nat) with
  | none => rw [hr] at h; cases h
  | some m =>
    rw [hr] at h
    rw [associateAll_mono (fun k : Nat => k) 3 (3 + k) (Nat.le_add_right _ _) _ _ m hr]
    exact h

end ExpandableHashMap

section WayPointBridge

variable {G : Type} [DecidableEq G]

theorem mostRecent_snoc (key : G) (ops : List (G × G)) (p : G × G) :
    mostRecent key (ops ++ [p]) =
      if p.1 = key then some p.2 else mostRecent key ops := by
  rw [mostRecent_append]
  by_cases h : p.1 = key
  · simp [mostRecent, h]
  · simp [mostRecent, h]

theorem foldl_associate_eq_mostRecent (ops : List (G × G)) (key : G) :
    (ops.foldl (fun (loc : WayPointMap G) p => loc.associate p.1 p.2) (fun _ => none)) key =
      mostRecent key ops := by
  induction ops using List.reverseRecOn with
  | nil => rfl
  | append_singleton ops p ih =>
    rw [List.foldl_append, mostRecent_snoc]
    simp only [List.foldl_cons, List.foldl_nil, WayPointMap.associate]
    by_cases h : key = p.1
    · simp [h]
    · have h2 : ¬ p.1 = key := fun e => h e.symm
      simp [h, h2, ih]

/-- The router only writes to `locationOfPreviousWayPoint` during the search and only
reads it afterwards.  For every sequence of writes the default-constructed
`ExpandableHashMap`, with any hash function, returns from all its `associate` calls and
then answers `find` exactly as the finite map `WayPointMap` does. -/
theorem wayPointMap_is_hashMap (hasher : G → Nat) (ops : List (G × G)) :
    ∃ N, ∀ fuel, N ≤ fuel →
      ∃ m, ExpandableHashMap.associateAll hasher fuel ops
          (ExpandableHashMap.create DEFAULT_MAXIMUM_LOAD_FACTOR) = some m ∧
        ∀ k, ExpandableHashMap.find hasher m k =
          (ops.foldl (fun (loc : WayPointMap G) p => loc.associate p.1 p.2)
            (fun _ => none)) k := by
  obtain ⟨N, hN⟩ := ExpandableHashMap.associateAll_terminates hasher
    DEFAULT_MAXIMUM_LOAD_FACTOR (by norm_num [DEFAULT_MAXIMUM_LOAD_FACTOR]) ops
    (ExpandableHashMap.create DEFAULT_MAXIMUM_LOAD_FACTOR) rfl
    (by simp [ExpandableHashMap.create, INITIAL_NUMBER_OF_BUCKETS])
  refine ⟨N, fun fuel hfuel => ?_⟩
  obtain ⟨m, hm⟩ := hN fuel hfuel
  refine ⟨m, hm, fun k => ?_⟩
  obtain ⟨_, hfind, _⟩ := ExpandableHashMap.associateAll_spec hasher fuel ops _ m
    (ExpandableHashMap.Inv_create hasher _) hm
  rw [hfind k, ExpandableHashMap.find_create, foldl_associate_eq_mostRecent]
  cases mostRecent k ops <;> rfl

end WayPointBridge

section RouterProofs

variable {G S : Type} [DecidableEq G]

theorem notVisited_iff (c : G) (visited : List G) :
    notVisited c visited = true ↔ c ∉ visited := by
  induction visited with
  | nil => simp [notVisited]
  | cons v rest ih =>
    by_cases h : c = v
    · simp [notVisited, h]
    · simp [notVisited, h, ih]

theorem mem_pushedEnds (visited : List G) (segs : List (StreetSegment G S)) (x : G) :
    x ∈ pushedEnds visited segs ↔ (∃ s ∈ segs, s.end_ = x) ∧ x ∉ visited := by
  simp [pushedEnds, notVisited_iff]

theorem scanSegments_fst (current : G) (visited : List G) :
    ∀ (segs : List (StreetSegment G S)) (coords : List G) (loc : WayPointMap G),
      (scanSegments current visited segs (coords, loc)).1 =
        coords ++ pushedEnds visited segs := by
  intro segs
  induction segs with
  | nil => intro coords loc; simp [scanSegments, pushedEnds]
  | cons s rest ih =>
    intro coords loc
    by_cases h : notVisited s.end_ visited = true
    · simp only [scanSegments, h, if_true, ih]
      simp [pushedEnds, h]
    · have h2 : notVisited s.end_ visited = false := by simpa using h
      have e : pushedEnds visited (s :: rest) = pushedEnds visited rest := by
        simp [pushedEnds, h2]
      rw [e, ← ih coords loc]
      simp [scanSegments, h2]

theorem scanSegments_snd (current : G) (visited : List G) :
    ∀ (segs : List (StreetSegment G S)) (coords : List G) (loc : WayPointMap G) (x : G),
      (scanSegments current visited segs (coords, loc)).2 x =
        if x ∈ pushedEnds visited segs then some current else loc x := by
  intro segs
  induction segs with
  | nil => intro coords loc x; simp [scanSegments, pushedEnds]
  | cons s rest ih =>
    intro coords loc x
    by_cases h : notVisited s.end_ visited = true
    · simp only [scanSegments, h, if_true, ih]
      have e : pushedEnds visited (s :: rest) = s.end_ :: pushedEnds visited rest := by
        simp [pushedEnds, h]
      rw [e]
      by_cases hx : x ∈ pushedEnds visited rest
      · simp [hx]
      · by_cases hx2 : x = s.end_
        · simp [hx, hx2, WayPointMap.associate]
        · simp [hx, hx2, WayPointMap.associate]
    · have h2 : notVisited s.end_ visited = false := by simpa using h
      have e : pushedEnds visited (s :: rest) = pushedEnds visited rest := by
        simp [pushedEnds, h2]
      rw [e, ← ih coords loc x]
      simp [scanSegments, h2]

theorem SearchInv_init (sm : StreetMap G S) (start end_ : G) :
    SearchInv sm start end_ [start] [] (fun _ => none) where
  end_not := by simp
  queue_pred := by intro x hx; left; simpa using hx
  pred_ok := by intro x p h; cases h
  visited_pred := by intro x hx; simp at hx
  start_none := rfl
  start_seen := Or.inr ⟨rfl, rfl⟩
  closed := by intro x hx; simp at hx

theorem SearchInv_step (sm : StreetMap G S) (start end_ current : G)
    (coords visited : List G) (loc : WayPointMap G)
    (hinv : SearchInv sm start end_ (current :: coords) visited loc) (hne : current ≠ end_) :
    SearchInv sm start end_
      (scanSegments current (visited ++ [current]) ((sm current).getD []) (coords, loc)).1
      (visited ++ [current])
      (scanSegments current (visited ++ [current]) ((sm current).getD []) (coords, loc)).2 := by
  have hstart : start ∈ visited ++ [current] := by
    rcases hinv.start_seen with h | ⟨h, _⟩
    · exact List.mem_append_left _ h
    · simp only [List.cons.injEq] at h
      simp [h.1]
  have hidx : ∀ p x, visited.indexOf p < visited.indexOf x →
      (visited ++ [current]).indexOf p < (visited ++ [current]).indexOf x := by
    intro p x h
    have hp : p ∈ visited :=
      List.indexOf_lt_length.mp (lt_of_lt_of_le h List.indexOf_le_length)
    rw [List.indexOf_append_of_mem hp]
    by_cases hx : x ∈ visited
    · rw [List.indexOf_append_of_mem hx]; exact h
    · rw [List.indexOf_append_of_not_mem hx]
      have := List.indexOf_lt_length.mpr hp
      omega
  refine ⟨?_, ?_, ?_, ?_, ?_, Or.inl hstart, ?_⟩
  · intro h
    rcases List.mem_append.mp h with h | h
    · exact hinv.end_not h
    · simp only [List.mem_singleton] at h
      exact hne h.symm
  · intro x hx
    rw [scanSegments_fst] at hx
    rw [scanSegments_snd]
    by_cases hp : x ∈ pushedEnds (visited ++ [current]) ((sm current).getD [])
    · right; exact ⟨current, by simp [hp]⟩
    · simp only [hp, if_false]
      rcases List.mem_append.mp hx with h | h
      · exact hinv.queue_pred x (List.mem_cons_of_mem _ h)
      · exact absurd h hp
  · intro x p hxp
    rw [scanSegments_snd] at hxp
    by_cases hp : x ∈ pushedEnds (visited ++ [current]) ((sm current).getD [])
    · simp only [hp, if_true, Option.some.injEq] at hxp
      subst hxp
      obtain ⟨⟨s, hs, hse⟩, hnv⟩ := (mem_pushedEnds _ _ _).mp hp
      refine ⟨⟨s, hs, hse⟩, ?_⟩
      have h1 : (visited ++ [current]).indexOf x = (visited ++ [current]).length :=
        List.indexOf_eq_length.mpr hnv
      have h2 : (visited ++ [current]).indexOf current < (visited ++ [current]).length :=
        List.indexOf_lt_length.mpr (by simp)
      omega
    · simp only [hp, if_false] at hxp
      exact ⟨(hinv.pred_ok x p hxp).1, hidx p x (hinv.pred_ok x p hxp).2⟩
  · intro x hx
    rw [scanSegments_snd]
    by_cases hp : x ∈ pushedEnds (visited ++ [current]) ((sm current).getD [])
    · right; exact ⟨current, by simp [hp]⟩
    · simp only [hp, if_false]
      rcases List.mem_append.mp hx with h | h
      · exact hinv.visited_pred x h
      · simp only [List.mem_singleton] at h
        subst h
        exact hinv.queue_pred x (List.mem_cons_self _ _)
  · rw [scanSegments_snd]
    have hp : start ∉ pushedEnds (visited ++ [current]) ((sm current).getD []) := by
      intro h
      exact ((mem_pushedEnds _ _ _).mp h).2 hstart
    simp only [hp, if_false]
    exact hinv.start_none
  · intro x hx s hs
    rw [scanSegments_fst]
    by_cases hv : s.end_ ∈ visited ++ [current]
    · exact Or.inl hv
    · rcases List.mem_append.mp hx with h | h
      · rcases hinv.closed x h s hs with h1 | h1
        · exact absurd (List.mem_append_left _ h1) hv
        · rcases List.mem_cons.mp h1 with h2 | h2
          · exact absurd (by simp [h2]) hv
          · exact Or.inr (List.mem_append_left _ h2)
      · simp only [List.mem_singleton] at h
        subst h
        right
        apply List.mem_append_right
        exact (mem_pushedEnds _ _ _).mpr ⟨⟨s, hs, rfl⟩, hv⟩

/-- What the search loop leaves behind: the invariant holds for the final queue, which
is empty when no path was found and holds `end_` when one was; the number of expanded
coordinates is below the number of iterations. -/
theorem searchLoop_inv (sm : StreetMap G S) (start end_ : G) :
    ∀ (fuel : Nat) (coords visited : List G) (loc : WayPointMap G) (fin : SearchEnd G),
      SearchInv sm start end_ coords visited loc →
      searchLoop sm end_ fuel coords visited loc = some fin →
      ∃ coordsF, SearchInv sm start end_ coordsF fin.visited fin.locationOfPreviousWayPoint ∧
        (fin.pathFound = true → end_ ∈ coordsF) ∧
        (fin.pathFound = false → coordsF = []) ∧
        fin.visited.length + 1 ≤ fuel + visited.length := by
  intro fuel
  induction fuel with
  | zero => intro coords visited loc fin _ h; simp [searchLoop] at h
  | succ fuel ih =>
    intro coords visited loc fin hinv h
    cases coords with
    | nil =>
      simp only [searchLoop, Option.some.injEq] at h
      subst h
      exact ⟨[], hinv, by simp, by simp, by simp only []; omega⟩
    | cons current coords =>
      simp only [searchLoop] at h
      by_cases hc : current = end_
      · simp only [hc, if_true, Option.some.injEq] at h
        subst h
        refine ⟨current :: coords, hinv, ?_, by simp, by simp only []; omega⟩
        intro _
        simp [hc]
      · simp only [hc, if_false] at h
        obtain ⟨coordsF, h1, h2, h3, h4⟩ := ih _ _ _ fin
          (SearchInv_step sm start end_ current coords visited loc hinv hc) h
        refine ⟨coordsF, h1, h2, h3, ?_⟩
        simp only [List.length_append, List.length_singleton] at h4
        omega

theorem searchLoop_mono (sm : StreetMap G S) (end_ : G) :
    ∀ (fuel : Nat) (coords visited : List G) (loc : WayPointMap G) (fin : SearchEnd G),
      searchLoop sm end_ fuel coords visited loc = some fin →
      searchLoop sm end_ (fuel + 1) coords visited loc = some fin := by
  intro fuel
  induction fuel with
  | zero => intro coords visited loc fin h; simp [searchLoop] at h
  | succ fuel ih =>
    intro coords visited loc fin h
    cases coords with
    | nil => simpa [searchLoop] using h
    | cons current coords =>
      simp only [searchLoop] at h ⊢
      by_cases hc : current = end_
      · simpa [hc] using h
      · simp only [hc, if_false] at h ⊢
        exact ih _ _ _ fin h

theorem searchLoop_mono_le (sm : StreetMap G S) (end_ : G) (f g : Nat) (hfg : f ≤ g)
    (coords visited : List G) (loc : WayPointMap G) (fin : SearchEnd G)
    (h : searchLoop sm end_ f coords visited loc = some fin) :
    searchLoop sm end_ g coords visited loc = some fin := by
  induction hfg with
  | refl => exact h
  | step _ ih => exact searchLoop_mono sm end_ _ coords visited loc fin ih

end RouterProofs

section RouterTermination

variable {G S : Type} [DecidableEq G]

theorem notVisited_append_of_mem (visited : List G) (c : G) (hc : c ∈ visited) (x : G) :
    notVisited x (visited ++ [c]) = notVisited x visited := by
  have h1 := notVisited_iff x (visited ++ [c])
  have h2 := notVisited_iff x visited
  have h3 : x ∉ visited ++ [c] ↔ x ∉ visited := by
    simp only [List.mem_append, List.mem_singleton, not_or]
    constructor
    · exact fun h => h.1
    · exact fun h => ⟨h, fun e => h (e ▸ hc)⟩
  cases ha : notVisited x (visited ++ [c]) <;> cases hb : notVisited x visited <;> simp_all

theorem unexpanded_of_mem (nodes visited : List G) (c : G) (hc : c ∈ visited) :
    unexpanded nodes (visited ++ [c]) = unexpanded nodes visited := by
  unfold unexpanded
  congr 1
  apply List.filter_congr
  intro x _
  exact notVisited_append_of_mem visited c hc x

theorem unexpanded_of_not_mem (nodes visited : List G) (c : G) (hc : c ∉ visited)
    (hn : c ∈ nodes) : unexpanded nodes (visited ++ [c]) < unexpanded nodes visited := by
  unfold unexpanded
  have e : nodes.filter (fun x => notVisited x (visited ++ [c])) =
      (nodes.filter (fun x => notVisited x visited)).filter
        (fun x => notVisited x (visited ++ [c])) := by
    rw [List.filter_filter]
    apply List.filter_congr
    intro x _
    cases ha : notVisited x (visited ++ [c])
    · simp
    · have : x ∉ visited := by
        have := (notVisited_iff x (visited ++ [c])).mp ha
        exact fun h => this (List.mem_append_left _ h)
      simp [(notVisited_iff x visited).mpr this]
  rw [e]
  apply List.length_filter_lt_length_iff_exists.mpr
  refine ⟨c, List.mem_filter.mpr ⟨hn, (notVisited_iff c visited).mpr hc⟩, ?_⟩
  intro h
  exact (notVisited_iff c (visited ++ [c])).mp h (by simp)

theorem staleEntries_step (coords visited : List G) (c : G) (hc : c ∈ visited)
    (segs : List (StreetSegment G S)) :
    staleEntries (coords ++ pushedEnds (visited ++ [c]) segs) (visited ++ [c]) <
      staleEntries (c :: coords) visited := by
  unfold staleEntries
  have e1 : (pushedEnds (visited ++ [c]) segs).filter
      (fun x => !notVisited x (visited ++ [c])) = [] := by
    apply List.filter_eq_nil_iff.mpr
    intro x hx
    have := ((mem_pushedEnds _ _ _).mp hx).2
    simp [(notVisited_iff x _).mpr this]
  have e2 : coords.filter (fun x => !notVisited x (visited ++ [c])) =
      coords.filter (fun x => !notVisited x visited) := by
    apply List.filter_congr
    intro x _
    rw [notVisited_append_of_mem visited c hc x]
  have e3 : notVisited c visited = false := by
    cases h : notVisited c visited
    · rfl
    · exact absurd hc ((notVisited_iff c visited).mp h)
  rw [List.filter_append, e1, e2, List.append_nil]
  simp [List.filter_cons, e3]

/-- The search loop terminates on every finite street graph. -/
theorem searchLoop_terminates (sm : StreetMap G S) (end_ : G) (nodes : List G)
    (hnodes : sm.EndsIn nodes) :
    ∀ (u v : Nat) (coords visited : List G) (loc : WayPointMap G),
      unexpanded nodes visited = u → staleEntries coords visited = v →
      (∀ x ∈ coords, x ∈ nodes) →
      ∃ fuel fin, searchLoop sm end_ fuel coords visited loc = some fin := by
  intro u
  induction u using Nat.strong_induction_on with
  | _ u ihu =>
    intro v
    induction v using Nat.strong_induction_on with
    | _ v ihv =>
      intro coords visited loc hu hv hsub
      cases coords with
      | nil => exact ⟨1, _, rfl⟩
      | cons c rest =>
        by_cases hc : c = end_
        · exact ⟨1, ⟨true, visited, loc⟩, by simp [searchLoop, hc]⟩
        · have hsub1 : ∀ x ∈ (scanSegments c (visited ++ [c]) ((sm c).getD [])
              (rest, loc)).1, x ∈ nodes := by
            intro x hx
            rw [scanSegments_fst] at hx
            rcases List.mem_append.mp hx with h | h
            · exact hsub x (List.mem_cons_of_mem _ h)
            · obtain ⟨⟨s, hs, hse⟩, _⟩ := (mem_pushedEnds _ _ _).mp h
              cases hsm : sm c with
              | none => simp [hsm] at hs
              | some segs =>
                simp only [hsm, Option.getD_some] at hs
                exact hse ▸ hnodes c segs hsm s hs
          have hrec : ∃ fuel fin, searchLoop sm end_ fuel
              (scanSegments c (visited ++ [c]) ((sm c).getD []) (rest, loc)).1
              (visited ++ [c])
              (scanSegments c (visited ++ [c]) ((sm c).getD []) (rest, loc)).2 = some fin := by
            by_cases hvis : c ∈ visited
            · have h1 := staleEntries_step rest visited c hvis ((sm c).getD [])
              rw [← scanSegments_fst c (visited ++ [c]) ((sm c).getD []) rest loc] at h1
              exact ihv _ (hv ▸ h1) _ _ _
                ((unexpanded_of_mem nodes visited c hvis).trans hu) rfl hsub1
            · have h1 := unexpanded_of_not_mem nodes visited c hvis
                (hsub c (List.mem_cons_self _ _))
              exact ihu _ (hu ▸ h1) _ _ _ _ rfl rfl hsub1
          obtain ⟨fuel, fin, hfin⟩ := hrec
          exact ⟨fuel + 1, fin, by simp only [searchLoop, hc, if_false]; exact hfin⟩

end RouterTermination

section RouteProofs

variable {G S : Type} [DecidableEq G] [Inhabited S]

theorem buildRoute_spec (sm : StreetMap G S) (loc : WayPointMap G) (start : G) :
    ∀ (fuel : Nat) (e : G) (acc r : List (StreetSegment G S)),
      buildRoute sm loc start fuel e e acc = some r →
      ∃ l, r = acc ++ l ∧ BackChain sm loc start e l := by
  intro fuel
  induction fuel with
  | zero => intro e acc r h; simp [buildRoute] at h
  | succ fuel ih =>
    intro e acc r h
    simp only [buildRoute] at h
    by_cases he : e = start
    · simp only [he, if_true, Option.some.injEq] at h
      exact ⟨[], by simp [h], he⟩
    · simp only [he, if_false] at h
      cases hl : loc e with
      | none => simp [hl] at h
      | some p =>
        simp only [hl] at h
        obtain ⟨l, hr, hb⟩ := ih p _ r h
        refine ⟨⟨p, e, pickStreetName e ((sm p).getD [])⟩ :: l, ?_, he, p, hl, rfl, hb⟩
        rw [hr, List.append_assoc]
        rfl

theorem buildRoute_mono (sm : StreetMap G S) (loc : WayPointMap G) (start : G) :
    ∀ (fuel : Nat) (e p : G) (acc r : List (StreetSegment G S)),
      buildRoute sm loc start fuel e p acc = some r →
      buildRoute sm loc start (fuel + 1) e p acc = some r := by
  intro fuel
  induction fuel with
  | zero => intro e p acc r h; simp [buildRoute] at h
  | succ fuel ih =>
    intro e p acc r h
    rw [buildRoute] at h ⊢
    by_cases he : p = start
    · simpa [he] using h
    · simp only [he, if_false] at h ⊢
      cases hl : loc e with
      | none => simp [hl] at h
      | some q =>
        simp only [hl] at h ⊢
        exact ih _ _ _ r h

theorem buildRoute_mono_le (sm : StreetMap G S) (loc : WayPointMap G) (start : G)
    (f g : Nat) (hfg : f ≤ g) (e p : G) (acc r : List (StreetSegment G S))
    (h : buildRoute sm loc start f e p acc = some r) :
    buildRoute sm loc start g e p acc = some r := by
  induction hfg with
  | refl => exact h
  | step _ ih => exact buildRoute_mono sm loc start _ e p acc r ih

/-- Under the search invariant the backward walk never meets a `nullptr` and reaches
`start` within as many steps as coordinates were expanded before `e`. -/
theorem buildRoute_runs (sm : StreetMap G S) (start end_ : G) (coords visited : List G)
    (loc : WayPointMap G) (hinv : SearchInv sm start end_ coords visited loc) :
    ∀ (fuel : Nat) (e : G) (acc : List (StreetSegment G S)),
      visited.indexOf e < fuel → (e = start ∨ ∃ p, loc e = some p) →
      ∃ r, buildRoute sm loc start fuel e e acc = some r := by
  intro fuel
  induction fuel with
  | zero => intro e acc h _; omega
  | succ fuel ih =>
    intro e acc hidx hpred
    by_cases he : e = start
    · exact ⟨acc, by simp [buildRoute, he]⟩
    · rcases hpred with h | ⟨p, hp⟩
      · exact absurd h he
      · have h1 := (hinv.pred_ok e p hp).2
        have hpv : p ∈ visited :=
          List.indexOf_lt_length.mp (lt_of_lt_of_le h1 List.indexOf_le_length)
        obtain ⟨r, hr⟩ := ih p (acc ++ [⟨p, e, pickStreetName e ((sm p).getD [])⟩])
          (by omega) (hinv.visited_pred p hpv)
        exact ⟨r, by simp only [buildRoute, he, if_false, hp]; exact hr⟩

theorem pickStreetName_spec (e : G) (segs : List (StreetSegment G S))
    (h : ∃ s ∈ segs, s.end_ = e) :
    ∃ s ∈ segs, s.end_ = e ∧ pickStreetName e segs = s.name := by
  induction segs with
  | nil => obtain ⟨s, hs, _⟩ := h; simp at hs
  | cons t rest ih =>
    by_cases ht : t.end_ = e
    · exact ⟨t, List.mem_cons_self _ _, ht, by simp [pickStreetName, ht]⟩
    · obtain ⟨s, hs, hse⟩ := h
      rcases List.mem_cons.mp hs with h1 | h1
      · exact absurd (h1 ▸ hse) ht
      · obtain ⟨s1, hs1, he1, hn1⟩ := ih ⟨s, h1, hse⟩
        exact ⟨s1, List.mem_cons_of_mem _ hs1, he1, by simp [pickStreetName, ht, hn1]⟩

theorem IsPath_append (sm : StreetMap G S) :
    ∀ (r1 r2 : List (StreetSegment G S)) (a c b : G),
      IsPath sm a r1 c → IsPath sm c r2 b → IsPath sm a (r1 ++ r2) b := by
  intro r1
  induction r1 with
  | nil => intro r2 a c b h1 h2; simp only [IsPath] at h1; subst h1; exact h2
  | cons s rest ih =>
    intro r2 a c b h1 h2
    obtain ⟨hs, hm, hrest⟩ := h1
    exact ⟨hs, hm, ih r2 _ c b hrest h2⟩

theorem BackChain_isPath (sm : StreetMap G S) (hwf : sm.WellFormed) (start end_ : G)
    (coords visited : List G) (loc : WayPointMap G)
    (hinv : SearchInv sm start end_ coords visited loc) :
    ∀ (l : List (StreetSegment G S)) (e : G),
      BackChain sm loc start e l → IsPath sm start l.reverse e := by
  intro l
  induction l with
  | nil => intro e h; exact h.symm
  | cons s l ih =>
    intro e h
    obtain ⟨_, p, hp, hs, hb⟩ := h
    rw [List.reverse_cons]
    apply IsPath_append sm _ _ start p e (ih p hb)
    obtain ⟨s1, hs1, he1, hn1⟩ := pickStreetName_spec e _ (hinv.pred_ok e p hp).1
    cases hsm : sm p with
    | none => simp [hsm] at hs1
    | some segs =>
      simp only [hsm, Option.getD_some] at hs1 hn1
      have hst : s1.start = p := hwf p segs hsm s1 hs1
      have hs' : s = s1 := by
        rw [hs, hsm]
        cases s1
        simp only [Option.getD_some] at *
        simp_all
      refine ⟨by rw [hs], ⟨segs, hsm, hs' ▸ hs1⟩, ?_⟩
      rw [hs]
      rfl

theorem BackChain_index (sm : StreetMap G S) (start end_ : G)
    (coords visited : List G) (loc : WayPointMap G)
    (hinv : SearchInv sm start end_ coords visited loc) :
    ∀ (l : List (StreetSegment G S)) (e : G),
      BackChain sm loc start e l →
      (∀ x ∈ l.map (fun s => s.start), visited.indexOf x < visited.indexOf e) ∧
        (e :: l.map (fun s => s.start)).Nodup := by
  intro l
  induction l with
  | nil => intro e _; simp
  | cons s l ih =>
    intro e h
    obtain ⟨_, p, hp, hs, hb⟩ := h
    obtain ⟨h1, h2⟩ := ih p hb
    have hpe := (hinv.pred_ok e p hp).2
    have hsp : s.start = p := by rw [hs]
    have hall : ∀ x ∈ (s :: l).map (fun s => s.start),
        visited.indexOf x < visited.indexOf e := by
      intro x hx
      simp only [List.map_cons, List.mem_cons] at hx
      rcases hx with hx | hx
      · rw [hx, hsp]; exact hpe
      · exact lt_trans (h1 x hx) hpe
    refine ⟨hall, ?_⟩
    rw [List.nodup_cons]
    refine ⟨fun hmem => lt_irrefl _ (hall e hmem), ?_⟩
    simp only [List.map_cons, hsp]
    exact h2

theorem BackChain_coords (sm : StreetMap G S) (loc : WayPointMap G) (start : G) :
    ∀ (l : List (StreetSegment G S)) (e : G),
      BackChain sm loc start e l →
      start :: l.reverse.map (fun s => s.end_) = (e :: l.map (fun s => s.start)).reverse := by
  intro l
  induction l with
  | nil => intro e h; simp only [BackChain] at h; simp [h]
  | cons s l ih =>
    intro e h
    obtain ⟨_, p, _, hs, hb⟩ := h
    have h1 := ih p hb
    have hsp : s.start = p := by rw [hs]
    have hse : s.end_ = e := by rw [hs]
    simp only [List.reverse_cons, List.map_append, List.map_cons, List.map_nil, hsp, hse]
    rw [← List.cons_append, h1]
    simp

theorem IsPath_head (sm : StreetMap G S) (a b : G) (route : List (StreetSegment G S))
    (h : IsPath sm a route b) (hne : route ≠ []) :
    route.head?.map (fun s => s.start) = some a := by
  cases route with
  | nil => exact absurd rfl hne
  | cons s rest => simp [h.1]

theorem IsPath_last (sm : StreetMap G S) :
    ∀ (route : List (StreetSegment G S)) (a b : G), IsPath sm a route b → route ≠ [] →
      route.getLast?.map (fun s => s.end_) = some b := by
  intro route
  induction route with
  | nil => intro a b _ hne; exact absurd rfl hne
  | cons s rest ih =>
    intro a b h _
    cases rest with
    | nil =>
      have : s.end_ = b := h.2.2
      simp [this]
    | cons t rest =>
      have := ih s.end_ b h.2.2 (by simp)
      simpa [List.getLast?_cons_cons] using this

theorem IsPath_chain (sm : StreetMap G S) :
    ∀ (route : List (StreetSegment G S)) (a b : G), IsPath sm a route b →
      List.Chain' (fun s t => t.start = s.end_) route := by
  intro route
  induction route with
  | nil => intro a b _; exact List.chain'_nil
  | cons s rest ih =>
    intro a b h
    cases rest with
    | nil => exact List.chain'_singleton _
    | cons t rest =>
      exact List.chain'_cons.mpr ⟨h.2.2.1, ih s.end_ b h.2.2⟩

theorem IsPath_mem (sm : StreetMap G S) :
    ∀ (route : List (StreetSegment G S)) (a b : G), IsPath sm a route b →
      ∀ s ∈ route, ∃ segs, sm s.start = some segs ∧ s ∈ segs := by
  intro route
  induction route with
  | nil => intro a b _ s hs; simp at hs
  | cons t rest ih =>
    intro a b h s hs
    rcases List.mem_cons.mp hs with h1 | h1
    · subst h1
      rw [h.1]
      exact h.2.1
    · exact ih t.end_ b h.2.2 s h1

theorem IsPath_closed (sm : StreetMap G S) (visited : List G)
    (hclosed : ∀ x ∈ visited, ∀ s ∈ (sm x).getD [], s.end_ ∈ visited) :
    ∀ (route : List (StreetSegment G S)) (a b : G), a ∈ visited → IsPath sm a route b →
      b ∈ visited := by
  intro route
  induction route with
  | nil => intro a b ha h; simp only [IsPath] at h; exact h ▸ ha
  | cons s rest ih =>
    intro a b ha h
    obtain ⟨_, ⟨segs, hsm, hs⟩, hrest⟩ := h
    exact ih s.end_ b (hclosed a ha s (by simp [hsm, hs])) hrest

end RouteProofs

section RouterMain

variable {G S : Type} [DecidableEq G] [Inhabited S]

theorem generate_same (sm : StreetMap G S) (fuel : Nat) (x : G) :
    generatePointToPointRoute sm fuel x x =
      some ⟨DeliveryResult.DELIVERY_SUCCESS, [], 0⟩ := by
  simp [generatePointToPointRoute]

theorem generate_bad (sm : StreetMap G S) (fuel : Nat) (a b : G) (hab : a ≠ b)
    (h : sm a = none ∨ sm b = none) :
    generatePointToPointRoute sm fuel a b = some ⟨DeliveryResult.BAD_COORD, [], 0⟩ := by
  simp only [generatePointToPointRoute, hab, if_false]
  cases hb : sm b with
  | none => simp
  | some segs =>
    rcases h with h | h
    · simp [h]
    · rw [hb] at h; cases h

/-- The search and the reconstruction on registered, distinct coordinates: the call
returns for every large enough iteration bound, either with a simple path of graph
segments from start to end, or with `NO_ROUTE` when no path exists. -/
theorem generate_search (sm : StreetMap G S) (nodes : List G) (hwf : sm.WellFormed)
    (hfin : sm.EndsIn nodes) (start end_ : G) (hne : start ≠ end_)
    (hs : sm start ≠ none) (he : sm end_ ≠ none) :
    ∃ N, ∀ fuel, N ≤ fuel → ∃ r, generatePointToPointRoute sm fuel start end_ = some r ∧
      r.totalDistanceTravelled = 0 ∧
      ((r.result = DeliveryResult.DELIVERY_SUCCESS ∧ r.route ≠ [] ∧
          IsPath sm start r.route end_ ∧
          (start :: r.route.map (fun s => s.end_)).Nodup) ∨
        (r.result = DeliveryResult.NO_ROUTE ∧ r.route = [] ∧
          ¬ ∃ route, IsPath sm start route end_)) := by
  have hfin1 : sm.EndsIn (start :: nodes) :=
    fun c segs h s hs => List.mem_cons_of_mem _ (hfin c segs h s hs)
  obtain ⟨f0, fin, hrun⟩ := searchLoop_terminates sm end_ (start :: nodes) hfin1 _ _
    [start] [] (fun _ => none) rfl rfl (by intro x hx; simp at hx; simp [hx])
  obtain ⟨coordsF, hinv, hfound, hnot, hlen⟩ := searchLoop_inv sm start end_ f0 _ _ _ fin
    (SearchInv_init sm start end_) hrun
  refine ⟨f0, fun fuel hfuel => ?_⟩
  have hrun1 := searchLoop_mono_le sm end_ f0 fuel hfuel _ _ _ fin hrun
  have hse : (sm end_).isNone = false := by
    cases h : sm end_ with
    | none => exact absurd h he
    | some _ => rfl
  have hss : (sm start).isNone = false := by
    cases h : sm start with
    | none => exact absurd h hs
    | some _ => rfl
  cases hpf : fin.pathFound with
  | true =>
    have hpred : end_ = start ∨ ∃ p, fin.locationOfPreviousWayPoint end_ = some p :=
      hinv.queue_pred end_ (hfound hpf)
    have hidx : fin.visited.indexOf end_ < fuel := by
      have := @List.indexOf_le_length _ _ end_ fin.visited
      simp only [List.length_nil, Nat.add_zero] at hlen
      omega
    obtain ⟨built, hbuilt⟩ := buildRoute_runs sm start end_ coordsF fin.visited
      fin.locationOfPreviousWayPoint hinv fuel end_ [] hidx hpred
    obtain ⟨l, hl, hchain⟩ := buildRoute_spec sm _ start fuel end_ [] built hbuilt
    simp only [List.nil_append] at hl
    subst hl
    have hlne : built ≠ [] := by
      intro h
      subst h
      exact hne (Eq.symm hchain)
    have hrne : built.reverse ≠ [] := by simpa using hlne
    have hemp : built.reverse.isEmpty = false := by
      cases h : built.reverse with
      | nil => exact absurd h hrne
      | cons _ _ => rfl
    refine ⟨⟨DeliveryResult.DELIVERY_SUCCESS, built.reverse, 0⟩, ?_, rfl, Or.inl ⟨rfl, hrne, ?_, ?_⟩⟩
    · simp only [generatePointToPointRoute, hne, if_false, hse, hss, hrun1, hpf, if_true,
        hbuilt, hemp]
      simp
    · exact BackChain_isPath sm hwf start end_ coordsF fin.visited _ hinv built end_ hchain
    · have h1 := (BackChain_index sm start end_ coordsF fin.visited _ hinv built end_ hchain).2
      have h2 := BackChain_coords sm _ start built end_ hchain
      simp only [] at h2 ⊢
      rw [h2]
      exact List.nodup_reverse.mpr h1
  | false =>
    refine ⟨⟨DeliveryResult.NO_ROUTE, [], 0⟩, ?_, rfl, Or.inr ⟨rfl, rfl, ?_⟩⟩
    · simp only [generatePointToPointRoute, hne, if_false, hse, hss, hrun1, hpf]
      simp
    · rintro ⟨route, hroute⟩
      have hnil := hnot hpf
      subst hnil
      have hstart : start ∈ fin.visited := by
        rcases hinv.start_seen with h | ⟨h, _⟩
        · exact h
        · cases h
      have hclosed : ∀ x ∈ fin.visited, ∀ s ∈ (sm x).getD [], s.end_ ∈ fin.visited := by
        intro x hx s hs
        rcases hinv.closed x hx s hs with h | h
        · exact h
        · simp at h
      exact hinv.end_not (IsPath_closed sm fin.visited hclosed route start end_ hstart hroute)

theorem ofList_find (table : List (G × List (StreetSegment G S))) (c : G)
    (segs : List (StreetSegment G S)) (h : StreetMap.ofList table c = some segs) :
    (c, segs) ∈ table := by
  simp only [StreetMap.ofList, Option.map_eq_some'] at h
  obtain ⟨e, he, hes⟩ := h
  have h1 := List.find?_some he
  have h2 := List.mem_of_find?_eq_some he
  simp only [decide_eq_true_eq] at h1
  rw [← h1, ← hes]
  exact h2

theorem ofList_wellFormed (table : List (G × List (StreetSegment G S)))
    (h : ∀ e ∈ table, ∀ s ∈ e.2, s.start = e.1) : (StreetMap.ofList table).WellFormed :=
  fun c segs hc s hs => h (c, segs) (ofList_find table c segs hc) s hs

theorem ofList_endsIn (table : List (G × List (StreetSegment G S))) (nodes : List G)
    (h : ∀ e ∈ table, ∀ s ∈ e.2, s.end_ ∈ nodes) : (StreetMap.ofList table).EndsIn nodes :=
  fun c segs hc s hs => h (c, segs) (ofList_find table c segs hc) s hs

end RouterMain

theorem triangle_wellFormed : triangle.WellFormed :=
  ofList_wellFormed _ (by decide)

theorem triangle_endsIn : triangle.EndsIn [0, 1, 2] :=
  ofList_endsIn _ _ (by decide)

section RouterClaims

variable {G S : Type} [DecidableEq G] [Inhabited S]

theorem generate_mono (sm : StreetMap G S) (f g : Nat) (hfg : f ≤ g) (start end_ : G)
    (r : RouteResult G S) (h : generatePointToPointRoute sm f start end_ = some r) :
    generatePointToPointRoute sm g start end_ = some r := by
  simp only [generatePointToPointRoute] at h ⊢
  by_cases h1 : start = end_
  · simpa [h1] using h
  · simp only [h1, if_false] at h ⊢
    by_cases h2 : (sm end_).isNone = true
    · simpa [h2] using h
    · simp only [h2] at h ⊢
      by_cases h3 : (sm start).isNone = true
      · simpa [h3] using h
      · simp only [h3] at h ⊢
        cases hrun : searchLoop sm end_ f [start] [] (fun _ => none) with
        | none => simp [hrun] at h
        | some fin =>
          simp only [hrun] at h
          simp only [searchLoop_mono_le sm end_ f g hfg _ _ _ fin hrun]
          cases hpf : fin.pathFound with
          | false => simpa [hpf] using h
          | true =>
            simp only [hpf, if_true] at h ⊢
            cases hb : buildRoute sm fin.locationOfPreviousWayPoint start f end_ end_ [] with
            | none => simp [hb] at h
            | some built =>
              simp only [hb] at h
              simp only [buildRoute_mono_le sm _ start f g hfg _ _ _ built hb]
              exact h

/-- The router returns on every finite well-formed street graph. -/
theorem generate_returns (sm : StreetMap G S) (nodes : List G) (hwf : sm.WellFormed)
    (hfin : sm.EndsIn nodes) (start end_ : G) :
    ∃ N, ∀ fuel, N ≤ fuel → ∃ r, generatePointToPointRoute sm fuel start end_ = some r := by
  by_cases hne : start = end_
  · subst hne
    exact ⟨0, fun fuel _ => ⟨_, generate_same sm fuel start⟩⟩
  · by_cases hreg : sm start = none ∨ sm end_ = none
    · exact ⟨0, fun fuel _ => ⟨_, generate_bad sm fuel start end_ hne hreg⟩⟩
    · simp only [not_or] at hreg
      obtain ⟨N, hN⟩ := generate_search sm nodes hwf hfin start end_ hne hreg.1 hreg.2
      exact ⟨N, fun fuel hfuel => (hN fuel hfuel).imp (fun _ h => h.1)⟩

/-- C2: for `A ≠ B` on a finite well-formed street graph the call returns, and whenever
it returns `DELIVERY_SUCCESS` the route is non-empty, its first segment starts at `A`,
its last segment ends at `B`, every segment starts where the previous one ended, no
coordinate occurs twice along the walk, and every segment is one of the segments the
graph stores under the segment's start coordinate. -/
theorem route_is_simple_path (sm : StreetMap G S) (nodes : List G) (hwf : sm.WellFormed)
    (hfin : sm.EndsIn nodes) (A B : G) (hAB : A ≠ B) :
    (∃ N, ∀ fuel, N ≤ fuel → ∃ r, generatePointToPointRoute sm fuel A B = some r) ∧
    ∀ fuel r, generatePointToPointRoute sm fuel A B = some r →
      r.result = DeliveryResult.DELIVERY_SUCCESS →
      r.route ≠ [] ∧
      r.route.head?.map (fun s => s.start) = some A ∧
      r.route.getLast?.map (fun s => s.end_) = some B ∧
      List.Chain' (fun s t => t.start = s.end_) r.route ∧
      (A :: r.route.map (fun s => s.end_)).Nodup ∧
      ∀ s ∈ r.route, ∃ segs, sm s.start = some segs ∧ s ∈ segs := by
  refine ⟨generate_returns sm nodes hwf hfin A B, ?_⟩
  intro fuel r hr hsucc
  by_cases hreg : sm A = none ∨ sm B = none
  · rw [generate_bad sm fuel A B hAB hreg] at hr
    simp only [Option.some.injEq] at hr
    subst hr
    cases hsucc
  · simp only [not_or] at hreg
    obtain ⟨N, hN⟩ := generate_search sm nodes hwf hfin A B hAB hreg.1 hreg.2
    obtain ⟨r1, hr1, _, hcase⟩ := hN (max fuel N) (le_max_right _ _)
    have heq := generate_mono sm fuel (max fuel N) (le_max_left _ _) A B r hr
    rw [hr1] at heq
    simp only [Option.some.injEq] at heq
    subst heq
    rcases hcase with ⟨_, hne, hpath, hnd⟩ | ⟨hno, _, _⟩
    · exact ⟨hne, IsPath_head sm A B _ hpath hne, IsPath_last sm _ A B hpath hne,
        IsPath_chain sm _ A B hpath, hnd, IsPath_mem sm _ A B hpath⟩
    · rw [hno] at hsucc
      cases hsucc

/-- C4: on a finite well-formed street graph the call returns, and its result code is
the one the reference classification gives. -/
theorem result_matches_reference (sm : StreetMap G S) (nodes : List G)
    (hwf : sm.WellFormed) (hfin : sm.EndsIn nodes) (start end_ : G) :
    (∃ N, ∀ fuel, N ≤ fuel → ∃ r, generatePointToPointRoute sm fuel start end_ = some r) ∧
    ∀ fuel r, generatePointToPointRoute sm fuel start end_ = some r →
      referenceClassification sm start end_ r := by
  refine ⟨generate_returns sm nodes hwf hfin start end_, ?_⟩
  intro fuel r hr
  by_cases hne : start = end_
  · subst hne
    rw [generate_same] at hr
    simp only [Option.some.injEq] at hr
    subst hr
    exact ⟨fun _ => ⟨rfl, rfl, rfl⟩, fun h => absurd rfl h, fun h => absurd rfl h,
      fun h => absurd rfl h⟩
  · by_cases hreg : sm start = none ∨ sm end_ = none
    · rw [generate_bad sm fuel start end_ hne hreg] at hr
      simp only [Option.some.injEq] at hr
      subst hr
      refine ⟨fun h => absurd h hne, fun _ _ => rfl, ?_, ?_⟩
      · intro _ h1 h2
        rcases hreg with h | h
        · exact absurd h h1
        · exact absurd h h2
      · intro _ h1 h2
        rcases hreg with h | h
        · exact absurd h h1
        · exact absurd h h2
    · have hreg2 := hreg
      simp only [not_or] at hreg2
      obtain ⟨N, hN⟩ := generate_search sm nodes hwf hfin start end_ hne hreg2.1 hreg2.2
      obtain ⟨r1, hr1, _, hcase⟩ := hN (max fuel N) (le_max_right _ _)
      have heq := generate_mono sm fuel (max fuel N) (le_max_left _ _) start end_ r hr
      rw [hr1] at heq
      simp only [Option.some.injEq] at heq
      subst heq
      refine ⟨fun h => absurd h hne, fun _ h => absurd h hreg, ?_, ?_⟩
      · intro _ _ _ hex
        rcases hcase with ⟨hs, _⟩ | ⟨_, _, hno⟩
        · exact hs
        · exact absurd hex hno
      · intro _ _ _ hnex
        rcases hcase with ⟨_, _, hp, _⟩ | ⟨hs, _⟩
        · exact absurd ⟨_, hp⟩ hnex
        · exact hs

/-- C5 as amended: for `A ≠ B`, when `A` or `B` was never loaded the call returns
`BAD_COORD` (with the route and the distance cleared), whichever of the two is missing. -/
theorem bad_coord_when_unregistered (sm : StreetMap G S) (fuel : Nat) (A B : G)
    (hAB : A ≠ B) (h : sm A = none ∨ sm B = none) :
    generatePointToPointRoute sm fuel A B = some ⟨DeliveryResult.BAD_COORD, [], 0⟩ :=
  generate_bad sm fuel A B hAB h

end RouterClaims

theorem route_is_simple_path_witness :
    (∃ N, ∀ fuel, N ≤ fuel → ∃ r, generatePointToPointRoute triangle fuel 0 2 = some r) ∧
    ∀ fuel r, generatePointToPointRoute triangle fuel 0 2 = some r →
      r.result = DeliveryResult.DELIVERY_SUCCESS →
      r.route ≠ [] ∧
      r.route.head?.map (fun s => s.start) = some 0 ∧
      r.route.getLast?.map (fun s => s.end_) = some 2 ∧
      List.Chain' (fun s t => t.start = s.end_) r.route ∧
      (0 :: r.route.map (fun s => s.end_)).Nodup ∧
      ∀ s ∈ r.route, ∃ segs, triangle s.start = some segs ∧ s ∈ segs :=
  route_is_simple_path triangle [0, 1, 2] triangle_wellFormed triangle_endsIn 0 2 (by decide)

theorem result_matches_reference_witness :
    (∃ N, ∀ fuel, N ≤ fuel → ∃ r, generatePointToPointRoute triangle fuel 0 2 = some r) ∧
    ∀ fuel r, generatePointToPointRoute triangle fuel 0 2 = some r →
      referenceClassification triangle 0 2 r :=
  result_matches_reference triangle [0, 1, 2] triangle_wellFormed triangle_endsIn 0 2

theorem bad_coord_when_unregistered_witness :
    generatePointToPointRoute triangle 5 7 0 = some ⟨DeliveryResult.BAD_COORD, [], 0⟩ :=
  bad_coord_when_unregistered triangle 5 7 0 (by decide) (Or.inl (by decide))

/-- C5 (counterexample): the coordinate 7 was never loaded into the triangle graph, yet
the call from 7 to 7 returns `DELIVERY_SUCCESS`, not `BAD_COORD`: the test
`start == end` comes first. -/
theorem same_unregistered_point_succeeds :
    triangle 7 = none ∧
      (generatePointToPointRoute triangle 5 7 7).map (fun r => r.result) =
        some DeliveryResult.DELIVERY_SUCCESS := by
  constructor
  · decide
  · decide

/-- C1 (evaluation at the failing input): in the triangle graph the segment from 0 to 2
is a path of one segment, yet for every iteration bound that lets the call return the
route from 0 to 2 has two segments, through 1: expanding 1 before 2 is dequeued
overwrites the predecessor of 2. -/
theorem route_not_fewest_segments :
    IsPath triangle 0 [⟨0, 2, 8⟩] 2 ∧
      ∀ k, generatePointToPointRoute triangle (3 + k) 0 2 =
        some ⟨DeliveryResult.DELIVERY_SUCCESS, [⟨0, 1, 7⟩, ⟨1, 2, 9⟩], 0⟩ := by
  constructor
  · exact ⟨rfl, ⟨_, rfl, by decide⟩, rfl⟩
  · intro k
    exact generate_mono triangle 3 (3 + k) (Nat.le_add_right _ _) 0 2 _ rfl

/-- C3 (evaluation at the failing input): the call from 0 to 1 in the triangle graph
succeeds with the one-segment route and reports distance 0, whatever the distance
function; with every segment one unit long the route is one unit long. -/
theorem total_distance_stays_zero :
    routeLength (fun _ _ => 1) [(⟨0, 1, 7⟩ : StreetSegment Nat Nat)] = 1 ∧
      ∀ k, generatePointToPointRoute triangle (2 + k) 0 1 =
        some ⟨DeliveryResult.DELIVERY_SUCCESS, [⟨0, 1, 7⟩], 0⟩ := by
  constructor
  · simp [routeLength]
  · intro k
    exact generate_mono triangle 2 (2 + k) (Nat.le_add_right _ _) 0 1 _ rfl

section OptimizerProofs

variable {G I : Type}

theorem crowSum_shift (dist : G → G → ℚ) (oob a : DeliveryRequest G I)
    (l : List (DeliveryRequest G I)) :
    ∀ (k s : Nat) (acc : ℚ), 1 ≤ s →
      (List.range' (s + 1) k).foldl
          (fun acc i =>
            acc + dist ((a :: l).getD (i - 1) oob).location ((a :: l).getD i oob).location)
          acc =
        (List.range' s k).foldl
          (fun acc i => acc + dist (l.getD (i - 1) oob).location (l.getD i oob).location)
          acc := by
  intro k
  induction k with
  | zero => intro s acc _; rfl
  | succ k ih =>
    intro s acc hs
    simp only [List.range'_succ, List.foldl_cons]
    rw [ih (s + 1) _ (by omega)]
    obtain ⟨t, rfl⟩ : ∃ t, s = t + 1 := ⟨s - 1, by omega⟩
    simp [List.getD_cons_succ]

theorem crowSum_eq_pathLength (dist : G → G → ℚ) (oob : DeliveryRequest G I) :
    ∀ (l : List (DeliveryRequest G I)) (acc : ℚ),
      (List.range' 1 (l.length - 1)).foldl
          (fun acc i => acc + dist (l.getD (i - 1) oob).location (l.getD i oob).location)
          acc =
        acc + pathLength dist (l.map (fun d => d.location)) := by
  intro l
  induction l with
  | nil => intro acc; simp [pathLength]
  | cons a l ih =>
    intro acc
    cases l with
    | nil => simp [pathLength]
    | cons b rest =>
      have e : (a :: b :: rest).length - 1 = ((b :: rest).length - 1) + 1 := by simp
      rw [e, List.range'_succ, List.foldl_cons, crowSum_shift dist oob a (b :: rest) _ 1 _ (le_refl _),
        ih]
      simp only [List.map_cons, pathLength, List.getD_cons_zero, List.getD_cons_succ,
        Nat.sub_self]
      ring

theorem pathLength_append_singleton (dist : G → G → ℚ) (x : G) :
    ∀ (l : List G) (d : G), l ≠ [] →
      pathLength dist (l ++ [x]) = pathLength dist l + dist (l.getD (l.length - 1) d) x := by
  intro l
  induction l with
  | nil => intro d h; exact absurd rfl h
  | cons a l ih =>
    intro d _
    cases l with
    | nil => simp [pathLength]
    | cons b rest =>
      have h := ih d (by simp)
      have e : pathLength dist (a :: b :: rest ++ [x]) =
          dist a b + pathLength dist (b :: rest ++ [x]) := rfl
      have e2 : pathLength dist (a :: b :: rest) = dist a b + pathLength dist (b :: rest) := rfl
      rw [e, h, e2]
      simp only [List.length_cons, List.getD_cons_succ, Nat.add_sub_cancel]
      ring

/-- The crow distance the code computes for a non-empty vector is the length of the tour
depot, the locations in order, depot. -/
theorem crowDistance_eq_tourLength (dist : G → G → ℚ) (oob : DeliveryRequest G I) (depot : G)
    (l : List (DeliveryRequest G I)) (hne : l ≠ []) :
    crowDistance dist oob depot l = tourLength dist depot l := by
  cases l with
  | nil => exact absurd rfl hne
  | cons a rest =>
    simp only [crowDistance, tourLength, crowSum_eq_pathLength]
    have h1 := pathLength_append_singleton dist depot
      ((a :: rest).map (fun d => d.location)) oob.location (by simp)
    have h2 : ((a :: rest).map (fun d => d.location)).getD
        (((a :: rest).map (fun d => d.location)).length - 1) oob.location =
        ((a :: rest).getD ((a :: rest).length - 1) oob).location := by
      simp only [List.length_map, List.getD_eq_getElem?_getD, List.getElem?_map]
      cases (a :: rest)[(a :: rest).length - 1]? <;> rfl
    rw [h2] at h1
    have h3 : pathLength dist (depot :: (a :: rest).map (fun d => d.location) ++ [depot]) =
        dist depot a.location +
          pathLength dist ((a :: rest).map (fun d => d.location) ++ [depot]) := by
      simp [pathLength]
    rw [h3, h1]
    simp only [List.getD_cons_zero]
    ring

theorem optimize_deliveries_ne_nil (dist : G → G → ℚ) (oob : DeliveryRequest G I) (depot : G)
    (deliveries : List (DeliveryRequest G I)) :
    (optimizeDeliveryOrder dist oob depot deliveries).deliveries ≠ [] := by
  simp [optimizeDeliveryOrder]

/-- C10: for every non-empty delivery list `oldCrowDistance` is the tour length
depot, `d0`, ..., `dn`, depot over the input order, and `newCrowDistance` is the same
formula over the order left in `deliveries`. -/
theorem crow_distances_reported (dist : G → G → ℚ) (oob : DeliveryRequest G I) (depot : G)
    (deliveries : List (DeliveryRequest G I)) (hne : deliveries ≠ []) :
    (optimizeDeliveryOrder dist oob depot deliveries).oldCrowDistance =
        tourLength dist depot deliveries ∧
      (optimizeDeliveryOrder dist oob depot deliveries).newCrowDistance =
        tourLength dist depot (optimizeDeliveryOrder dist oob depot deliveries).deliveries := by
  constructor
  · exact crowDistance_eq_tourLength dist oob depot deliveries hne
  · exact crowDistance_eq_tourLength dist oob depot _
      (optimize_deliveries_ne_nil dist oob depot deliveries)

/-- C8 (evaluation at the failing input): for a single request `d` the vector left in
`deliveries` is `d` followed by whatever the read of `deliveries[0]` on the emptied
vector yields: two entries instead of one. -/
theorem single_request_gains_an_entry (dist : G → G → ℚ) (oob d : DeliveryRequest G I)
    (depot : G) :
    (optimizeDeliveryOrder dist oob depot [d]).deliveries = [d, oob] ∧
      (optimizeDeliveryOrder dist oob depot [d]).deliveries.length ≠ [d].length := by
  constructor
  · simp [optimizeDeliveryOrder, nearestIndex, orderLoop]
  · simp [optimizeDeliveryOrder, nearestIndex, orderLoop]

end OptimizerProofs

theorem crow_distances_reported_witness :
    (optimizeDeliveryOrder (fun a b : Nat => ((a + b : Nat) : ℚ))
        (⟨0, 0⟩ : DeliveryRequest Nat Nat) 0 [⟨1, 5⟩, ⟨2, 3⟩]).oldCrowDistance =
        tourLength (fun a b : Nat => ((a + b : Nat) : ℚ)) 0
          [(⟨1, 5⟩ : DeliveryRequest Nat Nat), ⟨2, 3⟩] ∧
      (optimizeDeliveryOrder (fun a b : Nat => ((a + b : Nat) : ℚ))
        (⟨0, 0⟩ : DeliveryRequest Nat Nat) 0 [⟨1, 5⟩, ⟨2, 3⟩]).newCrowDistance =
        tourLength (fun a b : Nat => ((a + b : Nat) : ℚ)) 0
          (optimizeDeliveryOrder (fun a b : Nat => ((a + b : Nat) : ℚ))
            (⟨0, 0⟩ : DeliveryRequest Nat Nat) 0 [⟨1, 5⟩, ⟨2, 3⟩]).deliveries :=
  crow_distances_reported _ _ 0 [⟨1, 5⟩, ⟨2, 3⟩] (by simp)

section GreedyProofs

variable {G I : Type}

theorem scan_fold (dist : G → G → ℚ) (oob : DeliveryRequest G I) (current : G)
    (l : List (DeliveryRequest G I)) :
    ∀ (k s : Nat) (st : ℚ × Nat), ScanInv dist oob current l s st →
      ScanInv dist oob current l (s + k)
        ((List.range' s k).foldl
          (fun (st : ℚ × Nat) i =>
            if dist current (l.getD i oob).location < st.1 then
              (dist current (l.getD i oob).location, i)
            else st)
          st) := by
  intro k
  induction k with
  | zero => intro s st h; simpa using h
  | succ k ih =>
    intro s st h
    simp only [List.range'_succ, List.foldl_cons]
    have e : s + (k + 1) = (s + 1) + k := by omega
    rw [e]
    apply ih
    obtain ⟨h1, h2, h3⟩ := h
    by_cases hc : dist current (l.getD s oob).location < st.1
    · simp only [hc, if_true]
      refine ⟨by omega, rfl, ?_⟩
      intro q hq
      rcases Nat.lt_succ_iff_lt_or_eq.mp hq with hq1 | hq1
      · have := (h3 q hq1).1
        exact ⟨by linarith, fun _ => by linarith⟩
      · subst hq1
        exact ⟨le_refl _, fun hlt => absurd hlt (lt_irrefl _)⟩
    · simp only [hc, if_false]
      refine ⟨by omega, h2, ?_⟩
      intro q hq
      rcases Nat.lt_succ_iff_lt_or_eq.mp hq with hq1 | hq1
      · exact h3 q hq1
      · subst hq1
        exact ⟨not_lt.mp hc, fun hlt => by omega⟩

/-- The scan returns the first position of least distance. -/
theorem nearestIndex_spec (dist : G → G → ℚ) (oob : DeliveryRequest G I) (current : G)
    (l : List (DeliveryRequest G I)) (hne : l ≠ []) :
    nearestIndex dist oob current l < l.length ∧
      ∀ q, q < l.length →
        dist current (l.getD (nearestIndex dist oob current l) oob).location ≤
            dist current (l.getD q oob).location ∧
          (q < nearestIndex dist oob current l →
            dist current (l.getD (nearestIndex dist oob current l) oob).location <
              dist current (l.getD q oob).location) := by
  have hlen : 0 < l.length := List.length_pos.mpr hne
  have h0 : ScanInv dist oob current l 1 (dist current (l.getD 0 oob).location, 0) := by
    refine ⟨by omega, rfl, ?_⟩
    intro q hq
    have : q = 0 := by omega
    subst this
    exact ⟨le_refl _, fun h => absurd h (lt_irrefl _)⟩
  have h := scan_fold dist oob current l (l.length - 1) 1 _ h0
  have e : 1 + (l.length - 1) = l.length := by omega
  rw [e] at h
  obtain ⟨h1, h2, h3⟩ := h
  refine ⟨h1, ?_⟩
  intro q hq
  have := h3 q hq
  rw [h2] at this
  exact this

theorem Preferred_trans (dist : G → G → ℚ) (current : G)
    (a b c : Nat × DeliveryRequest G I) (h1 : Preferred dist current a b)
    (h2 : Preferred dist current b c) : Preferred dist current a c := by
  unfold Preferred at *
  rcases h1 with h1 | ⟨h1, h1'⟩ <;> rcases h2 with h2 | ⟨h2, h2'⟩
  · left; linarith
  · left; linarith
  · left; linarith
  · right; exact ⟨h1.trans h2, le_trans h1' h2'⟩

theorem refNearest_none (dist : G → G → ℚ) (current : G)
    (cands : List (Nat × DeliveryRequest G I)) (h : refNearest dist current cands = none) :
    cands = [] := by
  cases cands with
  | nil => rfl
  | cons c rest =>
    simp only [refNearest] at h
    cases hr : refNearest dist current rest with
    | none => simp [hr] at h
    | some b =>
      simp only [hr] at h
      split_ifs at h

theorem refNearest_min (dist : G → G → ℚ) (current : G) :
    ∀ (cands : List (Nat × DeliveryRequest G I)) (b : Nat × DeliveryRequest G I),
      refNearest dist current cands = some b →
      b ∈ cands ∧ ∀ c ∈ cands, Preferred dist current b c := by
  intro cands
  induction cands with
  | nil => intro b h; simp [refNearest] at h
  | cons c rest ih =>
    intro b h
    simp only [refNearest] at h
    cases hr : refNearest dist current rest with
    | none =>
      simp only [hr, Option.some.injEq] at h
      subst h
      have := refNearest_none dist current rest hr
      subst this
      refine ⟨List.mem_cons_self _ _, ?_⟩
      intro x hx
      simp only [List.mem_singleton] at hx
      subst hx
      exact Or.inr ⟨rfl, le_refl _⟩
    | some b0 =>
      simp only [hr] at h
      obtain ⟨hb0, hmin0⟩ := ih b0 hr
      split_ifs at h with hc
      · simp only [Option.some.injEq] at h
        subst h
        refine ⟨List.mem_cons_self _ _, ?_⟩
        intro x hx
        rcases List.mem_cons.mp hx with hx | hx
        · subst hx; exact Or.inr ⟨rfl, le_refl _⟩
        · exact Preferred_trans dist current _ b0 x hc (hmin0 x hx)
      · simp only [Option.some.injEq] at h
        subst h
        refine ⟨List.mem_cons_of_mem _ hb0, ?_⟩
        intro x hx
        rcases List.mem_cons.mp hx with hx | hx
        · subst hx
          unfold Preferred
          simp only [not_or, not_and, not_lt, not_le] at hc
          rcases lt_or_eq_of_le hc.1 with h1 | h1
          · exact Or.inl h1
          · exact Or.inr ⟨h1, le_of_lt (hc.2 h1.symm)⟩
        · exact hmin0 x hx

theorem IndexSorted_inj (cands : List (Nat × DeliveryRequest G I)) (hs : IndexSorted cands)
    (x y : Nat × DeliveryRequest G I) (hx : x ∈ cands) (hy : y ∈ cands) (h : x.1 = y.1) :
    x = y := by
  obtain ⟨i, hi, rfl⟩ := List.mem_iff_getElem.mp hx
  obtain ⟨j, hj, rfl⟩ := List.mem_iff_getElem.mp hy
  have hp := List.pairwise_iff_getElem.mp hs
  rcases Nat.lt_trichotomy i j with hij | hij | hij
  · have := hp i j hi hj hij; omega
  · subst hij; rfl
  · have := hp j i hj hi hij; omega

/-- The specification's choice is the candidate that is preferred to all others. -/
theorem refNearest_eq (dist : G → G → ℚ) (current : G)
    (cands : List (Nat × DeliveryRequest G I)) (hs : IndexSorted cands)
    (b : Nat × DeliveryRequest G I) (hb : b ∈ cands)
    (hmin : ∀ c ∈ cands, Preferred dist current b c) :
    refNearest dist current cands = some b := by
  cases hr : refNearest dist current cands with
  | none =>
    have := refNearest_none dist current cands hr
    subst this
    simp at hb
  | some b1 =>
    obtain ⟨hb1, hmin1⟩ := refNearest_min dist current cands b1 hr
    have h1 := hmin b1 hb1
    have h2 := hmin1 b hb
    have hidx : b1.1 = b.1 := by
      unfold Preferred at h1 h2
      rcases h1 with h1 | ⟨h1, h1'⟩ <;> rcases h2 with h2 | ⟨h2, h2'⟩
      · linarith
      · linarith
      · linarith
      · omega
    rw [IndexSorted_inj cands hs b1 b hb1 hb hidx]

theorem filter_index_ne (cands : List (Nat × DeliveryRequest G I)) :
    ∀ (p : Nat) (hp : p < cands.length), IndexSorted cands →
      cands.filter (fun c => decide (c.1 ≠ (cands[p]).1)) = cands.eraseIdx p := by
  induction cands with
  | nil => intro p hp; simp at hp
  | cons c rest ih =>
    intro p hp hs
    have hs' := List.pairwise_cons.mp hs
    cases p with
    | zero =>
      simp only [List.getElem_cons_zero, List.eraseIdx_cons_zero, List.filter_cons,
        ne_eq, not_true_eq_false, decide_False]
      simp only [Bool.false_eq_true, if_false]
      apply List.filter_eq_self.mpr
      intro x hx
      have := hs'.1 x hx
      simp only [decide_eq_true_eq]
      omega
    | succ p =>
      have hp' : p < rest.length := by simpa using hp
      have hlt : c.1 < (rest[p]).1 := hs'.1 _ (List.getElem_mem _)
      have hne : c.1 ≠ (rest[p]).1 := by omega
      simp only [List.getElem_cons_succ, List.eraseIdx_cons_succ, List.filter_cons, hne,
        ne_eq, not_false_eq_true, decide_True, if_true]
      rw [← ih p hp' hs'.2]

theorem map_snd_eraseIdx (cands : List (Nat × DeliveryRequest G I)) :
    ∀ p, (cands.map Prod.snd).eraseIdx p = (cands.eraseIdx p).map Prod.snd := by
  induction cands with
  | nil => intro p; simp
  | cons c rest ih =>
    intro p
    cases p with
    | zero => simp
    | succ p => simp [ih p]

/-- One selection of the code on the requests of an index-sorted candidate list is the
selection of the specification. -/
theorem nearestIndex_is_refNearest (dist : G → G → ℚ) (oob : DeliveryRequest G I)
    (current : G) (cands : List (Nat × DeliveryRequest G I)) (hs : IndexSorted cands)
    (hne : cands ≠ []) :
    ∃ (p : Nat) (hp : p < cands.length),
      nearestIndex dist oob current (cands.map Prod.snd) = p ∧
      (cands.map Prod.snd).getD p oob = (cands[p]).2 ∧
      refNearest dist current cands = some cands[p] := by
  have hne' : cands.map Prod.snd ≠ [] := by simpa using hne
  obtain ⟨h1, h2⟩ := nearestIndex_spec dist oob current (cands.map Prod.snd) hne'
  have hp : nearestIndex dist oob current (cands.map Prod.snd) < cands.length := by
    simpa using h1
  have hget : ∀ q (hq : q < cands.length),
      (cands.map Prod.snd).getD q oob = (cands[q]).2 := by
    intro q hq
    simp [List.getD_eq_getElem?_getD, List.getElem?_map, List.getElem?_eq_getElem hq]
  refine ⟨_, hp, rfl, hget _ hp, ?_⟩
  apply refNearest_eq dist current cands hs _ (List.getElem_mem _)
  intro c hc
  obtain ⟨q, hq, rfl⟩ := List.mem_iff_getElem.mp hc
  have h3 := h2 q (by simpa using hq)
  rw [hget _ hp, hget q hq] at h3
  unfold Preferred
  rcases lt_or_eq_of_le h3.1 with h4 | h4
  · exact Or.inl h4
  · right
    refine ⟨h4, ?_⟩
    have hqp : ¬ q < nearestIndex dist oob current (cands.map Prod.snd) := by
      intro hlt
      have := h3.2 hlt
      linarith
    rcases Nat.eq_or_lt_of_le (not_lt.mp hqp) with h5 | h5
    · simp only [h5, le_refl]
    · exact le_of_lt (List.pairwise_iff_getElem.mp hs _ _ hp hq h5)

theorem orderLoop_refGreedy (dist : G → G → ℚ) (oob : DeliveryRequest G I) :
    ∀ (fuel : Nat) (cands : List (Nat × DeliveryRequest G I)) (current : G)
      (acc : List (DeliveryRequest G I)),
      IndexSorted cands → 1 ≤ cands.length → cands.length ≤ fuel →
      (orderLoop dist oob fuel current (cands.map Prod.snd) acc).2 ++
          [(orderLoop dist oob fuel current (cands.map Prod.snd) acc).1.getD 0 oob] =
        acc ++ refGreedy dist cands.length current cands := by
  intro fuel
  induction fuel with
  | zero => intro cands current acc _ h1 h2; omega
  | succ fuel ih =>
    intro cands current acc hs h1 h2
    have hne : cands ≠ [] := by
      intro h; subst h; simp at h1
    obtain ⟨p, hp, hidx, hget, href⟩ :=
      nearestIndex_is_refNearest dist oob current cands hs hne
    by_cases hlen : 1 < cands.length
    · have hlen' : (cands.map Prod.snd).length > 1 := by simpa using hlen
      simp only [orderLoop, hlen', if_true, hidx, hget, map_snd_eraseIdx]
      have hlen2 : (cands.eraseIdx p).length = cands.length - 1 := by
        rw [List.length_eraseIdx]; simp [hp]
      rw [ih (cands.eraseIdx p) _ _
        (List.Pairwise.sublist (List.eraseIdx_sublist _ _) hs) (by omega) (by omega)]
      obtain ⟨n, hn⟩ : ∃ n, cands.length = n + 1 := ⟨cands.length - 1, by omega⟩
      rw [hlen2, hn]
      simp only [refGreedy, href, Nat.add_sub_cancel, filter_index_ne cands p hp hs,
        List.append_assoc, List.singleton_append]
    · have hlen1 : cands.length = 1 := by omega
      have hlen' : ¬ (cands.map Prod.snd).length > 1 := by simpa using hlen
      simp only [orderLoop, hlen', if_false]
      have hp0 : p = 0 := by omega
      subst hp0
      rw [hget, hlen1]
      simp only [refGreedy, href]

/-- C9: for at least two requests the order left in `deliveries` is the reference greedy
nearest-neighbour order: first the request closest to the depot, then always the request
closest to the stop chosen before among those not yet chosen, a tie in distance going to
the candidate with the lowest index in the input list. -/
theorem order_is_reference_greedy (dist : G → G → ℚ) (oob : DeliveryRequest G I) (depot : G)
    (deliveries : List (DeliveryRequest G I)) (h2 : 2 ≤ deliveries.length) :
    (optimizeDeliveryOrder dist oob depot deliveries).deliveries =
      refGreedy dist deliveries.length depot deliveries.enum := by
  have hs : IndexSorted deliveries.enum := by
    unfold IndexSorted
    have := List.pairwise_lt_range deliveries.length
    rw [← List.enum_map_fst, List.pairwise_map] at this
    exact this
  have hlen : deliveries.enum.length = deliveries.length := List.enum_length
  have hne : deliveries.enum ≠ [] := by
    intro h
    rw [h] at hlen
    simp at hlen
    omega
  obtain ⟨p, hp, hidx, hget, href⟩ :=
    nearestIndex_is_refNearest dist oob depot deliveries.enum hs hne
  rw [List.enum_map_snd] at hidx hget
  have hlen2 : (deliveries.enum.eraseIdx p).length = deliveries.length - 1 := by
    rw [List.length_eraseIdx, if_pos hp, hlen]
  have herase : deliveries.eraseIdx p = (deliveries.enum.eraseIdx p).map Prod.snd := by
    rw [← map_snd_eraseIdx, List.enum_map_snd]
  have hfuel : (deliveries.eraseIdx p).length = (deliveries.enum.eraseIdx p).length := by
    rw [herase, List.length_map]
  simp only [optimizeDeliveryOrder, hidx, hget]
  rw [hfuel, herase,
    orderLoop_refGreedy dist oob _ (deliveries.enum.eraseIdx p) _ _
      (List.Pairwise.sublist (List.eraseIdx_sublist _ _) hs) (by omega) (le_refl _)]
  obtain ⟨n, hn⟩ : ∃ n, deliveries.length = n + 1 := ⟨deliveries.length - 1, by omega⟩
  rw [hlen2, hn]
  simp only [refGreedy, href, Nat.add_sub_cancel, filter_index_ne deliveries.enum p hp hs,
    List.singleton_append]

end GreedyProofs

theorem order_is_reference_greedy_witness :
    (optimizeDeliveryOrder (fun a b : Nat => ((a + b : Nat) : ℚ))
        (⟨0, 0⟩ : DeliveryRequest Nat Nat) 0 [⟨1, 5⟩, ⟨2, 3⟩, ⟨3, 3⟩]).deliveries =
      refGreedy (fun a b : Nat => ((a + b : Nat) : ℚ)) 3 0
        ([⟨1, 5⟩, ⟨2, 3⟩, ⟨3, 3⟩] : List (DeliveryRequest Nat Nat)).enum :=
  order_is_reference_greedy _ _ 0 [⟨1, 5⟩, ⟨2, 3⟩, ⟨3, 3⟩] (by decide)

section OptimizerPerm

variable {G I : Type}

theorem perm_getD_eraseIdx (oob : DeliveryRequest G I) :
    ∀ (l : List (DeliveryRequest G I)) (p : Nat), p < l.length →
      List.Perm l (l.getD p oob :: l.eraseIdx p) := by
  intro l
  induction l with
  | nil => intro p hp; simp at hp
  | cons a rest ih =>
    intro p hp
    cases p with
    | zero => simp
    | succ p =>
      have h := ih p (by simpa using hp)
      simp only [List.getD_cons_succ, List.eraseIdx_cons_succ]
      exact (List.Perm.cons a h).trans (List.Perm.swap _ _ _)

/-- The loop keeps every request: what it has moved to `newOrder` together with what is
left in `deliveries` is a rearrangement of what it started with. -/
theorem orderLoop_perm (dist : G → G → ℚ) (oob : DeliveryRequest G I) :
    ∀ (fuel : Nat) (current : G) (l acc : List (DeliveryRequest G I)),
      List.Perm ((orderLoop dist oob fuel current l acc).2 ++
        (orderLoop dist oob fuel current l acc).1) (acc ++ l) := by
  intro fuel
  induction fuel with
  | zero => intro current l acc; exact List.Perm.refl _
  | succ fuel ih =>
    intro current l acc
    by_cases hlen : l.length > 1
    · simp only [orderLoop, hlen, if_true]
      refine (ih _ _ _).trans ?_
      have hne : l ≠ [] := by intro h; subst h; simp at hlen
      have hp := (nearestIndex_spec dist oob current l hne).1
      rw [List.append_assoc]
      exact List.Perm.append_left acc (perm_getD_eraseIdx oob l _ hp).symm
    · simp only [orderLoop, hlen, if_false]
      exact List.Perm.refl _

/-- The loop is left through its condition: with as many iterations allowed as
`deliveries` has elements, exactly one element remains of a non-empty vector. -/
theorem orderLoop_exit (dist : G → G → ℚ) (oob : DeliveryRequest G I) :
    ∀ (fuel : Nat) (current : G) (l acc : List (DeliveryRequest G I)),
      l.length ≤ fuel → 1 ≤ l.length →
      (orderLoop dist oob fuel current l acc).1.length = 1 := by
  intro fuel
  induction fuel with
  | zero => intro current l acc h h1; omega
  | succ fuel ih =>
    intro current l acc h h1
    by_cases hlen : l.length > 1
    · simp only [orderLoop, hlen, if_true]
      have hne : l ≠ [] := by intro h; subst h; simp at hlen
      have hp := (nearestIndex_spec dist oob current l hne).1
      have e : (l.eraseIdx (nearestIndex dist oob current l)).length = l.length - 1 := by
        rw [List.length_eraseIdx, if_pos hp]
      apply ih
      · omega
      · omega
    · simp only [orderLoop, hlen, if_false]
      omega

/-- For two or more requests the order left in `deliveries` is a rearrangement of the
input. -/
theorem optimize_perm (dist : G → G → ℚ) (oob : DeliveryRequest G I) (depot : G)
    (deliveries : List (DeliveryRequest G I)) (h2 : 2 ≤ deliveries.length) :
    List.Perm (optimizeDeliveryOrder dist oob depot deliveries).deliveries deliveries := by
  have hne : deliveries ≠ [] := by intro h; subst h; simp at h2
  have hp := (nearestIndex_spec dist oob depot deliveries hne).1
  have hlen : (deliveries.eraseIdx (nearestIndex dist oob depot deliveries)).length =
      deliveries.length - 1 := by
    rw [List.length_eraseIdx, if_pos hp]
  have hperm := orderLoop_perm dist oob
    (deliveries.eraseIdx (nearestIndex dist oob depot deliveries)).length
    (deliveries.getD (nearestIndex dist oob depot deliveries) oob).location
    (deliveries.eraseIdx (nearestIndex dist oob depot deliveries))
    [deliveries.getD (nearestIndex dist oob depot deliveries) oob]
  have hexit := orderLoop_exit dist oob
    (deliveries.eraseIdx (nearestIndex dist oob depot deliveries)).length
    (deliveries.getD (nearestIndex dist oob depot deliveries) oob).location
    (deliveries.eraseIdx (nearestIndex dist oob depot deliveries))
    [deliveries.getD (nearestIndex dist oob depot deliveries) oob] (le_refl _) (by omega)
  simp only [optimizeDeliveryOrder]
  generalize orderLoop dist oob
    (deliveries.eraseIdx (nearestIndex dist oob depot deliveries)).length
    (deliveries.getD (nearestIndex dist oob depot deliveries) oob).location
    (deliveries.eraseIdx (nearestIndex dist oob depot deliveries))
    [deliveries.getD (nearestIndex dist oob depot deliveries) oob] = st at hperm hexit
  obtain ⟨rem, out⟩ := st
  simp only [] at hperm hexit ⊢
  cases rem with
  | nil => simp at hexit
  | cons r rest =>
    have hrest : rest = [] := by
      cases rest with
      | nil => rfl
      | cons _ _ => simp at hexit
    subst hrest
    simp only [List.getD_cons_zero]
    refine hperm.trans ?_
    simp only [List.singleton_append]
    exact (perm_getD_eraseIdx oob deliveries _ hp).symm

end OptimizerPerm

namespace StreetMapImpl

variable {G S : Type} [DecidableEq G]

theorem pushBack_eq_assign (key : G) (seg : StreetSegment G S) :
    ∀ (b : List (G × List (StreetSegment G S))) (v : List (StreetSegment G S)),
      ExpandableHashMap.findInBucket key b = some v →
      pushBackInBucket key seg b = ExpandableHashMap.assignInBucket key (v ++ [seg]) b := by
  intro b
  induction b with
  | nil => intro v h; simp [ExpandableHashMap.findInBucket] at h
  | cons p rest ih =>
    intro v h
    by_cases hp : p.1 = key
    · simp only [ExpandableHashMap.findInBucket, hp, if_true, Option.some.injEq] at h
      simp [pushBackInBucket, ExpandableHashMap.assignInBucket, hp, h]
    · simp only [ExpandableHashMap.findInBucket, hp, if_false] at h
      simp [pushBackInBucket, ExpandableHashMap.assignInBucket, hp, ih v h]

/-- Pushing onto a vector that was found is what `associate` does for a present key,
with the lengthened vector as the new value. -/
theorem addSegment_found (hasher : G → Nat) (fuel : Nat)
    (data : ExpandableHashMap G (List (StreetSegment G S))) (key : G)
    (seg : StreetSegment G S) (v : List (StreetSegment G S))
    (h : ExpandableHashMap.find hasher data key = some v) :
    addSegment hasher fuel data key seg =
      ExpandableHashMap.associate hasher 1 data key (v ++ [seg]) := by
  have hb : ExpandableHashMap.findInBucket key
      (data.m_buckets.getD (ExpandableHashMap.getBucketNumber hasher data key) []) = some v := h
  rw [ExpandableHashMap.associate_succ]
  simp only [addSegment, h, pushBack_eq_assign key seg _ v hb]

theorem addSegment_not_found (hasher : G → Nat) (fuel : Nat)
    (data : ExpandableHashMap G (List (StreetSegment G S))) (key : G)
    (seg : StreetSegment G S) (h : ExpandableHashMap.find hasher data key = none) :
    addSegment hasher fuel data key seg =
      ExpandableHashMap.associate hasher fuel data key [seg] := by
  simp only [addSegment, h]

theorem lookupOf_getD (l : List (StreetSegment G S)) : (lookupOf l).getD [] = l := by
  cases l <;> simp [lookupOf]

theorem lookupOf_append_singleton (l : List (StreetSegment G S)) (s : StreetSegment G S) :
    lookupOf (l ++ [s]) = some (l ++ [s]) := by
  cases l <;> simp [lookupOf]

/-- One registration keeps the invariant of the data map and appends the segment to
the vector stored under `key`, creating the vector when there was none. -/
theorem addSegment_spec (hasher : G → Nat) (fuel : Nat)
    (data data1 : ExpandableHashMap G (List (StreetSegment G S))) (key : G)
    (seg : StreetSegment G S) (base : G → List (StreetSegment G S))
    (hinv : ExpandableHashMap.Inv hasher data)
    (hbase : ∀ c, ExpandableHashMap.find hasher data c = lookupOf (base c))
    (h : addSegment hasher fuel data key seg = some data1) :
    ExpandableHashMap.Inv hasher data1 ∧
      (∀ c, ExpandableHashMap.find hasher data1 c =
        lookupOf (base c ++ if key = c then [seg] else [])) ∧
      data1.m_maximumLoadFactor = data.m_maximumLoadFactor := by
  have hkey : ∀ (f : Nat) (v : List (StreetSegment G S)),
      ExpandableHashMap.associate hasher f data key (v ++ [seg]) = some data1 →
      v = base key →
      ExpandableHashMap.Inv hasher data1 ∧
        (∀ c, ExpandableHashMap.find hasher data1 c =
          lookupOf (base c ++ if key = c then [seg] else [])) ∧
        data1.m_maximumLoadFactor = data.m_maximumLoadFactor := by
    intro f v ha hv
    obtain ⟨h1, h2, h3⟩ := ExpandableHashMap.associate_spec hasher f data key _ data1 hinv ha
    refine ⟨h1, ?_, h3⟩
    intro c
    rw [h2 c]
    by_cases hc : c = key
    · subst hc
      simp only [if_true, hv]
      rw [lookupOf_append_singleton]
    · have hc2 : ¬ key = c := fun e => hc e.symm
      simp only [hc, hc2, if_false, List.append_nil]
      exact hbase c
  cases hf : ExpandableHashMap.find hasher data key with
  | some v =>
    rw [addSegment_found hasher fuel data key seg v hf] at h
    apply hkey 1 v h
    have := hbase key
    rw [hf] at this
    have h2 := congrArg (fun o => o.getD []) this
    simpa [lookupOf_getD] using h2
  | none =>
    rw [addSegment_not_found hasher fuel data key seg hf] at h
    apply hkey fuel [] (by simpa using h)
    have := hbase key
    rw [hf] at this
    have h2 := congrArg (fun o => o.getD []) this
    simpa [lookupOf_getD] using h2

theorem addSegment_mono (hasher : G → Nat) (f g : Nat) (hfg : f ≤ g)
    (data r : ExpandableHashMap G (List (StreetSegment G S))) (key : G)
    (seg : StreetSegment G S) (h : addSegment hasher f data key seg = some r) :
    addSegment hasher g data key seg = some r := by
  cases hf : ExpandableHashMap.find hasher data key with
  | some v =>
    rw [addSegment_found hasher _ data key seg v hf] at h ⊢
    exact h
  | none =>
    rw [addSegment_not_found hasher _ data key seg hf] at h ⊢
    exact ExpandableHashMap.associate_mono hasher f g hfg data key _ r h

theorem addSegment_terminates (hasher : G → Nat)
    (data : ExpandableHashMap G (List (StreetSegment G S)))
    (hL : 0 < data.m_maximumLoadFactor) (hpos : 0 < data.m_buckets.length) (key : G)
    (seg : StreetSegment G S) :
    ∃ N r, addSegment hasher N data key seg = some r ∧ 0 < r.m_buckets.length ∧
      r.m_maximumLoadFactor = data.m_maximumLoadFactor := by
  cases hf : ExpandableHashMap.find hasher data key with
  | some v =>
    obtain ⟨N, hN⟩ := ExpandableHashMap.associate_terminates hasher data hL hpos key (v ++ [seg])
    obtain ⟨r, hr, h1, h2⟩ := hN (max N 1) (le_max_left _ _)
    refine ⟨1, r, ?_, h1, h2⟩
    rw [addSegment_found hasher _ data key seg v hf]
    obtain ⟨k, hk⟩ : ∃ k, max N 1 = k + 1 := ⟨max N 1 - 1, by omega⟩
    rw [hk, ExpandableHashMap.associate_succ] at hr
    have e : (1 : Nat) = 0 + 1 := rfl
    rw [e, ExpandableHashMap.associate_succ]
    simp only [hf] at hr ⊢
    exact hr
  | none =>
    obtain ⟨N, hN⟩ := ExpandableHashMap.associate_terminates hasher data hL hpos key [seg]
    obtain ⟨r, hr, h1, h2⟩ := hN N (le_refl _)
    exact ⟨N, r, by rw [addSegment_not_found hasher _ data key seg hf]; exact hr, h1, h2⟩

theorem load_mono (hasher : G → Nat) (f g : Nat) (hfg : f ≤ g) :
    ∀ (segments : List (G × G × S))
      (data r : ExpandableHashMap G (List (StreetSegment G S))),
      load hasher f segments data = some r → load hasher g segments data = some r := by
  intro segments
  induction segments with
  | nil => intro data r h; exact h
  | cons t rest ih =>
    intro data r h
    obtain ⟨start, end_, streetName⟩ := t
    simp only [load] at h ⊢
    cases h1 : addSegment hasher f data start ⟨start, end_, streetName⟩ with
    | none => simp [h1] at h
    | some d1 =>
      simp only [h1] at h
      simp only [addSegment_mono hasher f g hfg data d1 start _ h1]
      cases h2 : addSegment hasher f d1 end_ ⟨end_, start, streetName⟩ with
      | none => simp [h2] at h
      | some d2 =>
        simp only [h2] at h
        simp only [addSegment_mono hasher f g hfg d1 d2 end_ _ h2]
        exact ih d2 r h

theorem load_terminates (hasher : G → Nat) :
    ∀ (segments : List (G × G × S))
      (data : ExpandableHashMap G (List (StreetSegment G S))),
      0 < data.m_maximumLoadFactor → 0 < data.m_buckets.length →
      ∃ N r, load hasher N segments data = some r := by
  intro segments
  induction segments with
  | nil => intro data _ _; exact ⟨0, data, rfl⟩
  | cons t rest ih =>
    intro data hL hpos
    obtain ⟨start, end_, streetName⟩ := t
    obtain ⟨N1, d1, h1, hp1, hl1⟩ :=
      addSegment_terminates hasher data hL hpos start ⟨start, end_, streetName⟩
    obtain ⟨N2, d2, h2, hp2, hl2⟩ :=
      addSegment_terminates hasher d1 (hl1 ▸ hL) hp1 end_ ⟨end_, start, streetName⟩
    obtain ⟨N3, r, h3⟩ := ih d2 (by rw [hl2, hl1]; exact hL) hp2
    refine ⟨max N1 (max N2 N3), r, ?_⟩
    simp only [load,
      addSegment_mono hasher N1 _ (le_max_left _ _) data d1 start _ h1,
      addSegment_mono hasher N2 _ (le_trans (le_max_left _ _) (le_max_right _ _)) d1 d2 end_ _ h2]
    exact load_mono hasher N3 _ (le_trans (le_max_right _ _) (le_max_right _ _)) rest d2 r h3

theorem load_spec (hasher : G → Nat) (fuel : Nat) :
    ∀ (segments : List (G × G × S))
      (data data1 : ExpandableHashMap G (List (StreetSegment G S)))
      (base : G → List (StreetSegment G S)),
      ExpandableHashMap.Inv hasher data →
      (∀ c, ExpandableHashMap.find hasher data c = lookupOf (base c)) →
      load hasher fuel segments data = some data1 →
      ∀ c, ExpandableHashMap.find hasher data1 c =
        lookupOf (base c ++ expectedSegments c segments) := by
  intro segments
  induction segments with
  | nil =>
    intro data data1 base _ hbase h c
    simp only [load, Option.some.injEq] at h
    subst h
    simpa [expectedSegments] using hbase c
  | cons t rest ih =>
    intro data data1 base hinv hbase h c
    obtain ⟨start, end_, streetName⟩ := t
    simp only [load] at h
    cases h1 : addSegment hasher fuel data start ⟨start, end_, streetName⟩ with
    | none => simp [h1] at h
    | some d1 =>
      simp only [h1] at h
      cases h2 : addSegment hasher fuel d1 end_ ⟨end_, start, streetName⟩ with
      | none => simp [h2] at h
      | some d2 =>
        simp only [h2] at h
        obtain ⟨hi1, hf1, _⟩ := addSegment_spec hasher fuel data d1 start _ base hinv hbase h1
        obtain ⟨hi2, hf2, _⟩ := addSegment_spec hasher fuel d1 d2 end_ _ _ hi1 hf1 h2
        rw [ih d2 data1 _ hi2 hf2 h c]
        congr 1
        simp only [expectedSegments, List.append_assoc]
        by_cases hs : start = c <;> by_cases he : end_ = c <;> simp [hs, he]

/-- The data map after loading: the load returns for every large enough recursion depth
of `associate`, and a lookup then answers with the expected vector. -/
theorem load_result (hasher : G → Nat) (segments : List (G × G × S)) :
    ∃ N, ∀ fuel, N ≤ fuel →
      ∃ data, load hasher fuel segments
          (ExpandableHashMap.create DEFAULT_MAXIMUM_LOAD_FACTOR) = some data ∧
        ∀ c, getSegmentsThatStartWith hasher data c =
          lookupOf (expectedSegments c segments) := by
  obtain ⟨N, r, hr⟩ := load_terminates hasher segments
    (ExpandableHashMap.create DEFAULT_MAXIMUM_LOAD_FACTOR)
    (by norm_num [ExpandableHashMap.create, DEFAULT_MAXIMUM_LOAD_FACTOR])
    (by simp [ExpandableHashMap.create, INITIAL_NUMBER_OF_BUCKETS])
  refine ⟨N, fun fuel hfuel => ⟨r, load_mono hasher N fuel hfuel _ _ r hr, ?_⟩⟩
  intro c
  have := load_spec hasher N segments _ r (fun _ => []) (ExpandableHashMap.Inv_create hasher _)
    (fun c => by rw [ExpandableHashMap.find_create]; rfl) hr c
  simpa [getSegmentsThatStartWith] using this

theorem mem_expectedSegments (c : G) (s : StreetSegment G S) :
    ∀ (segments : List (G × G × S)),
      s ∈ expectedSegments c segments ↔
        s.start = c ∧ ∃ t ∈ segments,
          (t.1 = c ∧ s.end_ = t.2.1 ∧ s.name = t.2.2) ∨
            (t.2.1 = c ∧ s.end_ = t.1 ∧ s.name = t.2.2) := by
  intro segments
  induction segments with
  | nil => simp [expectedSegments]
  | cons t rest ih =>
    obtain ⟨start, end_, streetName⟩ := t
    simp only [expectedSegments, List.mem_append, ih, List.mem_cons, exists_eq_or_imp]
    constructor
    · rintro (h | h | h)
      · by_cases hs : start = c
        · simp only [hs, if_true, List.mem_singleton] at h
          subst h
          exact ⟨rfl, Or.inl (Or.inl ⟨hs, rfl, rfl⟩)⟩
        · simp [hs] at h
      · by_cases he : end_ = c
        · simp only [he, if_true, List.mem_singleton] at h
          subst h
          exact ⟨rfl, Or.inl (Or.inr ⟨he, rfl, rfl⟩)⟩
        · simp [he] at h
      · exact ⟨h.1, Or.inr h.2⟩
    · rintro ⟨hsc, (h | h) | h⟩
      · left
        obtain ⟨h1, h2, h3⟩ := h
        simp only [h1, if_true, List.mem_singleton]
        cases s
        simp_all
      · right; left
        obtain ⟨h1, h2, h3⟩ := h
        simp only [h1, if_true, List.mem_singleton]
        cases s
        simp_all
      · right; right
        exact ⟨hsc, h⟩

theorem lookupOf_eq_none_iff (l : List (StreetSegment G S)) : lookupOf l = none ↔ l = [] := by
  cases l <;> simp [lookupOf]

theorem lookupOf_eq_some (l segs : List (StreetSegment G S)) (h : lookupOf l = some segs) :
    segs = l := by
  cases l with
  | nil => simp [lookupOf] at h
  | cons a rest => simpa [lookupOf] using h.symm

theorem expectedSegments_eq_nil_iff (c : G) (segments : List (G × G × S)) :
    expectedSegments c segments = [] ↔ ∀ t ∈ segments, t.1 ≠ c ∧ t.2.1 ≠ c := by
  induction segments with
  | nil => simp [expectedSegments]
  | cons t rest ih =>
    obtain ⟨start, end_, streetName⟩ := t
    simp only [expectedSegments, List.append_eq_nil, ih, List.mem_cons, forall_eq_or_imp]
    by_cases hs : start = c <;> by_cases he : end_ = c <;> simp [hs, he]

/-- C16: after the segments are registered in load order, a lookup of `c` reports
not-found iff `c` is neither start nor end of a loaded segment; otherwise it returns, in
load order, the forward segment of every loaded segment starting at `c` and the reverse
segment of every loaded segment ending at `c`, all of them starting at `c`. -/
theorem lookup_after_load (hasher : G → Nat) (segments : List (G × G × S)) :
    ∃ N, ∀ fuel, N ≤ fuel →
      ∃ data, load hasher fuel segments
          (ExpandableHashMap.create DEFAULT_MAXIMUM_LOAD_FACTOR) = some data ∧
        ∀ c,
          (getSegmentsThatStartWith hasher data c = none ↔
            ∀ t ∈ segments, t.1 ≠ c ∧ t.2.1 ≠ c) ∧
          (∀ segs, getSegmentsThatStartWith hasher data c = some segs →
            segs = expectedSegments c segments ∧ ∀ s ∈ segs, s.start = c) := by
  obtain ⟨N, hN⟩ := load_result hasher segments
  refine ⟨N, fun fuel hfuel => ?_⟩
  obtain ⟨data, hload, hfind⟩ := hN fuel hfuel
  refine ⟨data, hload, fun c => ⟨?_, ?_⟩⟩
  · rw [hfind c, lookupOf_eq_none_iff, expectedSegments_eq_nil_iff]
  · intro segs hsegs
    rw [hfind c] at hsegs
    have := lookupOf_eq_some _ _ hsegs
    subst this
    exact ⟨rfl, fun s hs => ((mem_expectedSegments c s segments).mp hs).1⟩

/-- C17: after the segments are registered, whenever the segment from `A` to `B` with
street name `n` is among the segments returned for `A`, the segment from `B` to `A` with
the same name is among the segments returned for `B`. -/
theorem loaded_streets_bidirectional (hasher : G → Nat) (segments : List (G × G × S)) :
    ∃ N, ∀ fuel, N ≤ fuel →
      ∃ data, load hasher fuel segments
          (ExpandableHashMap.create DEFAULT_MAXIMUM_LOAD_FACTOR) = some data ∧
        ∀ (A B : G) (n : S) (segsA : List (StreetSegment G S)),
          getSegmentsThatStartWith hasher data A = some segsA → ⟨A, B, n⟩ ∈ segsA →
          ∃ segsB, getSegmentsThatStartWith hasher data B = some segsB ∧
            ⟨B, A, n⟩ ∈ segsB := by
  obtain ⟨N, hN⟩ := load_result hasher segments
  refine ⟨N, fun fuel hfuel => ?_⟩
  obtain ⟨data, hload, hfind⟩ := hN fuel hfuel
  refine ⟨data, hload, ?_⟩
  intro A B n segsA hA hmem
  rw [hfind A] at hA
  have := lookupOf_eq_some _ _ hA
  subst this
  obtain ⟨_, t, ht, hcase⟩ := (mem_expectedSegments A ⟨A, B, n⟩ segments).mp hmem
  have hrev : (⟨B, A, n⟩ : StreetSegment G S) ∈ expectedSegments B segments := by
    apply (mem_expectedSegments B _ segments).mpr
    refine ⟨rfl, t, ht, ?_⟩
    rcases hcase with ⟨h1, h2, h3⟩ | ⟨h1, h2, h3⟩
    · exact Or.inr ⟨h2.symm, h1.symm, h3⟩
    · exact Or.inl ⟨h2.symm, h1.symm, h3⟩
  refine ⟨expectedSegments B segments, ?_, hrev⟩
  rw [hfind B]
  cases he : expectedSegments B segments with
  | nil => rw [he] at hrev; simp at hrev
  | cons a rest => simp [lookupOf]

/-- Every loaded street graph is well-formed and finite, as the router theorems assume. -/
theorem loaded_graph_wellFormed (hasher : G → Nat) (segments : List (G × G × S)) :
    ∃ N, ∀ fuel, N ≤ fuel →
      ∃ data, load hasher fuel segments
          (ExpandableHashMap.create DEFAULT_MAXIMUM_LOAD_FACTOR) = some data ∧
        StreetMap.WellFormed (getSegmentsThatStartWith hasher data) ∧
        StreetMap.EndsIn (getSegmentsThatStartWith hasher data)
          (segments.map (fun t => t.1) ++ segments.map (fun t => t.2.1)) := by
  obtain ⟨N, hN⟩ := load_result hasher segments
  refine ⟨N, fun fuel hfuel => ?_⟩
  obtain ⟨data, hload, hfind⟩ := hN fuel hfuel
  refine ⟨data, hload, ?_, ?_⟩
  · intro c segs hc s hs
    rw [hfind c] at hc
    have := lookupOf_eq_some _ _ hc
    subst this
    exact ((mem_expectedSegments c s segments).mp hs).1
  · intro c segs hc s hs
    rw [hfind c] at hc
    have := lookupOf_eq_some _ _ hc
    subst this
    obtain ⟨_, t, ht, hcase⟩ := (mem_expectedSegments c s segments).mp hs
    rcases hcase with ⟨_, h2, _⟩ | ⟨_, h2, _⟩
    · rw [h2]
      exact List.mem_append_right _ (List.mem_map.mpr ⟨t, ht, rfl⟩)
    · rw [h2]
      exact List.mem_append_left _ (List.mem_map.mpr ⟨t, ht, rfl⟩)

end StreetMapImpl

/-- C18 as amended: the classifier returns "left" exactly on `[1, 180)`, "right" exactly
on `[180, 359]`, and "error" (no `Turn` command) exactly below 1, which includes 0, and
above 359. -/
theorem turn_bands (a : ℚ) :
    (turn a = "left" ↔ 1 ≤ a ∧ a < 180) ∧
      (turn a = "right" ↔ 180 ≤ a ∧ a ≤ 359) ∧
      (turn a = "error" ↔ a < 1 ∨ 359 < a) := by
  unfold turn
  split_ifs with h1 h2
  · refine ⟨⟨fun _ => h1, fun _ => rfl⟩, ⟨fun h => absurd h (by decide), fun h => ?_⟩,
      ⟨fun h => absurd h (by decide), fun h => ?_⟩⟩
    · exfalso; linarith [h.1, h1.2]
    · exfalso
      rcases h with h | h
      · linarith [h1.1]
      · linarith [h1.2]
  · refine ⟨⟨fun h => absurd h (by decide), fun h => absurd h h1⟩, ⟨fun _ => h2, fun _ => rfl⟩,
      ⟨fun h => absurd h (by decide), fun h => ?_⟩⟩
    exfalso
    rcases h with h | h
    · linarith [h2.1]
    · linarith [h2.2]
  · refine ⟨⟨fun h => absurd h (by decide), fun h => absurd h h1⟩,
      ⟨fun h => absurd h (by decide), fun h => absurd h h2⟩, ⟨fun _ => ?_, fun _ => rfl⟩⟩
    by_contra hcon
    simp only [not_or, not_lt] at hcon
    by_cases h3 : a < 180
    · exact h1 ⟨hcon.1, h3⟩
    · exact h2 ⟨not_lt.mp h3, hcon.2⟩

/-- C18 (counterexample): the angle 359.5 lies in `[180, 360)`, yet the classifier
returns "error", not "right". -/
theorem turn_just_below_360_is_no_turn :
    (180 : ℚ) ≤ 359.5 ∧ (359.5 : ℚ) < 360 ∧ turn 359.5 = "error" := by
  refine ⟨by norm_num, by norm_num, ?_⟩
  unfold turn
  norm_num

section NarrationProofs

variable {G S I : Type} [DecidableEq G] [DecidableEq S] [Inhabited S]

theorem deliveredItems_append (l1 l2 : List (DeliveryCommand S I)) :
    deliveredItems (l1 ++ l2) = deliveredItems l1 ++ deliveredItems l2 := by
  induction l1 with
  | nil => rfl
  | cons c rest ih =>
    cases c <;> simp [deliveredItems, ih]

theorem deliverCount_eq_length (l : List (DeliveryCommand S I)) :
    deliverCount l = (deliveredItems l).length := by
  induction l with
  | nil => rfl
  | cons c rest ih =>
    cases c <;> simp [deliveredItems, deliverCount, ih]

theorem narrateSegment_total (geo : Geometry G S) (st : LegState G S I)
    (p : StreetSegment G S) :
    (narrateSegment geo st p).totalDistanceTravelled =
      geo.add st.totalDistanceTravelled (geo.distanceEarthMiles p.start p.end_) := rfl

theorem narrateSegment_items (geo : Geometry G S) (st : LegState G S I)
    (p : StreetSegment G S) :
    deliveredItems (narrateSegment geo st p).commands = deliveredItems st.commands := by
  unfold narrateSegment
  cases hp : st.prev with
  | none => rfl
  | some prev =>
    simp only []
    by_cases hs : st.prevStreet = p.name
    · simp [hs]
    · simp only [hs, if_false]
      by_cases ht : turn (geo.angleBetween2Lines p prev) = "error"
      · simp [ht, deliveredItems_append, deliveredItems]
      · simp [ht, deliveredItems_append, deliveredItems]

theorem foldl_narrate_total (geo : Geometry G S) :
    ∀ (route : List (StreetSegment G S)) (st : LegState G S I),
      (route.foldl (narrateSegment geo) st).totalDistanceTravelled =
        (route.map (fun s => geo.distanceEarthMiles s.start s.end_)).foldl geo.add
          st.totalDistanceTravelled := by
  intro route
  induction route with
  | nil => intro st; rfl
  | cons p rest ih =>
    intro st
    rw [List.foldl_cons, ih, narrateSegment_total]
    rfl

theorem foldl_narrate_items (geo : Geometry G S) :
    ∀ (route : List (StreetSegment G S)) (st : LegState G S I),
      deliveredItems (route.foldl (narrateSegment geo) st).commands =
        deliveredItems st.commands := by
  intro route
  induction route with
  | nil => intro st; rfl
  | cons p rest ih =>
    intro st
    rw [List.foldl_cons, ih, narrateSegment_items]

/-- The narration of a leg adds the length of every segment of its route to the total,
one after the other, with the addition of the machine. -/
theorem narrateLeg_total (geo : Geometry G S) (acc : List (DeliveryCommand S I) × ℚ)
    (route : List (StreetSegment G S)) :
    (narrateLeg geo acc route).2 =
      (route.map (fun s => geo.distanceEarthMiles s.start s.end_)).foldl geo.add acc.2 := by
  simp only [narrateLeg, foldl_narrate_total]

/-- The narration of a leg emits no `Deliver` command. -/
theorem narrateLeg_items (geo : Geometry G S) (acc : List (DeliveryCommand S I) × ℚ)
    (route : List (StreetSegment G S)) :
    deliveredItems (narrateLeg geo acc route).1 = deliveredItems acc.1 := by
  simp only [narrateLeg]
  split_ifs
  · rw [deliveredItems_append, foldl_narrate_items]
    simp [deliveredItems]
  · exact foldl_narrate_items geo route _

theorem narrateRoutes_total (geo : Geometry G S) (oob : DeliveryRequest G I)
    (target : List (DeliveryRequest G I)) (n : Nat) :
    ∀ (routes : List (List (StreetSegment G S))) (i : Nat)
      (acc : List (DeliveryCommand S I) × ℚ),
      (narrateRoutes geo oob target n i routes acc).2 =
        (routes.flatten.map (fun s => geo.distanceEarthMiles s.start s.end_)).foldl
          geo.add acc.2 := by
  intro routes
  induction routes with
  | nil => intro i acc; simp [narrateRoutes]
  | cons r rest ih =>
    intro i acc
    simp only [narrateRoutes, ih, narrateLeg_total, List.flatten_cons, List.map_append,
      List.foldl_append]

/-- With an addition that does not round, accumulating the lengths of the segments of
all routes gives the sum of the route lengths. -/
theorem accumulate_exact (dist : G → G → ℚ) (add : ℚ → ℚ → ℚ)
    (hadd : ∀ a b, add a b = a + b) :
    ∀ (routes : List (List (StreetSegment G S))) (acc : ℚ),
      (routes.flatten.map (fun s => dist s.start s.end_)).foldl add acc =
        acc + (routes.map (routeLength dist)).sum := by
  have hfold : ∀ (xs : List ℚ) (acc : ℚ), xs.foldl add acc = acc + xs.sum := by
    intro xs
    induction xs with
    | nil => intro acc; simp
    | cons x rest ih =>
      intro acc
      rw [List.foldl_cons, ih, hadd, List.sum_cons]
      ring
  intro routes
  induction routes with
  | nil => intro acc; simp
  | cons r rest ih =>
    intro acc
    rw [List.flatten_cons, List.map_append, List.foldl_append, ih, hfold]
    simp only [List.map_cons, List.sum_cons, routeLength]
    ring

/-- The `Deliver` commands of the narration: one after every route but the last, for
the items of `targetDeliveries` in order. -/
theorem narrateRoutes_items (geo : Geometry G S) (oob : DeliveryRequest G I)
    (target : List (DeliveryRequest G I)) (n : Nat) :
    ∀ (routes : List (List (StreetSegment G S))) (i : Nat)
      (acc : List (DeliveryCommand S I) × ℚ), i + routes.length = n →
      deliveredItems (narrateRoutes geo oob target n i routes acc).1 =
        deliveredItems acc.1 ++
          (List.range' i (routes.length - 1)).map (fun j => (target.getD j oob).item) := by
  intro routes
  induction routes with
  | nil => intro i acc _; simp [narrateRoutes]
  | cons r rest ih =>
    intro i acc hn
    simp only [List.length_cons] at hn
    simp only [narrateRoutes]
    rw [ih (i + 1) _ (by omega)]
    cases rest with
    | nil =>
      have hlt : ¬ i < n - 1 := by simp only [List.length_nil] at hn; omega
      simp [hlt, narrateLeg_items]
    | cons r2 rest2 =>
      have hlt : i < n - 1 := by simp only [List.length_cons] at hn; omega
      simp only [hlt, if_true, deliveredItems_append, narrateLeg_items, deliveredItems,
        List.length_cons, Nat.add_sub_cancel, List.range'_succ, List.map_cons,
        List.append_assoc, List.singleton_append]

end NarrationProofs

section PlannerProofs

variable {G S I : Type} [DecidableEq G] [DecidableEq S] [Inhabited S]

theorem firstFailure_append (cs : List DeliveryResult) (c : DeliveryResult) :
    firstFailure (cs ++ [c]) =
      if firstFailure cs = DeliveryResult.DELIVERY_SUCCESS then c else firstFailure cs := by
  induction cs with
  | nil => cases c <;> simp [firstFailure]
  | cons d rest ih =>
    cases d <;> simp [firstFailure, ih]

theorem firstFailure_success_iff (cs : List DeliveryResult) :
    firstFailure cs = DeliveryResult.DELIVERY_SUCCESS ↔
      ∀ c ∈ cs, c = DeliveryResult.DELIVERY_SUCCESS := by
  induction cs with
  | nil => simp [firstFailure]
  | cons d rest ih =>
    cases d <;> simp [firstFailure, ih]

theorem consecutivePairs_eq_range (oob : DeliveryRequest G I) :
    ∀ (t : List (DeliveryRequest G I)),
      consecutivePairs (t.map (fun d => d.location)) =
        (List.range (t.length - 1)).map
          (fun i => ((t.getD i oob).location, (t.getD (i + 1) oob).location)) := by
  intro t
  induction t with
  | nil => rfl
  | cons a rest ih =>
    cases rest with
    | nil => rfl
    | cons b rest2 =>
      have e : (a :: b :: rest2).length - 1 = ((b :: rest2).length - 1) + 1 := by simp
      rw [e, List.range_succ_eq_map]
      simp only [List.map_cons, consecutivePairs, List.map_map]
      simp only [List.map_cons] at ih
      rw [ih]
      simp only [List.getD_cons_zero, List.getD_cons_succ, zero_add]
      congr 1

theorem getLast?_eq_getD (oob : DeliveryRequest G I) :
    ∀ (t : List (DeliveryRequest G I)), t ≠ [] →
      t.getLast? = some (t.getD (t.length - 1) oob) := by
  intro t
  induction t with
  | nil => intro h; exact absurd rfl h
  | cons a rest ih =>
    intro _
    cases rest with
    | nil => rfl
    | cons b rest2 =>
      have := ih (by simp)
      rw [List.getLast?_cons_cons, this]
      simp

/-- The legs of the specification are the legs the code routes, in the same order. -/
theorem planLegs_eq_indexLegs (oob : DeliveryRequest G I) (depot : G)
    (deliveries t : List (DeliveryRequest G I)) (hd : deliveries ≠ []) (ht : t ≠ []) :
    planLegs depot deliveries t = indexLegs oob depot deliveries t := by
  cases deliveries with
  | nil => exact absurd rfl hd
  | cons d rest =>
    simp only [planLegs, indexLegs, List.head?_cons, getLast?_eq_getD oob t ht,
      consecutivePairs_eq_range oob t, List.getD_cons_zero]

theorem legLoop_spec (router : G → G → Option (RouteResult G S)) (oob : DeliveryRequest G I)
    (t : List (DeliveryRequest G I)) :
    ∀ (idxs : List Nat) (routes0 : List (List (StreetSegment G S))),
      (∀ i ∈ idxs, ∃ rr, router (t.getD i oob).location (t.getD (i + 1) oob).location =
        some rr) →
      ∃ codes rs,
        idxs.map (fun i => (router (t.getD i oob).location
            (t.getD (i + 1) oob).location).map (fun rr => rr.result)) = codes.map some ∧
        legLoop router oob t idxs routes0 = some (firstFailure codes, routes0 ++ rs) ∧
        (firstFailure codes = DeliveryResult.DELIVERY_SUCCESS →
          idxs.map (fun i => (router (t.getD i oob).location
            (t.getD (i + 1) oob).location).map (fun rr => rr.route)) = rs.map some) := by
  intro idxs
  induction idxs with
  | nil =>
    intro routes0 _
    exact ⟨[], [], rfl, by simp [legLoop, firstFailure], fun _ => rfl⟩
  | cons i rest ih =>
    intro routes0 hall
    obtain ⟨rr, hrr⟩ := hall i (List.mem_cons_self _ _)
    obtain ⟨codes, rs, h1, h2, h3⟩ := ih (routes0 ++ [rr.route])
      (fun j hj => hall j (List.mem_cons_of_mem _ hj))
    cases hres : rr.result with
    | DELIVERY_SUCCESS =>
      refine ⟨DeliveryResult.DELIVERY_SUCCESS :: codes, rr.route :: rs, ?_, ?_, ?_⟩
      · simp [hrr, hres, h1, -List.getD_eq_getElem?_getD]
      · simp only [legLoop, hrr, hres, firstFailure, if_true, h2, List.append_assoc,
          List.singleton_append]
        simp
      · intro hs
        simp only [firstFailure, if_true] at hs
        simp [hrr, h3 hs, -List.getD_eq_getElem?_getD]
    | NO_ROUTE =>
      refine ⟨DeliveryResult.NO_ROUTE :: codes, [], ?_, ?_, ?_⟩
      · simp [hrr, hres, h1, -List.getD_eq_getElem?_getD]
      · simp [legLoop, hrr, hres, firstFailure, -List.getD_eq_getElem?_getD]
      · intro hs
        simp [firstFailure] at hs
    | BAD_COORD =>
      refine ⟨DeliveryResult.BAD_COORD :: codes, [], ?_, ?_, ?_⟩
      · simp [hrr, hres, h1, -List.getD_eq_getElem?_getD]
      · simp [legLoop, hrr, hres, firstFailure, -List.getD_eq_getElem?_getD]
      · intro hs
        simp [firstFailure] at hs

/-- The shape of a plan when every router call returns: the result code is that of the
first leg that does not succeed; on success the commands and the distance are the
narration of the routes of all legs, on failure the command list is empty and the
caller's distance is left as it was. -/
theorem plan_shape (router : G → G → Option (RouteResult G S)) (geo : Geometry G S)
    (oob : DeliveryRequest G I) (depot : G) (deliveries : List (DeliveryRequest G I))
    (commands : List (DeliveryCommand S I)) (total : ℚ) (hne : deliveries ≠ [])
    (hall : ∀ leg ∈ indexLegs oob depot deliveries
        (optimizeDeliveryOrder geo.distanceEarthMiles oob depot deliveries).deliveries,
      ∃ rr, router leg.1 leg.2 = some rr) :
    ∃ r codes,
      generateDeliveryPlanWith router geo oob depot deliveries commands total = some r ∧
      (indexLegs oob depot deliveries
          (optimizeDeliveryOrder geo.distanceEarthMiles oob depot deliveries).deliveries).map
        (fun leg => (router leg.1 leg.2).map (fun rr => rr.result)) = codes.map some ∧
      r.result = firstFailure codes ∧
      (r.result = DeliveryResult.DELIVERY_SUCCESS →
        ∃ routes,
          (indexLegs oob depot deliveries
              (optimizeDeliveryOrder geo.distanceEarthMiles oob depot
                deliveries).deliveries).map
            (fun leg => (router leg.1 leg.2).map (fun rr => rr.route)) = routes.map some ∧
          r.commands = (narrateRoutes geo oob
            (optimizeDeliveryOrder geo.distanceEarthMiles oob depot deliveries).deliveries
            routes.length 0 routes ([], 0)).1 ∧
          r.totalDistanceTravelled = (narrateRoutes geo oob
            (optimizeDeliveryOrder geo.distanceEarthMiles oob depot deliveries).deliveries
            routes.length 0 routes ([], 0)).2) ∧
      (r.result ≠ DeliveryResult.DELIVERY_SUCCESS →
        r.commands = [] ∧ r.totalDistanceTravelled = total) := by
  generalize ht : (optimizeDeliveryOrder geo.distanceEarthMiles oob depot
    deliveries).deliveries = t at hall ⊢
  have hemp : deliveries.isEmpty = false := by
    cases deliveries with
    | nil => exact absurd rfl hne
    | cons _ _ => rfl
  obtain ⟨r0, h0⟩ := hall (depot, (deliveries.getD 0 oob).location) (by simp [indexLegs])
  obtain ⟨r2, h2⟩ := hall ((t.getD (t.length - 1) oob).location, depot) (by simp [indexLegs])
  obtain ⟨codesL, rs, hc, hloop, hroutes⟩ := legLoop_spec router oob t
    (List.range (t.length - 1)) [r0.route]
    (fun i hi => hall _ (by
      simp only [indexLegs, List.mem_cons, List.mem_append, List.mem_map, List.mem_singleton]
      exact Or.inr (Or.inl ⟨i, hi, rfl⟩)))
  have hcodes : (indexLegs oob depot deliveries t).map
      (fun leg => (router leg.1 leg.2).map (fun rr => rr.result)) =
      (r0.result :: (codesL ++ [r2.result])).map some := by
    simp only [indexLegs, List.map_cons, List.map_append, List.map_map, List.map_nil, h0, h2,
      Option.map_some']
    congr 1
    rw [← hc]
    rfl
  have hroutesAll : firstFailure codesL = DeliveryResult.DELIVERY_SUCCESS →
      (indexLegs oob depot deliveries t).map
        (fun leg => (router leg.1 leg.2).map (fun rr => rr.route)) =
      (r0.route :: (rs ++ [r2.route])).map some := by
    intro hs
    simp only [indexLegs, List.map_cons, List.map_append, List.map_map, List.map_nil, h0, h2,
      Option.map_some']
    congr 1
    rw [← hroutes hs]
    rfl
  simp only [generateDeliveryPlanWith, hemp, ht, h0, hloop, h2]
  cases hr0 : r0.result with
  | BAD_COORD =>
    refine ⟨⟨DeliveryResult.BAD_COORD, [], total⟩, r0.result :: (codesL ++ [r2.result]), ?_, hcodes,
      ?_, ?_, ?_⟩
    · simp [hr0]
    · simp [hr0, firstFailure, firstFailure_append]
    · intro h; simp at h
    · intro _; exact ⟨rfl, rfl⟩
  | NO_ROUTE =>
    refine ⟨⟨DeliveryResult.NO_ROUTE, [], total⟩, r0.result :: (codesL ++ [r2.result]), ?_, hcodes,
      ?_, ?_, ?_⟩
    · simp [hr0]
    · simp [hr0, firstFailure, firstFailure_append]
    · intro h; simp at h
    · intro _; exact ⟨rfl, rfl⟩
  | DELIVERY_SUCCESS =>
    cases hcl : firstFailure codesL with
    | BAD_COORD =>
      refine ⟨⟨DeliveryResult.BAD_COORD, [], total⟩, r0.result :: (codesL ++ [r2.result]), ?_, hcodes,
        ?_, ?_, ?_⟩
      · simp [hr0, hcl]
      · simp [hr0, hcl, firstFailure, firstFailure_append]
      · intro h; simp at h
      · intro _; exact ⟨rfl, rfl⟩
    | NO_ROUTE =>
      refine ⟨⟨DeliveryResult.NO_ROUTE, [], total⟩, r0.result :: (codesL ++ [r2.result]), ?_, hcodes,
        ?_, ?_, ?_⟩
      · simp [hr0, hcl]
      · simp [hr0, hcl, firstFailure, firstFailure_append]
      · intro h; simp at h
      · intro _; exact ⟨rfl, rfl⟩
    | DELIVERY_SUCCESS =>
      cases hr2 : r2.result with
      | BAD_COORD =>
        refine ⟨⟨DeliveryResult.BAD_COORD, [], total⟩, r0.result :: (codesL ++ [r2.result]), ?_, hcodes,
          ?_, ?_, ?_⟩
        · simp [hr0, hcl, hr2]
        · simp [hr0, hcl, hr2, firstFailure, firstFailure_append]
        · intro h; simp at h
        · intro _; exact ⟨rfl, rfl⟩
      | NO_ROUTE =>
        refine ⟨⟨DeliveryResult.NO_ROUTE, [], total⟩, r0.result :: (codesL ++ [r2.result]), ?_, hcodes,
          ?_, ?_, ?_⟩
        · simp [hr0, hcl, hr2]
        · simp [hr0, hcl, hr2, firstFailure, firstFailure_append]
        · intro h; simp at h
        · intro _; exact ⟨rfl, rfl⟩
      | DELIVERY_SUCCESS =>
        refine ⟨⟨DeliveryResult.DELIVERY_SUCCESS,
          (narrateRoutes geo oob t (r0.route :: (rs ++ [r2.route])).length 0
            (r0.route :: (rs ++ [r2.route])) ([], 0)).1,
          (narrateRoutes geo oob t (r0.route :: (rs ++ [r2.route])).length 0
            (r0.route :: (rs ++ [r2.route])) ([], 0)).2⟩,
          r0.result :: (codesL ++ [r2.result]), ?_, hcodes, ?_, ?_, ?_⟩
        · simp [hr0, hcl, hr2]
        · simp [hr0, hcl, hr2, firstFailure, firstFailure_append]
        · intro _
          exact ⟨r0.route :: (rs ++ [r2.route]), hroutesAll hcl, rfl, rfl⟩
        · intro h; simp at h

end PlannerProofs

/-- C19 (evaluation at the failing input): on the route from 0 to 3 in the line graph
(street 7, then two segments of street 9, every segment one unit long) the `Proceed`
command for the run on street 9 carries distance 1, the length of the second segment of
the run only, while the run is 2 units long: at the change of street `currentDistance`
is reset to 0 and the first segment of the new run is never added. -/
theorem later_run_misses_first_segment :
    (generatePointToPointRoute lineGraph 4 0 3).map (fun r => r.route) =
        some [⟨0, 1, 7⟩, ⟨1, 2, 9⟩, ⟨2, 3, 9⟩] ∧
      (narrateLeg unitGeometry (([] : List (DeliveryCommand Nat Nat)), 0)
          [⟨0, 1, 7⟩, ⟨1, 2, 9⟩, ⟨2, 3, 9⟩]).1 =
        [DeliveryCommand.Turn "left" 9, DeliveryCommand.Proceed "north" 7 1,
          DeliveryCommand.Proceed "north" 9 1] ∧
      routeLength unitGeometry.distanceEarthMiles
          [(⟨1, 2, 9⟩ : StreetSegment Nat Nat), ⟨2, 3, 9⟩] = 2 := by
  refine ⟨by decide, ?_, ?_⟩
  · simp [narrateLeg, narrateSegment, unitGeometry, turn, direction]
    norm_num
    rw [if_neg (by decide)]
    rfl
  · simp [routeLength, unitGeometry]
    norm_num

section PlanClaims

variable {G S I : Type} [DecidableEq G] [DecidableEq S] [Inhabited S]

/-- On a finite well-formed street graph one iteration bound lets the router return on
every leg of a list. -/
theorem legs_return (sm : StreetMap G S) (nodes : List G) (hwf : sm.WellFormed)
    (hfin : sm.EndsIn nodes) :
    ∀ (legs : List (G × G)), ∃ N, ∀ fuel, N ≤ fuel →
      ∀ leg ∈ legs, ∃ rr, generatePointToPointRoute sm fuel leg.1 leg.2 = some rr := by
  intro legs
  induction legs with
  | nil => exact ⟨0, fun _ _ leg h => by simp at h⟩
  | cons l rest ih =>
    obtain ⟨N1, h1⟩ := generate_returns sm nodes hwf hfin l.1 l.2
    obtain ⟨N2, h2⟩ := ih
    refine ⟨max N1 N2, fun fuel hfuel leg hleg => ?_⟩
    rcases List.mem_cons.mp hleg with h | h
    · subst h
      exact h1 fuel (le_trans (le_max_left _ _) hfuel)
    · exact h2 fuel (le_trans (le_max_right _ _) hfuel) leg h

theorem narrateSegment_prefix (geo : Geometry G S) (st : LegState G S I)
    (p : StreetSegment G S) :
    ∃ suffix, (narrateSegment geo st p).commands = st.commands ++ suffix := by
  unfold narrateSegment
  cases hp : st.prev with
  | none => exact ⟨[], by simp⟩
  | some prev =>
    simp only []
    by_cases hs : st.prevStreet = p.name
    · exact ⟨[], by simp [hs]⟩
    · simp only [hs, if_false]
      by_cases ht : turn (geo.angleBetween2Lines p prev) = "error"
      · refine ⟨[DeliveryCommand.Proceed (direction (geo.angleOfLine p)) st.prevStreet
          st.currentDistance], ?_⟩
        simp [ht]
      · refine ⟨[DeliveryCommand.Turn (turn (geo.angleBetween2Lines p prev)) p.name,
          DeliveryCommand.Proceed (direction (geo.angleOfLine p)) st.prevStreet
            st.currentDistance], ?_⟩
        simp [ht]

theorem foldl_narrate_prefix (geo : Geometry G S) :
    ∀ (route : List (StreetSegment G S)) (st : LegState G S I),
      ∃ suffix, (route.foldl (narrateSegment geo) st).commands = st.commands ++ suffix := by
  intro route
  induction route with
  | nil => intro st; exact ⟨[], by simp⟩
  | cons p rest ih =>
    intro st
    obtain ⟨s1, h1⟩ := narrateSegment_prefix geo st p
    obtain ⟨s2, h2⟩ := ih (narrateSegment geo st p)
    exact ⟨s1 ++ s2, by rw [List.foldl_cons, h2, h1, List.append_assoc]⟩

theorem narrateLeg_prefix (geo : Geometry G S) (acc : List (DeliveryCommand S I) × ℚ)
    (route : List (StreetSegment G S)) :
    ∃ suffix, (narrateLeg geo acc route).1 = acc.1 ++ suffix := by
  obtain ⟨s, hs⟩ := foldl_narrate_prefix geo route
    ({ commands := acc.1, totalDistanceTravelled := acc.2, prev := none,
       prevStreet := default, currentDistance := 0, currentDirection := "" } :
      LegState G S I)
  simp only [narrateLeg]
  split_ifs
  · exact ⟨s ++ [_], by rw [hs, List.append_assoc]⟩
  · exact ⟨s, hs⟩

theorem narrateRoutes_prefix (geo : Geometry G S) (oob : DeliveryRequest G I)
    (target : List (DeliveryRequest G I)) (n : Nat) :
    ∀ (routes : List (List (StreetSegment G S))) (i : Nat)
      (acc : List (DeliveryCommand S I) × ℚ),
      ∃ suffix, (narrateRoutes geo oob target n i routes acc).1 = acc.1 ++ suffix := by
  intro routes
  induction routes with
  | nil => intro i acc; exact ⟨[], by simp [narrateRoutes]⟩
  | cons r rest ih =>
    intro i acc
    obtain ⟨s1, h1⟩ := narrateLeg_prefix geo acc r
    simp only [narrateRoutes]
    split_ifs
    · obtain ⟨s2, h2⟩ := ih (i + 1)
        ((narrateLeg geo acc r).1 ++
          [DeliveryCommand.Deliver (target.getD i oob).item], (narrateLeg geo acc r).2)
      exact ⟨s1 ++ ([DeliveryCommand.Deliver (target.getD i oob).item] ++ s2),
        by rw [h2, h1]; simp⟩
    · obtain ⟨s2, h2⟩ := ih (i + 1) ((narrateLeg geo acc r).1, (narrateLeg geo acc r).2)
      exact ⟨s1 ++ s2, by rw [h2, h1]; simp⟩

theorem map_some_length {α : Type} (l : List (Option α)) (m : List α)
    (h : l = m.map some) : m.length = l.length := by
  rw [h, List.length_map]

theorem indexLegs_length (oob : DeliveryRequest G I) (depot : G)
    (deliveries t : List (DeliveryRequest G I)) (ht : t ≠ []) :
    (indexLegs oob depot deliveries t).length = t.length + 1 := by
  have : 0 < t.length := List.length_pos.mpr ht
  simp only [indexLegs, List.length_cons, List.length_append, List.length_map,
    List.length_range, List.length_singleton, List.length_nil]
  omega

theorem range'_map_item_shift (oob a : DeliveryRequest G I)
    (rest : List (DeliveryRequest G I)) :
    ∀ (k s : Nat),
      (List.range' (s + 1) k).map (fun j => ((a :: rest).getD j oob).item) =
        (List.range' s k).map (fun j => (rest.getD j oob).item) := by
  intro k
  induction k with
  | zero => intro s; rfl
  | succ k ih =>
    intro s
    simp only [List.range'_succ, List.map_cons, ih (s + 1), List.getD_cons_succ]

theorem range'_map_getD_item (oob : DeliveryRequest G I) :
    ∀ (t : List (DeliveryRequest G I)),
      (List.range' 0 t.length).map (fun j => (t.getD j oob).item) =
        t.map (fun d => d.item) := by
  intro t
  induction t with
  | nil => rfl
  | cons a rest ih =>
    rw [List.length_cons, List.range'_succ, List.map_cons, List.map_cons,
      range'_map_item_shift oob a rest rest.length 0, ih]
    rfl

/-- A successful plan has one `Deliver` command for every request the optimizer left in
its vector, in that order. -/
theorem plan_delivered_items (router : G → G → Option (RouteResult G S))
    (geo : Geometry G S) (oob : DeliveryRequest G I) (depot : G)
    (deliveries : List (DeliveryRequest G I)) (commands : List (DeliveryCommand S I))
    (total : ℚ) (hne : deliveries ≠ [])
    (hall : ∀ leg ∈ indexLegs oob depot deliveries
        (optimizeDeliveryOrder geo.distanceEarthMiles oob depot deliveries).deliveries,
      ∃ rr, router leg.1 leg.2 = some rr) :
    ∃ r, generateDeliveryPlanWith router geo oob depot deliveries commands total = some r ∧
      (r.result = DeliveryResult.DELIVERY_SUCCESS →
        deliveredItems r.commands =
          (optimizeDeliveryOrder geo.distanceEarthMiles oob depot deliveries).deliveries.map
            (fun d => d.item)) := by
  obtain ⟨r, codes, hr, _, _, hsucc, _⟩ :=
    plan_shape router geo oob depot deliveries commands total hne hall
  refine ⟨r, hr, fun hs => ?_⟩
  obtain ⟨routes, hroutes, hcmd, _⟩ := hsucc hs
  have hlen : routes.length =
      (optimizeDeliveryOrder geo.distanceEarthMiles oob depot deliveries).deliveries.length
        + 1 := by
    rw [map_some_length _ routes hroutes, List.length_map,
      indexLegs_length oob depot deliveries _
        (optimize_deliveries_ne_nil geo.distanceEarthMiles oob depot deliveries)]
  rw [hcmd, narrateRoutes_items geo oob _ routes.length routes 0 _ (by omega), hlen]
  simp only [deliveredItems, List.nil_append, Nat.add_sub_cancel]
  exact range'_map_getD_item oob _

end PlanClaims

section PlanClaims2

variable {G S I : Type} [DecidableEq G] [DecidableEq S] [Inhabited S]

/-- When the router succeeds on every leg the plan succeeds, with the narration of the
routes of the legs as its commands. -/
theorem plan_succeeds_of_legs (router : G → G → Option (RouteResult G S))
    (geo : Geometry G S) (oob : DeliveryRequest G I) (depot : G)
    (deliveries : List (DeliveryRequest G I)) (commands : List (DeliveryCommand S I))
    (total : ℚ) (hne : deliveries ≠ [])
    (hall : ∀ leg ∈ indexLegs oob depot deliveries
        (optimizeDeliveryOrder geo.distanceEarthMiles oob depot deliveries).deliveries,
      ∃ rr, router leg.1 leg.2 = some rr ∧ rr.result = DeliveryResult.DELIVERY_SUCCESS) :
    ∃ r routes,
      generateDeliveryPlanWith router geo oob depot deliveries commands total = some r ∧
      r.result = DeliveryResult.DELIVERY_SUCCESS ∧
      (indexLegs oob depot deliveries
          (optimizeDeliveryOrder geo.distanceEarthMiles oob depot deliveries).deliveries).map
        (fun leg => (router leg.1 leg.2).map (fun rr => rr.route)) = routes.map some ∧
      r.commands = (narrateRoutes geo oob
        (optimizeDeliveryOrder geo.distanceEarthMiles oob depot deliveries).deliveries
        routes.length 0 routes ([], 0)).1 := by
  obtain ⟨r, codes, hr, hcodes, hres, hsucc, _⟩ :=
    plan_shape router geo oob depot deliveries commands total hne
      (fun leg hleg => (hall leg hleg).imp (fun _ h => h.1))
  have hs : r.result = DeliveryResult.DELIVERY_SUCCESS := by
    rw [hres, firstFailure_success_iff]
    intro c hc
    have h1 : some c ∈ codes.map some := List.mem_map.mpr ⟨c, hc, rfl⟩
    rw [← hcodes] at h1
    obtain ⟨leg, hleg, hlc⟩ := List.mem_map.mp h1
    obtain ⟨rr, hrr, hrs⟩ := hall leg hleg
    rw [hrr] at hlc
    simp only [Option.map_some', Option.some.injEq] at hlc
    rw [← hlc, hrs]
  obtain ⟨routes, h1, h2, _⟩ := hsucc hs
  exact ⟨r, routes, hr, hs, h1, h2⟩

/-- With two or more routes the narration starts with the narration of the first route
followed by the `Deliver` command for `targetDeliveries[0]`. -/
theorem narrateRoutes_first (geo : Geometry G S) (oob : DeliveryRequest G I)
    (target : List (DeliveryRequest G I)) (r0 r1 : List (StreetSegment G S))
    (rest : List (List (StreetSegment G S))) :
    ∃ suffix,
      (narrateRoutes geo oob target (r0 :: r1 :: rest).length 0 (r0 :: r1 :: rest)
          ([], 0)).1 =
        (narrateLeg geo ([], 0) r0).1 ++
          DeliveryCommand.Deliver (target.getD 0 oob).item :: suffix := by
  have hlt : 0 < (r0 :: r1 :: rest).length - 1 := by simp
  obtain ⟨s, hs⟩ := narrateRoutes_prefix geo oob target (r0 :: r1 :: rest).length
    (r1 :: rest) 1
    ((narrateLeg geo ([], 0) r0).1 ++ [DeliveryCommand.Deliver (target.getD 0 oob).item],
      (narrateLeg geo (([] : List (DeliveryCommand S I)), 0) r0).2)
  refine ⟨s, ?_⟩
  rw [narrateRoutes]
  simp only [hlt, if_true]
  rw [hs]
  simp

/-- C13: for a non-empty delivery list on a finite well-formed street graph the call
returns, and when it returns `DELIVERY_SUCCESS` the reported distance is what a variable
holds that is set to 0 and then increased, in order, by the length of every segment of
the routes of all legs (first leg, legs between deliveries, return leg), the additions
being those of the machine; it does not depend on what the distance variable held
before.  When no addition rounds, that is the sum of the lengths of the routes. -/
theorem plan_total_distance (sm : StreetMap G S) (nodes : List G) (hwf : sm.WellFormed)
    (hfin : sm.EndsIn nodes) (geo : Geometry G S) (oob : DeliveryRequest G I) (depot : G)
    (deliveries : List (DeliveryRequest G I)) (commands : List (DeliveryCommand S I))
    (total : ℚ) (hne : deliveries ≠ []) :
    ∃ N, ∀ fuel, N ≤ fuel →
      ∃ r, generateDeliveryPlan sm geo oob fuel depot deliveries commands total = some r ∧
        (r.result = DeliveryResult.DELIVERY_SUCCESS →
          ∃ routes : List (List (StreetSegment G S)),
            (planLegs depot deliveries
                (optimizeDeliveryOrder geo.distanceEarthMiles oob depot
                  deliveries).deliveries).map
              (fun leg => (generatePointToPointRoute sm fuel leg.1 leg.2).map
                (fun rr => rr.route)) = routes.map some ∧
            r.totalDistanceTravelled =
              accumulate geo.add
                (routes.flatten.map (fun s => geo.distanceEarthMiles s.start s.end_)) ∧
            ((∀ a b, geo.add a b = a + b) →
              r.totalDistanceTravelled =
                (routes.map (routeLength geo.distanceEarthMiles)).sum)) := by
  obtain ⟨N, hN⟩ := legs_return sm nodes hwf hfin (indexLegs oob depot deliveries
    (optimizeDeliveryOrder geo.distanceEarthMiles oob depot deliveries).deliveries)
  refine ⟨N, fun fuel hfuel => ?_⟩
  obtain ⟨r, codes, hr, _, _, hsucc, _⟩ :=
    plan_shape (generatePointToPointRoute sm fuel) geo oob depot deliveries commands total
      hne (hN fuel hfuel)
  refine ⟨r, hr, fun hs => ?_⟩
  obtain ⟨routes, h1, _, h3⟩ := hsucc hs
  have h4 : r.totalDistanceTravelled =
      accumulate geo.add
        (routes.flatten.map (fun s => geo.distanceEarthMiles s.start s.end_)) := by
    rw [h3, narrateRoutes_total]
    rfl
  refine ⟨routes, ?_, h4, fun hadd => ?_⟩
  · rw [planLegs_eq_indexLegs oob depot deliveries _ hne
      (optimize_deliveries_ne_nil geo.distanceEarthMiles oob depot deliveries)]
    exact h1
  · rw [h4]
    unfold accumulate
    rw [accumulate_exact geo.distanceEarthMiles geo.add hadd routes 0]
    simp

/-- C14: for a non-empty delivery list on a finite well-formed street graph the call
returns with the result code of the first leg whose router call does not succeed, the
legs taken in the order depot to first original delivery, consecutive pairs of the
optimized list, last optimized delivery to depot; it returns `DELIVERY_SUCCESS` iff the
router succeeds on every leg. -/
theorem plan_result_code (sm : StreetMap G S) (nodes : List G) (hwf : sm.WellFormed)
    (hfin : sm.EndsIn nodes) (geo : Geometry G S) (oob : DeliveryRequest G I) (depot : G)
    (deliveries : List (DeliveryRequest G I)) (commands : List (DeliveryCommand S I))
    (total : ℚ) (hne : deliveries ≠ []) :
    ∃ N, ∀ fuel, N ≤ fuel →
      ∃ r codes,
        generateDeliveryPlan sm geo oob fuel depot deliveries commands total = some r ∧
        (planLegs depot deliveries
            (optimizeDeliveryOrder geo.distanceEarthMiles oob depot deliveries).deliveries).map
          (fun leg => (generatePointToPointRoute sm fuel leg.1 leg.2).map
            (fun rr => rr.result)) = codes.map some ∧
        r.result = firstFailure codes ∧
        (r.result = DeliveryResult.DELIVERY_SUCCESS ↔
          ∀ c ∈ codes, c = DeliveryResult.DELIVERY_SUCCESS) := by
  obtain ⟨N, hN⟩ := legs_return sm nodes hwf hfin (indexLegs oob depot deliveries
    (optimizeDeliveryOrder geo.distanceEarthMiles oob depot deliveries).deliveries)
  refine ⟨N, fun fuel hfuel => ?_⟩
  obtain ⟨r, codes, hr, hcodes, hres, _, _⟩ :=
    plan_shape (generatePointToPointRoute sm fuel) geo oob depot deliveries commands total
      hne (hN fuel hfuel)
  refine ⟨r, codes, hr, ?_, hres, ?_⟩
  · rw [planLegs_eq_indexLegs oob depot deliveries _ hne
      (optimize_deliveries_ne_nil geo.distanceEarthMiles oob depot deliveries)]
    exact hcodes
  · rw [hres]
    exact firstFailure_success_iff codes

/-- C15 (evaluation at the failing input): with an empty delivery list the call returns
`DELIVERY_SUCCESS` with the command list cleared and the distance variable as the caller
left it; the assignment of 0 comes after the early return. -/
theorem empty_plan_keeps_distance (sm : StreetMap G S) (geo : Geometry G S)
    (oob : DeliveryRequest G I) (fuel : Nat) (depot : G)
    (commands : List (DeliveryCommand S I)) (total : ℚ) :
    generateDeliveryPlan sm geo oob fuel depot [] commands total =
      some ⟨DeliveryResult.DELIVERY_SUCCESS, [], total⟩ := by
  simp [generateDeliveryPlan, generateDeliveryPlanWith]

/-- For two or more requests a successful plan has exactly one `Deliver` command per
request. -/
theorem deliver_count_two_or_more (router : G → G → Option (RouteResult G S))
    (geo : Geometry G S) (oob : DeliveryRequest G I) (depot : G)
    (deliveries : List (DeliveryRequest G I)) (commands : List (DeliveryCommand S I))
    (total : ℚ) (h2 : 2 ≤ deliveries.length) (r : PlanResult S I)
    (hall : ∀ leg ∈ indexLegs oob depot deliveries
        (optimizeDeliveryOrder geo.distanceEarthMiles oob depot deliveries).deliveries,
      ∃ rr, router leg.1 leg.2 = some rr)
    (hr : generateDeliveryPlanWith router geo oob depot deliveries commands total = some r)
    (hs : r.result = DeliveryResult.DELIVERY_SUCCESS) :
    deliverCount r.commands = deliveries.length := by
  have hne : deliveries ≠ [] := by intro h; subst h; simp at h2
  obtain ⟨r1, hr1, hitems⟩ :=
    plan_delivered_items router geo oob depot deliveries commands total hne hall
  rw [hr] at hr1
  simp only [Option.some.injEq] at hr1
  subst hr1
  rw [deliverCount_eq_length, hitems hs, List.length_map]
  exact (optimize_perm geo.distanceEarthMiles oob depot deliveries h2).length_eq

end PlanClaims2

/-- C11 (evaluation at the failing input): in the triangle graph, depot 0 and the single
request for item 5 at coordinate 1, with the out-of-range read yielding that request
again, the plan succeeds for every geometry and carries two `Deliver` commands for one
request. -/
theorem single_request_two_deliver_commands (geo : Geometry Nat Nat)
    (commands : List (DeliveryCommand Nat Nat)) (total : ℚ) (k : Nat) :
    ∃ r, generateDeliveryPlan triangle geo (⟨5, 1⟩ : DeliveryRequest Nat Nat) (2 + k) 0
        [⟨5, 1⟩] commands total = some r ∧
      r.result = DeliveryResult.DELIVERY_SUCCESS ∧
      deliveredItems r.commands = [5, 5] ∧ deliverCount r.commands = 2 := by
  have h01 : generatePointToPointRoute triangle (2 + k) 0 1 =
      some ⟨DeliveryResult.DELIVERY_SUCCESS, [⟨0, 1, 7⟩], 0⟩ :=
    generate_mono triangle 2 (2 + k) (Nat.le_add_right _ _) 0 1 _ rfl
  have h11 : generatePointToPointRoute triangle (2 + k) 1 1 =
      some ⟨DeliveryResult.DELIVERY_SUCCESS, [], 0⟩ := generate_same triangle _ 1
  have h10 : generatePointToPointRoute triangle (2 + k) 1 0 =
      some ⟨DeliveryResult.DELIVERY_SUCCESS, [⟨1, 0, 7⟩], 0⟩ :=
    generate_mono triangle 2 (2 + k) (Nat.le_add_right _ _) 1 0 _ rfl
  have ht : (optimizeDeliveryOrder geo.distanceEarthMiles (⟨5, 1⟩ : DeliveryRequest Nat Nat)
      0 [⟨5, 1⟩]).deliveries = [⟨5, 1⟩, ⟨5, 1⟩] := by
    simp [optimizeDeliveryOrder, nearestIndex, orderLoop]
  have hall : ∀ leg ∈ indexLegs (⟨5, 1⟩ : DeliveryRequest Nat Nat) 0 [⟨5, 1⟩]
      (optimizeDeliveryOrder geo.distanceEarthMiles (⟨5, 1⟩ : DeliveryRequest Nat Nat) 0
        [⟨5, 1⟩]).deliveries,
      ∃ rr, generatePointToPointRoute triangle (2 + k) leg.1 leg.2 = some rr ∧
        rr.result = DeliveryResult.DELIVERY_SUCCESS := by
    intro leg hleg
    rw [ht] at hleg
    simp only [indexLegs, List.length_cons, List.length_nil, List.range, List.range.loop,
      List.map_cons, List.map_nil, List.getD_cons_zero, List.getD_cons_succ,
      List.mem_cons, List.cons_append, List.nil_append, List.mem_singleton] at hleg
    rcases hleg with h | h | h
    · rw [h]; exact ⟨_, h01, rfl⟩
    · rw [h]; exact ⟨_, h11, rfl⟩
    · rcases h with h | h
      · rw [h]; exact ⟨_, h10, rfl⟩
      · simp at h
  obtain ⟨r, routes, hr, hs, _, _⟩ := plan_succeeds_of_legs
    (generatePointToPointRoute triangle (2 + k)) geo (⟨5, 1⟩ : DeliveryRequest Nat Nat) 0
    [⟨5, 1⟩] commands total (by simp) hall
  obtain ⟨r1, hr1, hitems⟩ := plan_delivered_items
    (generatePointToPointRoute triangle (2 + k)) geo (⟨5, 1⟩ : DeliveryRequest Nat Nat) 0
    [⟨5, 1⟩] commands total (by simp) (fun leg hleg => (hall leg hleg).imp (fun _ h => h.1))
  rw [hr] at hr1
  simp only [Option.some.injEq] at hr1
  subst hr1
  have hi := hitems hs
  rw [ht] at hi
  refine ⟨r, hr, hs, by simpa using hi, ?_⟩
  rw [deliverCount_eq_length, hi]
  rfl

/-- C12 (evaluation at the failing input): in the triangle graph with depot 0 and the
requests item 6 at coordinate 2, item 5 at coordinate 1 (distances are coordinate gaps),
the plan succeeds, the route narrated for the first leg is the route from the depot to
coordinate 2 (the first request of the original list), and the command right after that
narration is `Deliver 5`, the item requested at coordinate 1. -/
theorem first_deliver_names_other_location (oob : DeliveryRequest Nat Nat)
    (commands : List (DeliveryCommand Nat Nat)) (total : ℚ) (k : Nat) :
    ∃ r suffix,
      generateDeliveryPlan triangle gapGeometry oob (3 + k) 0 [⟨6, 2⟩, ⟨5, 1⟩] commands
        total = some r ∧
      r.result = DeliveryResult.DELIVERY_SUCCESS ∧
      generatePointToPointRoute triangle (3 + k) 0 2 =
        some ⟨DeliveryResult.DELIVERY_SUCCESS, [⟨0, 1, 7⟩, ⟨1, 2, 9⟩], 0⟩ ∧
      r.commands =
        (narrateLeg gapGeometry ([], 0) [⟨0, 1, 7⟩, ⟨1, 2, 9⟩]).1 ++
          DeliveryCommand.Deliver 5 :: suffix := by
  have h02 : generatePointToPointRoute triangle (3 + k) 0 2 =
      some ⟨DeliveryResult.DELIVERY_SUCCESS, [⟨0, 1, 7⟩, ⟨1, 2, 9⟩], 0⟩ :=
    generate_mono triangle 3 (3 + k) (Nat.le_add_right _ _) 0 2 _ rfl
  have h12 : generatePointToPointRoute triangle (3 + k) 1 2 =
      some ⟨DeliveryResult.DELIVERY_SUCCESS, [⟨1, 0, 7⟩, ⟨0, 2, 8⟩], 0⟩ :=
    generate_mono triangle 3 (3 + k) (Nat.le_add_right _ _) 1 2 _ rfl
  have h20 : generatePointToPointRoute triangle (3 + k) 2 0 =
      some ⟨DeliveryResult.DELIVERY_SUCCESS, [⟨2, 0, 8⟩], 0⟩ :=
    generate_mono triangle 3 (3 + k) (Nat.le_add_right _ _) 2 0 _ rfl
  have ht : (optimizeDeliveryOrder gapGeometry.distanceEarthMiles oob 0
      [⟨6, 2⟩, ⟨5, 1⟩]).deliveries = [⟨5, 1⟩, ⟨6, 2⟩] := by
    have hidx : nearestIndex gapGeometry.distanceEarthMiles oob 0
        [(⟨6, 2⟩ : DeliveryRequest Nat Nat), ⟨5, 1⟩] = 1 := by
      simp [nearestIndex, gapGeometry]
    have he : ([(⟨6, 2⟩ : DeliveryRequest Nat Nat), ⟨5, 1⟩]).eraseIdx 1 = [⟨6, 2⟩] := rfl
    simp only [optimizeDeliveryOrder, hidx, he]
    simp [orderLoop]
  have hlegs : indexLegs oob 0 [⟨6, 2⟩, ⟨5, 1⟩]
      (optimizeDeliveryOrder gapGeometry.distanceEarthMiles oob 0
        [⟨6, 2⟩, ⟨5, 1⟩]).deliveries = [(0, 2), (1, 2), (2, 0)] := by
    rw [ht]
    simp [indexLegs, List.range, List.range.loop]
  have hall : ∀ leg ∈ indexLegs oob 0 [⟨6, 2⟩, ⟨5, 1⟩]
      (optimizeDeliveryOrder gapGeometry.distanceEarthMiles oob 0
        [⟨6, 2⟩, ⟨5, 1⟩]).deliveries,
      ∃ rr, generatePointToPointRoute triangle (3 + k) leg.1 leg.2 = some rr ∧
        rr.result = DeliveryResult.DELIVERY_SUCCESS := by
    intro leg hleg
    rw [hlegs] at hleg
    simp only [List.mem_cons, List.mem_singleton, List.not_mem_nil, or_false] at hleg
    rcases hleg with h | h | h
    · rw [h]; exact ⟨_, h02, rfl⟩
    · rw [h]; exact ⟨_, h12, rfl⟩
    · rw [h]; exact ⟨_, h20, rfl⟩
  obtain ⟨r, routes, hr, hs, hroutes, hcmds⟩ := plan_succeeds_of_legs
    (generatePointToPointRoute triangle (3 + k)) gapGeometry oob 0
    [⟨6, 2⟩, ⟨5, 1⟩] commands total (by simp) hall
  rw [hlegs] at hroutes
  simp only [List.map_cons, List.map_nil, h02, h12, h20, Option.map_some'] at hroutes
  have hrt : routes = [[⟨0, 1, 7⟩, ⟨1, 2, 9⟩], [⟨1, 0, 7⟩, ⟨0, 2, 8⟩], [⟨2, 0, 8⟩]] := by
    have := List.map_injective_iff.mpr (Option.some_injective _)
      (hroutes.symm.trans (by rfl :
        _ = List.map some [[(⟨0, 1, 7⟩ : StreetSegment Nat Nat), ⟨1, 2, 9⟩],
          [⟨1, 0, 7⟩, ⟨0, 2, 8⟩], [⟨2, 0, 8⟩]]))
    exact this
  subst hrt
  obtain ⟨suffix, hsuf⟩ := narrateRoutes_first gapGeometry oob
    (optimizeDeliveryOrder gapGeometry.distanceEarthMiles oob 0 [⟨6, 2⟩, ⟨5, 1⟩]).deliveries
    [⟨0, 1, 7⟩, ⟨1, 2, 9⟩] [⟨1, 0, 7⟩, ⟨0, 2, 8⟩] [[⟨2, 0, 8⟩]]
  refine ⟨r, suffix, hr, hs, h02, ?_⟩
  rw [hcmds, hsuf, ht]
  rfl

/-- C20 (evaluation at the failing input): on the route 0-1 (street 7), 1-2, 2-3
(street 9) of the line graph, where the segment leaving coordinate 0 points east and
every other segment points north, the `Proceed` command for street 7 carries the label
"north", the direction of the segment that follows the run, while the initial segment of
the run has direction "east". -/
theorem proceed_carries_later_direction :
    (narrateLeg unitGeometry (([] : List (DeliveryCommand Nat Nat)), 0)
        [⟨0, 1, 7⟩, ⟨1, 2, 9⟩, ⟨2, 3, 9⟩]).1 =
      [DeliveryCommand.Turn "left" 9, DeliveryCommand.Proceed "north" 7 1,
        DeliveryCommand.Proceed "north" 9 1] ∧
    direction (unitGeometry.angleOfLine ⟨0, 1, 7⟩) = "east" ∧
    direction (unitGeometry.angleOfLine ⟨1, 2, 9⟩) = "north" := by
  refine ⟨?_, ?_, ?_⟩
  · simp [narrateLeg, narrateSegment, unitGeometry, turn, direction]
    norm_num
    rw [if_neg (by decide)]
    rfl
  · simp [unitGeometry, direction]
    intro h
    norm_num at h
  · simp [unitGeometry, direction]
    norm_num

/-- Witness for `plan_total_distance`: the triangle graph, depot 0, two requests, at
coordinates 2 and 1, the caller's distance variable holding 7 before the call; the
additions of `gapGeometry` do not round, so the reported distance is also the sum of the
lengths of the routes. -/
theorem plan_total_distance_witness :
    ∃ N, ∀ fuel, N ≤ fuel →
      ∃ r, generateDeliveryPlan triangle gapGeometry (⟨5, 1⟩ : DeliveryRequest Nat Nat) fuel
          0 [⟨6, 2⟩, ⟨5, 1⟩] [] 7 = some r ∧
        (r.result = DeliveryResult.DELIVERY_SUCCESS →
          ∃ routes : List (List (StreetSegment Nat Nat)),
            (planLegs 0 [⟨6, 2⟩, ⟨5, 1⟩]
                (optimizeDeliveryOrder gapGeometry.distanceEarthMiles
                  (⟨5, 1⟩ : DeliveryRequest Nat Nat) 0 [⟨6, 2⟩, ⟨5, 1⟩]).deliveries).map
              (fun leg => (generatePointToPointRoute triangle fuel leg.1 leg.2).map
                (fun rr => rr.route)) = routes.map some ∧
            r.totalDistanceTravelled =
              accumulate gapGeometry.add
                (routes.flatten.map
                  (fun s => gapGeometry.distanceEarthMiles s.start s.end_)) ∧
            r.totalDistanceTravelled =
              (routes.map (routeLength gapGeometry.distanceEarthMiles)).sum) :=
  (plan_total_distance triangle [0, 1, 2] triangle_wellFormed triangle_endsIn gapGeometry
    ⟨5, 1⟩ 0 [⟨6, 2⟩, ⟨5, 1⟩] [] 7 (by simp)).imp
    (fun _ h fuel hfuel => (h fuel hfuel).imp
      (fun _ hr => ⟨hr.1, fun hs => (hr.2 hs).imp
        (fun _ h3 => ⟨h3.1, h3.2.1, h3.2.2 (fun _ _ => rfl)⟩)⟩))

/-- Witness for `plan_result_code`: the triangle graph, depot 0, requests at coordinates
2 and 1. -/
theorem plan_result_code_witness :
    ∃ N, ∀ fuel, N ≤ fuel →
      ∃ r codes,
        generateDeliveryPlan triangle gapGeometry (⟨5, 1⟩ : DeliveryRequest Nat Nat) fuel 0
          [⟨6, 2⟩, ⟨5, 1⟩] [] 7 = some r ∧
        (planLegs 0 [⟨6, 2⟩, ⟨5, 1⟩]
            (optimizeDeliveryOrder gapGeometry.distanceEarthMiles
              (⟨5, 1⟩ : DeliveryRequest Nat Nat) 0 [⟨6, 2⟩, ⟨5, 1⟩]).deliveries).map
          (fun leg => (generatePointToPointRoute triangle fuel leg.1 leg.2).map
            (fun rr => rr.result)) = codes.map some ∧
        r.result = firstFailure codes ∧
        (r.result = DeliveryResult.DELIVERY_SUCCESS ↔
          ∀ c ∈ codes, c = DeliveryResult.DELIVERY_SUCCESS) :=
  plan_result_code triangle [0, 1, 2] triangle_wellFormed triangle_endsIn gapGeometry
    ⟨5, 1⟩ 0 [⟨6, 2⟩, ⟨5, 1⟩] [] 7 (by simp)

section LegEnd

variable {G S I : Type} [DecidableEq G] [DecidableEq S] [Inhabited S]

/-- After the loop body has run on a segment, `prev` points at it and `prevStreet` is
its street name. -/
theorem foldl_narrate_prev (geo : Geometry G S) (route : List (StreetSegment G S))
    (p : StreetSegment G S) (st : LegState G S I) :
    ((route ++ [p]).foldl (narrateSegment geo) st).prev = some p ∧
      ((route ++ [p]).foldl (narrateSegment geo) st).prevStreet = p.name := by
  rw [List.foldl_append]
  simp [narrateSegment]

/-- When the last segment of a route is on another street than the segment before it,
the narration of the leg ends with the `Proceed` command for the street of the segment
before it, and no `Proceed` command is pushed after the loop. -/
theorem narrateLeg_last_after_change (geo : Geometry G S)
    (acc : List (DeliveryCommand S I) × ℚ) (route : List (StreetSegment G S))
    (p q : StreetSegment G S) (hpq : p.name ≠ q.name) :
    ∃ d, (narrateLeg geo acc (route ++ [p, q])).1.getLast? =
      some (DeliveryCommand.Proceed (direction (geo.angleOfLine q)) p.name d) := by
  have e : route ++ [p, q] = (route ++ [p]) ++ [q] := by simp
  obtain ⟨h1, h2⟩ := foldl_narrate_prev geo route p
    ({ commands := acc.1, totalDistanceTravelled := acc.2, prev := none,
       prevStreet := default, currentDistance := 0, currentDirection := "" } :
      LegState G S I)
  refine ⟨((route ++ [p]).foldl (narrateSegment geo)
    ({ commands := acc.1, totalDistanceTravelled := acc.2, prev := none,
       prevStreet := default, currentDistance := 0, currentDirection := "" } :
      LegState G S I)).currentDistance, ?_⟩
  rw [e]
  unfold narrateLeg
  rw [List.foldl_append]
  simp only [List.foldl_cons, List.foldl_nil]
  generalize (route ++ [p]).foldl (narrateSegment geo)
    ({ commands := acc.1, totalDistanceTravelled := acc.2, prev := none,
       prevStreet := default, currentDistance := 0, currentDirection := "" } :
      LegState G S I) = st at h1 h2 ⊢
  simp [narrateSegment, h1, h2, hpq]

end LegEnd

/-- C21 (evaluation at the failing input): the route from 0 to 2 in the line graph is
0-1 on street 7 followed by 1-2 on street 9, every segment one unit long; its narration
is a `Turn` command and the `Proceed` command for street 7, so it does not end with a
`Proceed` command for street 9, the street of the last segment, and the run on street 9
gets no `Proceed` command at all. -/
theorem last_street_gets_no_proceed :
    generatePointToPointRoute lineGraph 3 0 2 =
      some ⟨DeliveryResult.DELIVERY_SUCCESS, [⟨0, 1, 7⟩, ⟨1, 2, 9⟩], 0⟩ ∧
    (∀ s ∈ [(⟨0, 1, 7⟩ : StreetSegment Nat Nat), ⟨1, 2, 9⟩],
      unitGeometry.distanceEarthMiles s.start s.end_ ≠ 0) ∧
    (narrateLeg unitGeometry (([] : List (DeliveryCommand Nat Nat)), 0)
        [⟨0, 1, 7⟩, ⟨1, 2, 9⟩]).1 =
      [DeliveryCommand.Turn "left" 9, DeliveryCommand.Proceed "north" 7 1] := by
  refine ⟨rfl, ?_, ?_⟩
  · intro s _
    simp [unitGeometry]
  · simp [narrateLeg, narrateSegment, unitGeometry, turn, direction]
    norm_num
    rw [if_neg (by decide)]
    rfl

/-- C23 (evaluation at the failing input): in the search from 0 to 3 on the kite graph
coordinate 2 is pushed on the queue by the expansion of 0 and again by the expansion
of 1 (it is not in `visited` before it is dequeued itself), so it is dequeued and
expanded twice: when the loop is left `visited` is 0, 1, 2, 2.  The call this search
belongs to returns a route. -/
theorem search_expands_coordinate_twice (k : Nat) :
    ∃ fin, searchLoop kite 3 (5 + k) [0] [] (fun _ => none) = some fin ∧
      fin.pathFound = true ∧ fin.visited = [0, 1, 2, 2] ∧ ¬ fin.visited.Nodup ∧
      generatePointToPointRoute kite (5 + k) 0 3 =
        some ⟨DeliveryResult.DELIVERY_SUCCESS, [⟨0, 1, 7⟩, ⟨1, 2, 9⟩, ⟨2, 3, 6⟩], 0⟩ := by
  refine ⟨_, searchLoop_mono_le kite 3 5 (5 + k) (Nat.le_add_right _ _) [0] []
    (fun _ => none) _ rfl, rfl, rfl, by decide, ?_⟩
  exact generate_mono kite 5 (5 + k) (Nat.le_add_right _ _) 0 3 _ rfl

namespace ExpandableHashMap

variable {K V : Type} [DecidableEq K]

/-- Buckets whose entries are placed by a function of the key, bucket `i` holding the
entries with value `i + off`, and none holding a key twice, hold every key once over
all. -/
theorem nodup_keys_of_buckets (f : K → Nat) :
    ∀ (bs : List (List (K × V))) (off : Nat),
      (∀ i b, bs[i]? = some b → (∀ p ∈ b, f p.1 = i + off) ∧ (b.map Prod.fst).Nodup) →
      (bs.flatten.map Prod.fst).Nodup := by
  intro bs
  induction bs with
  | nil => intro _ _; simp
  | cons b rest ih =>
    intro off h
    have h0 := h 0 b (by simp)
    rw [List.flatten_cons, List.map_append, List.nodup_append]
    refine ⟨h0.2, ih (off + 1) ?_, ?_⟩
    · intro i c hc
      have hc1 := h (i + 1) c (by simpa using hc)
      refine ⟨fun p hp => ?_, hc1.2⟩
      rw [hc1.1 p hp]
      omega
    · intro a ha hb
      obtain ⟨p, hp, hpa⟩ := List.mem_map.mp ha
      obtain ⟨q, hq, hqa⟩ := List.mem_map.mp hb
      obtain ⟨c, hc, hqc⟩ := List.mem_flatten.mp hq
      obtain ⟨i, hi⟩ := List.getElem?_of_mem hc
      have h1 := h0.1 p hp
      have h2 := (h (i + 1) c (by simpa using hi)).1 q hqc
      rw [hpa] at h1
      rw [hqa] at h2
      omega

/-- Under the invariant no key is stored twice, over all buckets. -/
theorem Inv_nodup_keys (hasher : K → Nat) (m : ExpandableHashMap K V)
    (hinv : Inv hasher m) : ((entries m).map Prod.fst).Nodup := by
  apply nodup_keys_of_buckets (fun k => hasher k % m.m_buckets.length) m.m_buckets 0
  intro i b hb
  exact hinv.2 i b hb

theorem entries_emptied (c : Nat) (L : ℚ) (n : Nat) :
    entries ({ m_buckets := List.replicate n [], m_nAssociations := c,
               m_maximumLoadFactor := L } : ExpandableHashMap K V) = [] := by
  simp only [entries]
  induction n with
  | zero => rfl
  | succ n ih => simp [List.replicate_succ]

/-- From every state with a positive maximum load factor and at least one bucket a
large enough depth makes `rehash` return. -/
theorem rehash_terminates (hasher : K → Nat) (m : ExpandableHashMap K V)
    (hL : 0 < m.m_maximumLoadFactor) (hpos : 0 < m.m_buckets.length) :
    ∃ N, ∀ fuel, N ≤ fuel → ∃ m1, rehash hasher fuel m = some m1 := by
  have hlen : 0 < m.m_buckets.length * 2 := by omega
  obtain ⟨f, hf⟩ := exists_enough m.m_buckets.flatten.length
    (m.m_nAssociations + m.m_buckets.flatten.length) (m.m_buckets.length * 2) hlen
    m.m_maximumLoadFactor hL
  obtain ⟨m1, j, hr, _⟩ := reinsertBucket_runs hasher m.m_buckets.flatten.length f
    m.m_maximumLoadFactor (associate_runs hasher _ _ f) m.m_buckets.flatten
    ({ m_buckets := List.replicate (m.m_buckets.length * 2) [],
       m_nAssociations := m.m_nAssociations,
       m_maximumLoadFactor := m.m_maximumLoadFactor } : ExpandableHashMap K V)
    rfl (by simpa using hlen) (by rw [entries_emptied]; simp) (by simpa using hf)
  refine ⟨f + 1, fun fuel hfuel => ⟨m1, ?_⟩⟩
  simp only [rehash, rehashWith]
  rw [reinsertAll_eq_flatten]
  exact reinsertBucket_mono _ _
    (fun m0 k v r h0 => associate_mono hasher (f + 1) fuel hfuel m0 k v r h0) _ _ _ hr

/-- The state after the `push_back` of a key that `find` did not find keeps the
invariant. -/
theorem Inv_push (hasher : K → Nat) (m : ExpandableHashMap K V) (key : K) (value : V)
    (hinv : Inv hasher m) (hf : find hasher m key = none) :
    Inv hasher
      { m_buckets := m.m_buckets.set (getBucketNumber hasher m key)
          (m.m_buckets.getD (getBucketNumber hasher m key) [] ++ [(key, value)])
        m_nAssociations := m.m_nAssociations + 1
        m_maximumLoadFactor := m.m_maximumLoadFactor } := by
  have hbk := getD_bucket_spec hasher m key hinv
  have hnone : ∀ p ∈ m.m_buckets.getD (getBucketNumber hasher m key) [], p.1 ≠ key :=
    (findInBucket_none_iff key _).mp hf
  apply Inv_set_bucket hasher m key _ _ _ hinv
  · intro p hp
    rcases List.mem_append.mp hp with hp | hp
    · exact hbk.1 p hp
    · simp only [List.mem_singleton] at hp
      subst hp
      rfl
  · rw [List.map_append, List.nodup_append]
    refine ⟨hbk.2, by simp, ?_⟩
    intro a ha hb
    simp only [List.map_cons, List.map_nil, List.mem_singleton] at hb
    obtain ⟨q, hq, hqe⟩ := List.mem_map.mp ha
    exact hnone q hq (hqe.trans hb)

theorem length_entries_push (hasher : K → Nat) (m : ExpandableHashMap K V) (key : K)
    (value : V) (n : Nat) (L : ℚ) (hpos : 0 < m.m_buckets.length) :
    (entries
      ({ m_buckets := m.m_buckets.set (getBucketNumber hasher m key)
            (m.m_buckets.getD (getBucketNumber hasher m key) [] ++ [(key, value)]),
         m_nAssociations := n,
         m_maximumLoadFactor := L } : ExpandableHashMap K V)).length =
      (entries m).length + 1 := by
  have hlt : getBucketNumber hasher m key < m.m_buckets.length := Nat.mod_lt _ hpos
  have h1 := length_flatten_set m.m_buckets _
    (m.m_buckets.getD (getBucketNumber hasher m key) [] ++ [(key, value)]) hlt
  simp only [List.length_append, List.length_singleton] at h1
  simp only [entries]
  omega

theorem length_entries_assign (hasher : K → Nat) (m : ExpandableHashMap K V) (key : K)
    (value : V) (n : Nat) (L : ℚ) (hpos : 0 < m.m_buckets.length) :
    (entries
      ({ m_buckets := m.m_buckets.set (getBucketNumber hasher m key)
            (assignInBucket key value (m.m_buckets.getD (getBucketNumber hasher m key) [])),
         m_nAssociations := n,
         m_maximumLoadFactor := L } : ExpandableHashMap K V)).length =
      (entries m).length := by
  have hlt : getBucketNumber hasher m key < m.m_buckets.length := Nat.mod_lt _ hpos
  have h1 := length_flatten_set m.m_buckets _
    (assignInBucket key value (m.m_buckets.getD (getBucketNumber hasher m key) [])) hlt
  simp only [length_assignInBucket] at h1
  simp only [entries]
  omega

/-- The re-insertion loop of `rehash` over a non-empty list of entries with distinct
keys, none of them stored yet: when every insertion of a new key returns with the load
within the maximum, so does the loop (its last call is such an insertion). -/
theorem reinsertBucket_load (hasher : K → Nat)
    (assoc : ExpandableHashMap K V → K → V → Option (ExpandableHashMap K V))
    (hA : StepOk hasher assoc)
    (hP : ∀ m key value m1, Inv hasher m → find hasher m key = none →
      assoc m key value = some m1 →
      (m1.m_nAssociations : ℚ) ≤ m1.m_maximumLoadFactor * (m1.m_buckets.length : ℚ)) :
    ∀ (es : List (K × V)) (m m1 : ExpandableHashMap K V), Inv hasher m →
      (es.map Prod.fst).Nodup → (∀ p ∈ es, find hasher m p.1 = none) → es ≠ [] →
      reinsertBucket assoc es m = some m1 →
      (m1.m_nAssociations : ℚ) ≤ m1.m_maximumLoadFactor * (m1.m_buckets.length : ℚ) := by
  intro es
  induction es with
  | nil => intro m m1 _ _ _ hne _; exact absurd rfl hne
  | cons p rest ih =>
    intro m m1 hinv hnd hnone _ h
    simp only [reinsertBucket] at h
    cases ha : assoc m p.1 p.2 with
    | none => simp [ha] at h
    | some m2 =>
      simp only [ha] at h
      obtain ⟨hi2, hf2, _⟩ := hA m p.1 p.2 m2 hinv ha
      cases rest with
      | nil =>
        simp only [reinsertBucket, Option.some.injEq] at h
        subst h
        exact hP m p.1 p.2 m2 hinv (hnone p (List.mem_cons_self _ _)) ha
      | cons q rest1 =>
        simp only [List.map_cons, List.nodup_cons] at hnd
        apply ih m2 m1 hi2 (by simpa using hnd.2) ?_ (by simp) h
        intro r hr
        rw [hf2 r.1]
        have hne : r.1 ≠ p.1 := by
          intro e
          apply hnd.1
          rw [← e]
          exact List.mem_map.mpr ⟨r, hr, rfl⟩
        rw [if_neg hne]
        exact hnone r (List.mem_cons_of_mem _ hr)

/-- An insertion of a new key returns with the counter, and so the load, within the
maximum: either the test after the insertion passes, or `rehash` runs and its last
re-insertion is again an insertion of a new key. -/
theorem associate_load (hasher : K → Nat) :
    ∀ (fuel : Nat) (m : ExpandableHashMap K V) (key : K) (value : V)
      (m1 : ExpandableHashMap K V),
      Inv hasher m → find hasher m key = none →
      associate hasher fuel m key value = some m1 →
      (m1.m_nAssociations : ℚ) ≤ m1.m_maximumLoadFactor * (m1.m_buckets.length : ℚ) := by
  intro fuel
  induction fuel with
  | zero => intro m key value m1 _ _ h; simp [associate] at h
  | succ fuel ih =>
    intro m key value m1 hinv hf h
    rw [associate_succ, hf] at h
    simp only [] at h
    have hinv1 := Inv_push hasher m key value hinv hf
    split_ifs at h with hload
    · simp only [rehashWith] at h
      rw [reinsertAll_eq_flatten] at h
      have hlen : 0 < (m.m_buckets.set (getBucketNumber hasher m key)
          (m.m_buckets.getD (getBucketNumber hasher m key) [] ++ [(key, value)])).length *
            2 := by
        have := hinv.1
        simp only [List.length_set]
        omega
      refine reinsertBucket_load hasher _ (associate_spec hasher fuel) (ih) _ _ m1
        (Inv_emptied hasher _ _ _ hlen) (Inv_nodup_keys hasher _ hinv1)
        (fun p _ => find_emptied hasher _ _ _ p.1) ?_ h
      intro he
      have hl := length_entries_push hasher m key value (m.m_nAssociations + 1)
        m.m_maximumLoadFactor hinv.1
      simp only [entries] at hl he
      rw [he] at hl
      simp at hl
    · simp only [Option.some.injEq] at h
      subst h
      have hpos : 0 < (m.m_buckets.set (getBucketNumber hasher m key)
          (m.m_buckets.getD (getBucketNumber hasher m key) [] ++ [(key, value)])).length := by
        simp only [List.length_set]
        exact hinv.1
      have hq : (0 : ℚ) < ((m.m_buckets.set (getBucketNumber hasher m key)
          (m.m_buckets.getD (getBucketNumber hasher m key) [] ++ [(key, value)])).length : ℚ) := by
        exact_mod_cast hpos
      simp only [currentLoadFactor, gt_iff_lt, not_lt] at hload
      exact (div_le_iff₀ hq).mp hload

/-- Every `associate` call that starts with the counter within the maximum returns with
the counter within the maximum. -/
theorem associate_keeps_load (hasher : K → Nat) (fuel : Nat) (m : ExpandableHashMap K V)
    (key : K) (value : V) (m1 : ExpandableHashMap K V) (hinv : Inv hasher m)
    (hl : (m.m_nAssociations : ℚ) ≤ m.m_maximumLoadFactor * (m.m_buckets.length : ℚ))
    (h : associate hasher fuel m key value = some m1) :
    (m1.m_nAssociations : ℚ) ≤ m1.m_maximumLoadFactor * (m1.m_buckets.length : ℚ) := by
  cases hf : find hasher m key with
  | none => exact associate_load hasher fuel m key value m1 hinv hf h
  | some w =>
    cases fuel with
    | zero => simp [associate] at h
    | succ fuel =>
      rw [associate_succ, hf] at h
      simp only [Option.some.injEq] at h
      subst h
      simpa using hl

theorem reinsertBucket_slack (hasher : K → Nat)
    (assoc : ExpandableHashMap K V → K → V → Option (ExpandableHashMap K V))
    (hA : StepOk hasher assoc)
    (hS : ∀ m key value m1, Inv hasher m → assoc m key value = some m1 →
      m.m_nAssociations + (entries m1).length ≤ m1.m_nAssociations + (entries m).length) :
    ∀ (es : List (K × V)) (m m1 : ExpandableHashMap K V), Inv hasher m →
      reinsertBucket assoc es m = some m1 →
      m.m_nAssociations + (entries m1).length ≤ m1.m_nAssociations + (entries m).length := by
  intro es
  induction es with
  | nil =>
    intro m m1 _ h
    simp only [reinsertBucket, Option.some.injEq] at h
    subst h
    exact le_refl _
  | cons p rest ih =>
    intro m m1 hinv h
    simp only [reinsertBucket] at h
    cases ha : assoc m p.1 p.2 with
    | none => simp [ha] at h
    | some m2 =>
      simp only [ha] at h
      obtain ⟨hi2, _, _⟩ := hA m p.1 p.2 m2 hinv ha
      have h1 := hS m p.1 p.2 m2 hinv ha
      have h2 := ih m2 m1 hi2 h
      omega

/-- The counter never falls behind the number of stored entries: no `associate` call
adds more entries than it adds to the counter. -/
theorem associate_slack (hasher : K → Nat) :
    ∀ (fuel : Nat) (m : ExpandableHashMap K V) (key : K) (value : V)
      (m1 : ExpandableHashMap K V),
      Inv hasher m → associate hasher fuel m key value = some m1 →
      m.m_nAssociations + (entries m1).length ≤ m1.m_nAssociations + (entries m).length := by
  intro fuel
  induction fuel with
  | zero => intro m key value m1 _ h; simp [associate] at h
  | succ fuel ih =>
    intro m key value m1 hinv h
    rw [associate_succ] at h
    cases hf : find hasher m key with
    | some w =>
      rw [hf] at h
      simp only [Option.some.injEq] at h
      subst h
      rw [length_entries_assign hasher m key value _ _ hinv.1]
    | none =>
      rw [hf] at h
      simp only [] at h
      have hinv1 := Inv_push hasher m key value hinv hf
      have hl := length_entries_push hasher m key value (m.m_nAssociations + 1)
        m.m_maximumLoadFactor hinv.1
      split_ifs at h with hload
      · simp only [rehashWith] at h
        rw [reinsertAll_eq_flatten] at h
        have hlen : 0 < (m.m_buckets.set (getBucketNumber hasher m key)
            (m.m_buckets.getD (getBucketNumber hasher m key) [] ++ [(key, value)])).length *
              2 := by
          have := hinv.1
          simp only [List.length_set]
          omega
        have h2 := reinsertBucket_slack hasher _ (associate_spec hasher fuel) ih _ _ m1
          (Inv_emptied hasher _ _ _ hlen) h
        rw [entries_emptied] at h2
        simp only [List.length_nil] at h2
        omega
      · simp only [Option.some.injEq] at h
        subst h
        rw [hl]
        dsimp only
        omega

/-- A sequence of `associate` calls keeps the two bounds: stored entries at most the
counter, counter at most the maximum load factor times the bucket count. -/
theorem associateAll_load (hasher : K → Nat) (fuel : Nat) :
    ∀ (ops : List (K × V)) (m m1 : ExpandableHashMap K V), Inv hasher m →
      (entries m).length ≤ m.m_nAssociations →
      (m.m_nAssociations : ℚ) ≤ m.m_maximumLoadFactor * (m.m_buckets.length : ℚ) →
      associateAll hasher fuel ops m = some m1 →
      Inv hasher m1 ∧ (entries m1).length ≤ m1.m_nAssociations ∧
        (m1.m_nAssociations : ℚ) ≤ m1.m_maximumLoadFactor * (m1.m_buckets.length : ℚ) := by
  intro ops
  induction ops with
  | nil =>
    intro m m1 hinv he hl h
    simp only [associateAll, Option.some.injEq] at h
    subst h
    exact ⟨hinv, he, hl⟩
  | cons p rest ih =>
    intro m m1 hinv he hl h
    simp only [associateAll] at h
    cases ha : associate hasher fuel m p.1 p.2 with
    | none => simp [ha] at h
    | some m2 =>
      simp only [ha] at h
      obtain ⟨hi2, _, _⟩ := associate_spec hasher fuel m p.1 p.2 m2 hinv ha
      have hs := associate_slack hasher fuel m p.1 p.2 m2 hinv ha
      exact ih m2 m1 hi2 (by omega)
        (associate_keeps_load hasher fuel m p.1 p.2 m2 hinv hl ha) h

/-- With a maximum load factor that is not positive the insertion of a new key does not
return at any depth: the load after the insertion is positive, so `rehash` runs, and its
first re-insertion is again the insertion of a new key. -/
theorem associate_diverges (hasher : K → Nat) :
    ∀ (fuel : Nat) (m : ExpandableHashMap K V) (key : K) (value : V),
      m.m_maximumLoadFactor ≤ 0 → 0 < m.m_buckets.length → find hasher m key = none →
      associate hasher fuel m key value = none := by
  intro fuel
  induction fuel with
  | zero => intro m key value _ _ _; rfl
  | succ fuel ih =>
    intro m key value hL hpos hf
    have hq : (0 : ℚ) < (m.m_buckets.length : ℚ) := by exact_mod_cast hpos
    have hc : (0 : ℚ) < ((m.m_nAssociations + 1 : Nat) : ℚ) := by
      exact_mod_cast Nat.succ_pos _
    rw [associate_succ, hf]
    simp only []
    rw [if_pos]
    · simp only [rehashWith]
      rw [reinsertAll_eq_flatten]
      have hl := length_entries_push hasher m key value (m.m_nAssociations + 1)
        m.m_maximumLoadFactor hpos
      simp only [entries] at hl
      cases hes : (m.m_buckets.set (getBucketNumber hasher m key)
          (m.m_buckets.getD (getBucketNumber hasher m key) [] ++ [(key, value)])).flatten with
      | nil =>
        rw [hes] at hl
        simp at hl
      | cons p rest =>
        simp only [reinsertBucket]
        have hnone := ih
          ({ m_buckets := List.replicate
               ((m.m_buckets.set (getBucketNumber hasher m key)
                 (m.m_buckets.getD (getBucketNumber hasher m key) [] ++ [(key, value)])).length *
                   2) [],
             m_nAssociations := m.m_nAssociations + 1,
             m_maximumLoadFactor := m.m_maximumLoadFactor } : ExpandableHashMap K V)
          p.1 p.2 hL (by simpa using hpos) (find_emptied hasher _ _ _ p.1)
        rw [hnone]
    · simp only [currentLoadFactor, List.length_set, gt_iff_lt]
      exact lt_of_le_of_lt hL (div_pos hc hq)

theorem toInt_small (n : Nat) (h : n < 2 ^ 31) : (toInt n).toNat = n := by
  have h1 : n % 2 ^ 32 = n := Nat.mod_eq_of_lt (by omega)
  unfold toInt
  rw [h1, if_pos h]
  simp

theorem toInt_wrap (n : Nat) (h1 : 2 ^ 31 ≤ n) (h2 : n < 2 ^ 32) : (toInt n).toNat = 0 := by
  have h3 : n % 2 ^ 32 = n := Nat.mod_eq_of_lt h2
  unfold toInt
  rw [h3, if_neg (by omega)]
  omega

theorem associateInt_succ (hasher : K → Nat) (fuel : Nat) (m : ExpandableHashMap K V)
    (key : K) (value : V) :
    associateInt hasher (fuel + 1) m key value =
      if m.m_buckets.length = 0 then none
      else
        match find hasher m key with
        | some _ =>
          some { m_buckets := m.m_buckets.set (getBucketNumber hasher m key)
                  (assignInBucket key value
                    (m.m_buckets.getD (getBucketNumber hasher m key) [])),
                 m_nAssociations := m.m_nAssociations,
                 m_maximumLoadFactor := m.m_maximumLoadFactor }
        | none =>
          if currentLoadFactor
              ({ m_buckets := m.m_buckets.set (getBucketNumber hasher m key)
                  (m.m_buckets.getD (getBucketNumber hasher m key) [] ++ [(key, value)]),
                 m_nAssociations := m.m_nAssociations + 1,
                 m_maximumLoadFactor := m.m_maximumLoadFactor } : ExpandableHashMap K V) >
              m.m_maximumLoadFactor then
            rehashWithInt (associateInt hasher fuel)
              { m_buckets := m.m_buckets.set (getBucketNumber hasher m key)
                  (m.m_buckets.getD (getBucketNumber hasher m key) [] ++ [(key, value)]),
                m_nAssociations := m.m_nAssociations + 1,
                m_maximumLoadFactor := m.m_maximumLoadFactor }
          else
            some { m_buckets := m.m_buckets.set (getBucketNumber hasher m key)
                    (m.m_buckets.getD (getBucketNumber hasher m key) [] ++ [(key, value)]),
                   m_nAssociations := m.m_nAssociations + 1,
                   m_maximumLoadFactor := m.m_maximumLoadFactor } := rfl

/-- On an empty bucket vector `associate` fails at every depth. -/
theorem associateInt_no_buckets (hasher : K → Nat) (fuel : Nat) (m : ExpandableHashMap K V)
    (key : K) (value : V) (h : m.m_buckets.length = 0) :
    associateInt hasher fuel m key value = none := by
  cases fuel with
  | zero => rfl
  | succ fuel => rw [associateInt_succ, if_pos h]

theorem associateAll_eq_reinsertBucket (hasher : K → Nat) (fuel : Nat) :
    ∀ (ops : List (K × V)) (m : ExpandableHashMap K V),
      associateAll hasher fuel ops m = reinsertBucket (associate hasher fuel) ops m := by
  intro ops
  induction ops with
  | nil => intro m; rfl
  | cons p rest ih =>
    intro m
    simp only [associateAll, reinsertBucket]
    cases associate hasher fuel m p.1 p.2 with
    | none => rfl
    | some m1 => exact ih m1

theorem associateAllInt_eq_reinsertBucket (hasher : K → Nat) (fuel : Nat) :
    ∀ (ops : List (K × V)) (m : ExpandableHashMap K V),
      associateAllInt hasher fuel ops m =
        reinsertBucket (associateInt hasher fuel) ops m := by
  intro ops
  induction ops with
  | nil => intro m; rfl
  | cons p rest ih =>
    intro m
    simp only [associateAllInt, reinsertBucket]
    cases associateInt hasher fuel m p.1 p.2 with
    | none => rfl
    | some m1 => exact ih m1

/-- The re-insertion loop never shrinks the bucket vector when `assoc` does not. -/
theorem reinsertBucket_length_le
    (assoc : ExpandableHashMap K V → K → V → Option (ExpandableHashMap K V))
    (h : ∀ m k v r, assoc m k v = some r → m.m_buckets.length ≤ r.m_buckets.length) :
    ∀ (es : List (K × V)) (m r : ExpandableHashMap K V),
      reinsertBucket assoc es m = some r → m.m_buckets.length ≤ r.m_buckets.length := by
  intro es
  induction es with
  | nil =>
    intro m r hr
    simp only [reinsertBucket, Option.some.injEq] at hr
    subst hr
    exact le_refl _
  | cons p rest ih =>
    intro m r hr
    simp only [reinsertBucket] at hr
    cases ha : assoc m p.1 p.2 with
    | none => simp [ha] at hr
    | some m1 =>
      simp only [ha] at hr
      exact le_trans (h m p.1 p.2 m1 ha) (ih m1 r hr)

/-- Without the conversion to `int` the bucket vector never shrinks. -/
theorem associate_length_le (hasher : K → Nat) :
    ∀ (fuel : Nat) (m : ExpandableHashMap K V) (key : K) (value : V)
      (r : ExpandableHashMap K V),
      associate hasher fuel m key value = some r →
      m.m_buckets.length ≤ r.m_buckets.length := by
  intro fuel
  induction fuel with
  | zero => intro m key value r h; simp [associate] at h
  | succ fuel ih =>
    intro m key value r h
    rw [associate_succ] at h
    cases hf : find hasher m key with
    | some w =>
      rw [hf] at h
      simp only [Option.some.injEq] at h
      subst h
      simp
    | none =>
      rw [hf] at h
      simp only [] at h
      split_ifs at h with hload
      · simp only [rehashWith] at h
        rw [reinsertAll_eq_flatten] at h
        have h1 := reinsertBucket_length_le _ ih _ _ r h
        simp only [List.length_replicate, List.length_set] at h1
        omega
      · simp only [Option.some.injEq] at h
        subst h
        simp

/-- The re-insertion loop gives the same result with `a2` as with `a1` when every step
does, as long as the bucket count of the result stays below 2^31. -/
theorem reinsertBucket_to_int
    (a1 a2 : ExpandableHashMap K V → K → V → Option (ExpandableHashMap K V))
    (hmono : ∀ m k v r, a1 m k v = some r → m.m_buckets.length ≤ r.m_buckets.length)
    (h12 : ∀ m k v r, a1 m k v = some r → r.m_buckets.length < 2 ^ 31 →
      0 < m.m_buckets.length → a2 m k v = some r) :
    ∀ (es : List (K × V)) (m r : ExpandableHashMap K V),
      reinsertBucket a1 es m = some r → r.m_buckets.length < 2 ^ 31 →
      0 < m.m_buckets.length → reinsertBucket a2 es m = some r := by
  intro es
  induction es with
  | nil => intro m r hr _ _; exact hr
  | cons p rest ih =>
    intro m r hr hlt hpos
    simp only [reinsertBucket] at hr ⊢
    cases ha : a1 m p.1 p.2 with
    | none => simp [ha] at hr
    | some m1 =>
      simp only [ha] at hr
      have h1 := reinsertBucket_length_le a1 hmono rest m1 r hr
      have h2 := hmono m p.1 p.2 m1 ha
      rw [h12 m p.1 p.2 m1 ha (by omega) hpos]
      exact ih m1 r hr hlt (by omega)

/-- A run of `associate` without the conversion to `int` whose result has fewer than
2^31 buckets is a run of `associateInt` with the same result: no `newSize` on the way
leaves the range of `int`. -/
theorem associateInt_of_associate (hasher : K → Nat) :
    ∀ (fuel : Nat) (m : ExpandableHashMap K V) (key : K) (value : V)
      (r : ExpandableHashMap K V),
      associate hasher fuel m key value = some r → r.m_buckets.length < 2 ^ 31 →
      0 < m.m_buckets.length → associateInt hasher fuel m key value = some r := by
  intro fuel
  induction fuel with
  | zero => intro m key value r h; simp [associate] at h
  | succ fuel ih =>
    intro m key value r h hlt hpos
    rw [associate_succ] at h
    rw [associateInt_succ, if_neg (by omega)]
    cases hf : find hasher m key with
    | some w =>
      rw [hf] at h
      exact h
    | none =>
      rw [hf] at h
      simp only [] at h ⊢
      split_ifs at h ⊢ with hload
      · simp only [rehashWith] at h
        simp only [rehashWithInt]
        rw [reinsertAll_eq_flatten] at h ⊢
        have h1 := reinsertBucket_length_le _ (associate_length_le hasher fuel) _ _ r h
        simp only [List.length_replicate, List.length_set] at h1
        have e : (toInt ((m.m_buckets.set (getBucketNumber hasher m key)
            (m.m_buckets.getD (getBucketNumber hasher m key) [] ++
              [(key, value)])).length * 2)).toNat =
            (m.m_buckets.set (getBucketNumber hasher m key)
              (m.m_buckets.getD (getBucketNumber hasher m key) [] ++
                [(key, value)])).length * 2 := by
          apply toInt_small
          simp only [List.length_set]
          omega
        rw [e]
        refine reinsertBucket_to_int _ _ (associate_length_le hasher fuel) ih _ _ r h hlt ?_
        simp only [List.length_replicate, List.length_set]
        omega
      · exact h

/-- The re-insertion loop gives the same result with `a2` as with `a1` when every step
that starts below 2^31 buckets does and ends below 2^31 buckets. -/
theorem reinsertBucket_of_int
    (a1 a2 : ExpandableHashMap K V → K → V → Option (ExpandableHashMap K V))
    (h12 : ∀ m k v r, a1 m k v = some r → m.m_buckets.length < 2 ^ 31 →
      a2 m k v = some r ∧ r.m_buckets.length < 2 ^ 31) :
    ∀ (es : List (K × V)) (m r : ExpandableHashMap K V),
      reinsertBucket a1 es m = some r → m.m_buckets.length < 2 ^ 31 →
      reinsertBucket a2 es m = some r ∧ r.m_buckets.length < 2 ^ 31 := by
  intro es
  induction es with
  | nil =>
    intro m r hr hlt
    simp only [reinsertBucket, Option.some.injEq] at hr
    subst hr
    exact ⟨rfl, hlt⟩
  | cons p rest ih =>
    intro m r hr hlt
    simp only [reinsertBucket] at hr ⊢
    cases ha : a1 m p.1 p.2 with
    | none => simp [ha] at hr
    | some m1 =>
      simp only [ha] at hr
      obtain ⟨h1, h2⟩ := h12 m p.1 p.2 m1 ha hlt
      rw [h1]
      exact ih m1 r hr h2

/-- A run of `associateInt` that returns, started below 2^31 buckets, is a run of
`associate` without the conversion with the same result, and ends below 2^31 buckets. -/
theorem associate_of_associateInt (hasher : K → Nat) :
    ∀ (fuel : Nat) (m : ExpandableHashMap K V) (key : K) (value : V)
      (r : ExpandableHashMap K V),
      associateInt hasher fuel m key value = some r → m.m_buckets.length < 2 ^ 31 →
      associate hasher fuel m key value = some r ∧ r.m_buckets.length < 2 ^ 31 := by
  intro fuel
  induction fuel with
  | zero => intro m key value r h; simp [associateInt] at h
  | succ fuel ih =>
    intro m key value r h hlt
    rw [associateInt_succ] at h
    rw [associate_succ]
    by_cases hz : m.m_buckets.length = 0
    · rw [if_pos hz] at h
      simp at h
    rw [if_neg hz] at h
    have hpos : 0 < m.m_buckets.length := Nat.pos_of_ne_zero hz
    cases hf : find hasher m key with
    | some w =>
      rw [hf] at h
      simp only [Option.some.injEq] at h
      subst h
      exact ⟨rfl, by simpa using hlt⟩
    | none =>
      rw [hf] at h
      simp only [] at h ⊢
      split_ifs at h ⊢ with hload
      · simp only [rehashWithInt] at h
        simp only [rehashWith]
        rw [reinsertAll_eq_flatten] at h ⊢
        have hl := length_entries_push hasher m key value (m.m_nAssociations + 1)
          m.m_maximumLoadFactor hpos
        simp only [entries] at hl
        by_cases h2 : m.m_buckets.length * 2 < 2 ^ 31
        · have e : (toInt ((m.m_buckets.set (getBucketNumber hasher m key)
              (m.m_buckets.getD (getBucketNumber hasher m key) [] ++
                [(key, value)])).length * 2)).toNat =
              (m.m_buckets.set (getBucketNumber hasher m key)
                (m.m_buckets.getD (getBucketNumber hasher m key) [] ++
                  [(key, value)])).length * 2 := by
            apply toInt_small
            simp only [List.length_set]
            exact h2
          rw [e] at h
          refine reinsertBucket_of_int _ _ ih _ _ r h ?_
          simp only [List.length_replicate, List.length_set]
          exact h2
        · exfalso
          have e : (toInt ((m.m_buckets.set (getBucketNumber hasher m key)
              (m.m_buckets.getD (getBucketNumber hasher m key) [] ++
                [(key, value)])).length * 2)).toNat = 0 := by
            apply toInt_wrap
            · simp only [List.length_set]
              omega
            · simp only [List.length_set]
              omega
          rw [e] at h
          cases hes : (m.m_buckets.set (getBucketNumber hasher m key)
              (m.m_buckets.getD (getBucketNumber hasher m key) [] ++
                [(key, value)])).flatten with
          | nil =>
            rw [hes] at hl
            simp at hl
          | cons p rest =>
            rw [hes] at h
            simp only [reinsertBucket] at h
            rw [associateInt_no_buckets hasher fuel _ p.1 p.2 (by simp)] at h
            simp at h
      · simp only [Option.some.injEq] at h
        subst h
        exact ⟨rfl, by simpa using hlt⟩

theorem associateAllInt_of_associateAll (hasher : K → Nat) (fuel : Nat)
    (ops : List (K × V)) (m r : ExpandableHashMap K V)
    (h : associateAll hasher fuel ops m = some r) (hlt : r.m_buckets.length < 2 ^ 31)
    (hpos : 0 < m.m_buckets.length) : associateAllInt hasher fuel ops m = some r := by
  rw [associateAll_eq_reinsertBucket] at h
  rw [associateAllInt_eq_reinsertBucket]
  exact reinsertBucket_to_int _ _ (associate_length_le hasher fuel)
    (associateInt_of_associate hasher fuel) ops m r h hlt hpos

theorem associateAll_of_associateAllInt (hasher : K → Nat) (fuel : Nat)
    (ops : List (K × V)) (m r : ExpandableHashMap K V)
    (h : associateAllInt hasher fuel ops m = some r) (hlt : m.m_buckets.length < 2 ^ 31) :
    associateAll hasher fuel ops m = some r ∧ r.m_buckets.length < 2 ^ 31 := by
  rw [associateAllInt_eq_reinsertBucket] at h
  rw [associateAll_eq_reinsertBucket]
  exact reinsertBucket_of_int _ _ (associate_of_associateInt hasher fuel) ops m r h hlt

/-- What the re-insertion loop keeps when every step keeps it: either the bucket count is
unchanged and the counter did not decrease, or the last doubling was triggered, so that
the maximum load times the bucket count is below twice the counter. -/
theorem reinsertBucket_trigger (hasher : K → Nat)
    (assoc : ExpandableHashMap K V → K → V → Option (ExpandableHashMap K V))
    (hA : StepOk hasher assoc)
    (hT : ∀ m k v r, Inv hasher m → assoc m k v = some r →
      (r.m_buckets.length = m.m_buckets.length ∧ m.m_nAssociations ≤ r.m_nAssociations) ∨
        m.m_maximumLoadFactor * (r.m_buckets.length : ℚ) < 2 * (r.m_nAssociations : ℚ)) :
    ∀ (es : List (K × V)) (m r : ExpandableHashMap K V), Inv hasher m →
      reinsertBucket assoc es m = some r →
      (r.m_buckets.length = m.m_buckets.length ∧ m.m_nAssociations ≤ r.m_nAssociations) ∨
        m.m_maximumLoadFactor * (r.m_buckets.length : ℚ) < 2 * (r.m_nAssociations : ℚ) := by
  intro es
  induction es with
  | nil =>
    intro m r _ h
    simp only [reinsertBucket, Option.some.injEq] at h
    subst h
    exact Or.inl ⟨rfl, le_refl _⟩
  | cons p rest ih =>
    intro m r hinv h
    simp only [reinsertBucket] at h
    cases ha : assoc m p.1 p.2 with
    | none => simp [ha] at h
    | some m1 =>
      simp only [ha] at h
      obtain ⟨hi1, _, hl1⟩ := hA m p.1 p.2 m1 hinv ha
      rcases ih m1 r hi1 h with ⟨h1, h2⟩ | h3
      · rcases hT m p.1 p.2 m1 hinv ha with ⟨h4, h5⟩ | h6
        · exact Or.inl ⟨h1.trans h4, le_trans h5 h2⟩
        · right
          rw [h1]
          have : (m1.m_nAssociations : ℚ) ≤ (r.m_nAssociations : ℚ) := by exact_mod_cast h2
          linarith
      · right
        rw [← hl1]
        exact h3

/-- Every `associate` call (without the conversion to `int`) either leaves the bucket
count as it is or returns with the maximum load times the bucket count below twice the
counter: a doubling happens only when the load is over the maximum. -/
theorem associate_trigger (hasher : K → Nat) :
    ∀ (fuel : Nat) (m : ExpandableHashMap K V) (key : K) (value : V)
      (r : ExpandableHashMap K V),
      Inv hasher m → associate hasher fuel m key value = some r →
      (r.m_buckets.length = m.m_buckets.length ∧ m.m_nAssociations ≤ r.m_nAssociations) ∨
        m.m_maximumLoadFactor * (r.m_buckets.length : ℚ) < 2 * (r.m_nAssociations : ℚ) := by
  intro fuel
  induction fuel with
  | zero => intro m key value r _ h; simp [associate] at h
  | succ fuel ih =>
    intro m key value r hinv h
    rw [associate_succ] at h
    cases hf : find hasher m key with
    | some w =>
      rw [hf] at h
      simp only [Option.some.injEq] at h
      subst h
      exact Or.inl ⟨by simp, le_refl _⟩
    | none =>
      rw [hf] at h
      simp only [] at h
      split_ifs at h with hload
      · right
        rw [currentLoadFactor_gt_iff _ _ (by simpa using hinv.1)] at hload
        simp only [List.length_set] at hload
        simp only [rehashWith] at h
        rw [reinsertAll_eq_flatten] at h
        have hlen : 0 < (m.m_buckets.set (getBucketNumber hasher m key)
            (m.m_buckets.getD (getBucketNumber hasher m key) [] ++ [(key, value)])).length *
              2 := by
          have := hinv.1
          simp only [List.length_set]
          omega
        rcases reinsertBucket_trigger hasher _ (associate_spec hasher fuel) ih _ _ r
          (Inv_emptied hasher _ _ _ hlen) h with ⟨h1, h2⟩ | h3
        · simp only [List.length_replicate, List.length_set] at h1
          simp only [] at h2
          rw [h1]
          have hc : ((m.m_nAssociations + 1 : Nat) : ℚ) ≤ (r.m_nAssociations : ℚ) := by
            exact_mod_cast h2
          push_cast at hc hload ⊢
          linarith
        · exact h3
      · simp only [Option.some.injEq] at h
        subst h
        exact Or.inl ⟨by simp, by simp⟩

/-- For `28 * n ≤ L * 2^29`: a state with `8 * 2^j` buckets whose counter is at most
`n + n * j` and whose last doubling was triggered has `j ≤ 26`. -/
theorem doublings_bound (n j : Nat) (L : ℚ) (hr : (28 : ℚ) * (n : ℚ) ≤ L * 2 ^ 29)
    (hJ : L * ((8 * 2 ^ j : Nat) : ℚ) < 2 * ((n + n * j : Nat) : ℚ)) : j ≤ 26 := by
  by_contra hj
  obtain ⟨d, rfl⟩ : ∃ d, j = 27 + d := ⟨j - 27, by omega⟩
  have h2d : ((d : ℚ) + 1) ≤ (2 : ℚ) ^ d := by
    have : d + 1 ≤ 2 ^ d := Nat.lt_two_pow d
    exact_mod_cast this
  have hn : (0 : ℚ) ≤ (n : ℚ) := Nat.cast_nonneg _
  have hd : (0 : ℚ) ≤ (d : ℚ) := Nat.cast_nonneg _
  have hp : (0 : ℚ) ≤ 2 * (2 : ℚ) ^ d := by positivity
  have h1 : (28 : ℚ) * (n : ℚ) * (2 * 2 ^ d) ≤ L * 2 ^ 29 * (2 * 2 ^ d) :=
    mul_le_mul_of_nonneg_right hr hp
  have h3 : L * ((8 * 2 ^ (27 + d) : Nat) : ℚ) = L * 2 ^ 29 * (2 * 2 ^ d) := by
    push_cast
    rw [pow_add]
    norm_num
    ring
  rw [h3] at hJ
  push_cast at hJ
  have h4 := mul_nonneg hn (sub_nonneg.mpr h2d)
  have h5 := mul_nonneg hn hd
  nlinarith

/-- The outcome of a sequence of calls on a fresh map at a depth that is large enough. -/
theorem associateAll_runs (hasher : K → Nat) (L : ℚ) (hL : 0 < L) (ops : List (K × V)) :
    ∃ f, RunsTo ops.length (create L : ExpandableHashMap K V)
      (associateAll hasher (f + 1) ops (create L)) ops.length := by
  obtain ⟨f, hf⟩ := exists_enough ops.length ops.length INITIAL_NUMBER_OF_BUCKETS
    (by decide) L hL
  refine ⟨f, ?_⟩
  rw [associateAll_eq_reinsertBucket]
  apply reinsertBucket_runs hasher ops.length f L (associate_runs hasher _ _ f) ops
    (create L) rfl (by simp [create, INITIAL_NUMBER_OF_BUCKETS])
  · simp [create, entries, INITIAL_NUMBER_OF_BUCKETS]
  · simpa [create, INITIAL_NUMBER_OF_BUCKETS] using hf

/-- Within the range `28 * n ≤ L * 2^29` a sequence of `n` calls on a fresh map (without
the conversion to `int`) that returns ends with at most 2^29 buckets, `8 * 2^j` of them
with the counter at most `n + n * j`, and with at most `n` entries. -/
theorem associateAll_length_bound (hasher : K → Nat) (L : ℚ) (hL : 0 < L)
    (ops : List (K × V)) (hr : WithinIntRange L ops.length) (fuel : Nat)
    (m : ExpandableHashMap K V) (h : associateAll hasher fuel ops (create L) = some m) :
    ∃ j, j ≤ 26 ∧ m.m_buckets.length = 8 * 2 ^ j ∧
      m.m_nAssociations ≤ ops.length + ops.length * j ∧
      (entries m).length ≤ ops.length := by
  obtain ⟨f, m1, j, h1, hs, hc, he, _, _⟩ := associateAll_runs hasher L hL ops
  have e1 := associateAll_mono hasher fuel (max fuel (f + 1)) (le_max_left _ _) ops _ m h
  have e2 := associateAll_mono hasher (f + 1) (max fuel (f + 1)) (le_max_right _ _) ops _
    m1 h1
  rw [e1] at e2
  simp only [Option.some.injEq] at e2
  subst e2
  have hs1 : m.m_buckets.length = 8 * 2 ^ j := by
    simpa [create, INITIAL_NUMBER_OF_BUCKETS] using hs
  have hc1 : m.m_nAssociations ≤ ops.length + ops.length * j := by
    simpa [create] using hc
  have he1 : (entries m).length ≤ ops.length := by
    simpa [create, entries, INITIAL_NUMBER_OF_BUCKETS] using he
  refine ⟨j, ?_, hs1, hc1, he1⟩
  rw [associateAll_eq_reinsertBucket] at h
  rcases reinsertBucket_trigger hasher _ (associate_spec hasher fuel)
    (associate_trigger hasher fuel) ops (create L) m (Inv_create hasher L) h with
    ⟨h2, _⟩ | h3
  · rw [hs1] at h2
    simp only [create, INITIAL_NUMBER_OF_BUCKETS, List.length_replicate] at h2
    have : 2 ^ j = 1 := by omega
    have hj0 : j = 0 := by
      rcases Nat.eq_zero_or_pos j with h0 | h0
      · exact h0
      · have := Nat.one_lt_two_pow (Nat.pos_iff_ne_zero.mp h0)
        omega
    omega
  · apply doublings_bound ops.length j L hr
    have h4 : (create L : ExpandableHashMap K V).m_maximumLoadFactor = L := rfl
    rw [h4, hs1] at h3
    have hcq : (m.m_nAssociations : ℚ) ≤ ((ops.length + ops.length * j : Nat) : ℚ) := by
      exact_mod_cast hc1
    linarith

/-- A sequence of calls on a fresh map that returns with `newSize` as an `int` is a run
without the conversion with the same result. -/
theorem associateAll_of_int_fresh (hasher : K → Nat) (L : ℚ) (fuel : Nat)
    (ops : List (K × V)) (m : ExpandableHashMap K V)
    (h : associateAllInt hasher fuel ops (create L) = some m) :
    associateAll hasher fuel ops (create L) = some m ∧ m.m_buckets.length < 2 ^ 31 :=
  associateAll_of_associateAllInt hasher fuel ops (create L) m h
    (by simp [create, INITIAL_NUMBER_OF_BUCKETS])

/-- Within the range `28 * n ≤ L * 2^29` a sequence of `n` calls on a fresh map returns
at every large enough depth, with `newSize` as an `int`, and ends with at most 2^29
buckets. -/
theorem associateAllInt_returns (hasher : K → Nat) (L : ℚ) (hL : 0 < L)
    (ops : List (K × V)) (hr : WithinIntRange L ops.length) :
    ∃ N, ∀ fuel, N ≤ fuel →
      ∃ m, associateAllInt hasher fuel ops (create L) = some m ∧
        associateAll hasher fuel ops (create L) = some m ∧
        m.m_buckets.length ≤ 2 ^ 29 := by
  obtain ⟨N, hN⟩ := associateAll_terminates hasher L hL ops (create L) rfl
    (by simp [create, INITIAL_NUMBER_OF_BUCKETS])
  refine ⟨N, fun fuel hfuel => ?_⟩
  obtain ⟨m, hm⟩ := hN fuel hfuel
  obtain ⟨j, hj, hs, _, _⟩ := associateAll_length_bound hasher L hL ops hr fuel m hm
  have hle : m.m_buckets.length ≤ 2 ^ 29 := by
    rw [hs]
    have : 2 ^ j ≤ 2 ^ 26 := Nat.pow_le_pow_right (by decide) hj
    omega
  refine ⟨m, ?_, hm, hle⟩
  exact associateAllInt_of_associateAll hasher fuel ops (create L) m hm (by omega)
    (by simp [create, INITIAL_NUMBER_OF_BUCKETS])

/-- After a sequence of calls on a fresh map (without the conversion to `int`) the
invariant holds, `find` is the finite map of the calls, and a key has one entry if it was
associated and none otherwise. -/
theorem associateAll_fresh_spec (hasher : K → Nat) (L : ℚ) (fuel : Nat)
    (ops : List (K × V)) (m : ExpandableHashMap K V)
    (hm : associateAll hasher fuel ops (create L) = some m) :
    Inv hasher m ∧ m.m_maximumLoadFactor = L ∧
      (∀ k, find hasher m k = mostRecent k ops) ∧
      (∀ k, ((entries m).map Prod.fst).count k =
        if k ∈ ops.map Prod.fst then 1 else 0) := by
  obtain ⟨hinv, hfind, hml⟩ :=
    associateAll_spec hasher fuel ops (create L) m (Inv_create hasher L) hm
  have h1 : ∀ k, find hasher m k = mostRecent k ops := by
    intro k
    rw [hfind k, find_create]
    cases mostRecent k ops <;> rfl
  refine ⟨hinv, hml, h1, fun k => ?_⟩
  have hk : k ∈ (entries m).map Prod.fst ↔ k ∈ ops.map Prod.fst := by
    have h2 := find_eq_none_iff hasher m hinv k
    have h3 := mostRecent_none_iff k ops
    rw [h1 k, h3] at h2
    constructor
    · intro hmem
      by_contra hno
      obtain ⟨p, hp, hpk⟩ := List.mem_map.mp hmem
      exact h2.mp (fun q hq hqk => hno (List.mem_map.mpr ⟨q, hq, hqk⟩)) p hp hpk
    · intro hmem
      by_contra hno
      obtain ⟨p, hp, hpk⟩ := List.mem_map.mp hmem
      exact h2.mpr (fun q hq hqk => hno (List.mem_map.mpr ⟨q, hq, hqk⟩)) p hp hpk
  by_cases hmem : k ∈ ops.map Prod.fst
  · rw [if_pos hmem]
    exact List.count_eq_one_of_mem (Inv_nodup_keys hasher m hinv) (hk.mpr hmem)
  · rw [if_neg hmem]
    exact List.count_eq_zero_of_not_mem (fun h => hmem (hk.mp h))

/-- After a sequence of calls on a fresh map with a positive maximum load factor `L`
(without the conversion to `int`) the stored entries per bucket are at most the value of
`currentLoadFactor()`, which is at most `L`. -/
theorem associateAll_fresh_load (hasher : K → Nat) (L : ℚ) (hL : 0 < L) (fuel : Nat)
    (ops : List (K × V)) (m : ExpandableHashMap K V)
    (hm : associateAll hasher fuel ops (create L) = some m) :
    ((entries m).length : ℚ) / (m.m_buckets.length : ℚ) ≤ L ∧
      ((entries m).length : ℚ) / (m.m_buckets.length : ℚ) ≤ currentLoadFactor m ∧
      currentLoadFactor m ≤ L := by
  obtain ⟨_, _, hml⟩ :=
    associateAll_spec hasher fuel ops (create L) m (Inv_create hasher L) hm
  have hml1 : m.m_maximumLoadFactor = L := hml
  obtain ⟨hinv, he, hl⟩ := associateAll_load hasher fuel ops (create L) m
    (Inv_create hasher L) (by simp [create, entries, INITIAL_NUMBER_OF_BUCKETS])
    (by
      simp only [create, INITIAL_NUMBER_OF_BUCKETS]
      simp only [List.length_replicate, Nat.cast_zero, Nat.cast_ofNat]
      positivity) hm
  rw [hml1] at hl
  have hq : (0 : ℚ) < (m.m_buckets.length : ℚ) := by exact_mod_cast hinv.1
  have he1 : ((entries m).length : ℚ) ≤ (m.m_nAssociations : ℚ) := by exact_mod_cast he
  have h2 : currentLoadFactor m ≤ L := by
    simp only [currentLoadFactor]
    exact (div_le_iff₀ hq).mpr hl
  have h1 : ((entries m).length : ℚ) / (m.m_buckets.length : ℚ) ≤ currentLoadFactor m := by
    simp only [currentLoadFactor]
    exact div_le_div_of_nonneg_right he1 (le_of_lt hq)
  exact ⟨le_trans h1 h2, h1, h2⟩

theorem associateAll_append (hasher : K → Nat) (fuel : Nat) (p : K × V) :
    ∀ (ops : List (K × V)) (m r : ExpandableHashMap K V),
      associateAll hasher fuel (ops ++ [p]) m = some r →
      ∃ m1, associateAll hasher fuel ops m = some m1 ∧
        associate hasher fuel m1 p.1 p.2 = some r := by
  intro ops
  induction ops with
  | nil =>
    intro m r h
    simp only [List.nil_append, associateAll] at h
    cases ha : associate hasher fuel m p.1 p.2 with
    | none => simp [ha] at h
    | some m2 =>
      simp only [ha, Option.some.injEq] at h
      subst h
      exact ⟨m, rfl, ha⟩
  | cons q rest ih =>
    intro m r h
    simp only [List.cons_append, associateAll] at h ⊢
    cases ha : associate hasher fuel m q.1 q.2 with
    | none => simp [ha] at h
    | some m2 =>
      simp only [ha] at h
      exact ih m2 r h

/-- With a maximum load factor of at most 2^-31 (zero and negative ones included) the
insertion of a new key does not return at any depth: the load after an insertion is over
the maximum as long as there are fewer than 2^31 buckets, so `rehash` runs again and
again, until `newSize` leaves the range of `int` and the new bucket vector is empty. -/
theorem associateInt_overflows (hasher : K → Nat) :
    ∀ (fuel : Nat) (m : ExpandableHashMap K V) (key : K) (value : V),
      m.m_maximumLoadFactor * 2 ^ 31 ≤ 1 → m.m_buckets.length < 2 ^ 31 →
      find hasher m key = none → associateInt hasher fuel m key value = none := by
  intro fuel
  induction fuel with
  | zero => intro m key value _ _ _; rfl
  | succ fuel ih =>
    intro m key value hL hlt hf
    by_cases hz : m.m_buckets.length = 0
    · exact associateInt_no_buckets hasher _ m key value hz
    have hpos : 0 < m.m_buckets.length := Nat.pos_of_ne_zero hz
    rw [associateInt_succ, if_neg hz, hf]
    simp only []
    rw [if_pos]
    · simp only [rehashWithInt]
      rw [reinsertAll_eq_flatten]
      have hl := length_entries_push hasher m key value (m.m_nAssociations + 1)
        m.m_maximumLoadFactor hpos
      simp only [entries] at hl
      cases hes : (m.m_buckets.set (getBucketNumber hasher m key)
          (m.m_buckets.getD (getBucketNumber hasher m key) [] ++ [(key, value)])).flatten with
      | nil =>
        rw [hes] at hl
        simp at hl
      | cons p rest =>
        simp only [reinsertBucket]
        have hnone : associateInt hasher fuel
            ({ m_buckets := List.replicate
                 (toInt ((m.m_buckets.set (getBucketNumber hasher m key)
                   (m.m_buckets.getD (getBucketNumber hasher m key) [] ++
                     [(key, value)])).length * 2)).toNat [],
               m_nAssociations := m.m_nAssociations + 1,
               m_maximumLoadFactor := m.m_maximumLoadFactor } : ExpandableHashMap K V)
            p.1 p.2 = none := by
          by_cases h2 : m.m_buckets.length * 2 < 2 ^ 31
          · refine ih _ p.1 p.2 ?_ ?_ ?_
            · exact hL
            · simp only [List.length_replicate, List.length_set]
              rw [toInt_small _ h2]
              exact h2
            · exact find_emptied hasher _ _ _ p.1
          · apply associateInt_no_buckets
            simp only [List.length_replicate, List.length_set]
            exact toInt_wrap _ (by omega) (by omega)
        rw [hnone]
    · rw [currentLoadFactor_gt_iff _ _ (by simpa using hpos)]
      simp only [List.length_set]
      have hq : ((m.m_buckets.length : Nat) : ℚ) < 2 ^ 31 := by exact_mod_cast hlt
      have hq0 : (0 : ℚ) < ((m.m_buckets.length : Nat) : ℚ) := by exact_mod_cast hpos
      have hc : (1 : ℚ) ≤ ((m.m_nAssociations + 1 : Nat) : ℚ) := by
        exact_mod_cast Nat.succ_le_succ (Nat.zero_le _)
      rcases le_or_lt m.m_maximumLoadFactor 0 with h0 | h0
      · have : m.m_maximumLoadFactor * (m.m_buckets.length : ℚ) ≤ 0 :=
          mul_nonpos_of_nonpos_of_nonneg h0 (le_of_lt hq0)
        linarith
      · have : m.m_maximumLoadFactor * (m.m_buckets.length : ℚ) <
            m.m_maximumLoadFactor * 2 ^ 31 := mul_lt_mul_of_pos_left hq h0
        linarith

/-- The five calls for distinct keys on a fresh default map, with `newSize` as an `int`:
the fifth makes `rehash` run (twice), which leaves the counter at 14 for five entries. -/
theorem five_associates_run_int :
    (associateAllInt (fun k : Nat => k) 3 [(1, 10), (2, 20), (3, 30), (4, 40), (5, 50)]
        (create DEFAULT_MAXIMUM_LOAD_FACTOR : ExpandableHashMap Nat Nat)).map
      (fun m => (size m, (entries m).length)) = some (14, 5) := by
  have h := five_associates_run
  cases hm : associateAll (fun k : Nat => k) 3 [(1, 10), (2, 20), (3, 30), (4, 40), (5, 50)]
      (create DEFAULT_MAXIMUM_LOAD_FACTOR : ExpandableHashMap Nat Nat) with
  | none => simp [hm] at h
  | some m =>
    rw [hm] at h
    obtain ⟨j, hj, hs, _, _⟩ := associateAll_length_bound (fun k : Nat => k)
      DEFAULT_MAXIMUM_LOAD_FACTOR (by norm_num [DEFAULT_MAXIMUM_LOAD_FACTOR]) _
      (by norm_num [WithinIntRange, DEFAULT_MAXIMUM_LOAD_FACTOR]) 3 m hm
    have hlt : m.m_buckets.length < 2 ^ 31 := by
      rw [hs]
      have : 2 ^ j ≤ 2 ^ 26 := Nat.pow_le_pow_right (by decide) hj
      omega
    rw [associateAllInt_of_associateAll _ 3 _ _ m hm hlt
      (by simp [create, INITIAL_NUMBER_OF_BUCKETS])]
    exact h

/-- C24: on a freshly constructed map with a positive maximum load factor `L`, whenever
a sequence of `associate` calls has returned (rehashes included), the number of stored
entries divided by the bucket count is at most `L`; so is the value of
`currentLoadFactor()`, which is at least as large.  The calls do return when the number
`n` of calls satisfies `28 * n ≤ L * 2^29`. -/
theorem load_factor_bounded (hasher : K → Nat) (L : ℚ) (hL : 0 < L) (ops : List (K × V)) :
    (∀ fuel m, associateAllInt hasher fuel ops (create L) = some m →
      ((entries m).length : ℚ) / (m.m_buckets.length : ℚ) ≤ L ∧
      ((entries m).length : ℚ) / (m.m_buckets.length : ℚ) ≤ currentLoadFactor m ∧
      currentLoadFactor m ≤ L) ∧
    (WithinIntRange L ops.length →
      ∃ N, ∀ fuel, N ≤ fuel → ∃ m, associateAllInt hasher fuel ops (create L) = some m) := by
  constructor
  · intro fuel m hm
    exact associateAll_fresh_load hasher L hL fuel ops m
      (associateAll_of_int_fresh hasher L fuel ops m hm).1
  · intro hr
    obtain ⟨N, hN⟩ := associateAllInt_returns hasher L hL ops hr
    exact ⟨N, fun fuel hfuel => (hN fuel hfuel).imp (fun _ h => h.1)⟩

/-- C25 as amended: on every state reached from a freshly constructed map with a positive
maximum load factor `L` by `n` calls of `associate`, with `28 * (n + 1) ≤ L * 2^29`, one
more call `associate(key, value)` returns at every large enough recursion depth; it
leaves the bucket count doubled `j` times for some `j`, at most 2^29, and the counter
grown by at most one plus, per doubling, the number of entries stored after the
insertion.  With a maximum load factor of at most 2^-31, positive or not, the first call
on a fresh map returns at no depth. -/
theorem associate_returns_on_reachable (hasher : K → Nat) (L : ℚ) (hL : 0 < L)
    (ops : List (K × V)) (key : K) (value : V) (hr : WithinIntRange L (ops.length + 1)) :
    (∃ N, ∀ fuel, N ≤ fuel →
      ∃ m r j, associateAllInt hasher fuel ops (create L) = some m ∧
        associateInt hasher fuel m key value = some r ∧
        r.m_buckets.length = m.m_buckets.length * 2 ^ j ∧
        r.m_buckets.length ≤ 2 ^ 29 ∧
        r.m_nAssociations ≤ m.m_nAssociations + 1 + ((entries m).length + 1) * j) ∧
    (∀ L0 : ℚ, L0 * 2 ^ 31 ≤ 1 → ∀ fuel,
      associateInt hasher fuel (create L0 : ExpandableHashMap K V) key value = none) := by
  constructor
  · have hr1 : WithinIntRange L (ops ++ [(key, value)]).length := by
      simpa using hr
    obtain ⟨N1, hN1⟩ := associateAllInt_returns hasher L hL (ops ++ [(key, value)]) hr1
    obtain ⟨r, _, hr2, hrle⟩ := hN1 N1 (le_refl _)
    obtain ⟨m, hm, hmr⟩ := associateAll_append hasher N1 (key, value) ops _ r hr2
    obtain ⟨hinv, hml, _, _⟩ := associateAll_fresh_spec hasher L N1 ops m hm
    obtain ⟨f, hf⟩ := exists_enough ((entries m).length + 1) (m.m_nAssociations + 1)
      m.m_buckets.length hinv.1 L hL
    obtain ⟨r1, j, hr3, hs, hc, _⟩ :=
      associate_runs hasher ((entries m).length + 1) L f m key value hml hinv.1
        (le_refl _) hf
    have e1 := associate_mono hasher N1 (max N1 (f + 1)) (le_max_left _ _) m key value r hmr
    have e2 := associate_mono hasher (f + 1) (max N1 (f + 1)) (le_max_right _ _) m key value
      r1 hr3
    rw [e1] at e2
    simp only [Option.some.injEq] at e2
    subst e2
    have hmlt : m.m_buckets.length < 2 ^ 31 := by
      have := associate_length_le hasher N1 m key value r hmr
      omega
    refine ⟨max N1 (f + 1), fun fuel hfuel => ⟨m, r, j, ?_, ?_, hs, hrle, hc⟩⟩
    · exact associateAllInt_of_associateAll hasher fuel ops _ m
        (associateAll_mono hasher N1 fuel (le_trans (le_max_left _ _) hfuel) ops _ m hm)
        hmlt (by simp [create, INITIAL_NUMBER_OF_BUCKETS])
    · exact associateInt_of_associate hasher fuel m key value r
        (associate_mono hasher N1 fuel (le_trans (le_max_left _ _) hfuel) m key value r hmr)
        (by omega) hinv.1
  · intro L0 hL0 fuel
    exact associateInt_overflows hasher fuel (create L0) key value hL0
      (by simp [create, INITIAL_NUMBER_OF_BUCKETS]) (find_create hasher L0 key)

/-- Witness for `load_factor_bounded`: the default maximum load factor, the identity
hash function and five calls for distinct keys, the fifth of which makes `rehash` run
(`five_associates_run_int`). -/
theorem load_factor_bounded_witness :
    (∀ fuel m, associateAllInt (fun k : Nat => k) fuel
        [(1, 10), (2, 20), (3, 30), (4, 40), (5, 50)]
        (create DEFAULT_MAXIMUM_LOAD_FACTOR : ExpandableHashMap Nat Nat) = some m →
      ((entries m).length : ℚ) / (m.m_buckets.length : ℚ) ≤ DEFAULT_MAXIMUM_LOAD_FACTOR ∧
      ((entries m).length : ℚ) / (m.m_buckets.length : ℚ) ≤ currentLoadFactor m ∧
      currentLoadFactor m ≤ DEFAULT_MAXIMUM_LOAD_FACTOR) ∧
    (∃ N, ∀ fuel, N ≤ fuel → ∃ m, associateAllInt (fun k : Nat => k) fuel
        [(1, 10), (2, 20), (3, 30), (4, 40), (5, 50)]
        (create DEFAULT_MAXIMUM_LOAD_FACTOR : ExpandableHashMap Nat Nat) = some m) :=
  ⟨(load_factor_bounded (fun k : Nat => k) DEFAULT_MAXIMUM_LOAD_FACTOR
      (by norm_num [DEFAULT_MAXIMUM_LOAD_FACTOR])
      [(1, 10), (2, 20), (3, 30), (4, 40), (5, 50)]).1,
   (load_factor_bounded (fun k : Nat => k) DEFAULT_MAXIMUM_LOAD_FACTOR
      (by norm_num [DEFAULT_MAXIMUM_LOAD_FACTOR])
      [(1, 10), (2, 20), (3, 30), (4, 40), (5, 50)]).2
      (by norm_num [WithinIntRange, DEFAULT_MAXIMUM_LOAD_FACTOR])⟩

/-- C25, counterexample: with the positive maximum load factor 2^-31 the first call
`associate(1, 10)` on a fresh map returns at no recursion depth. -/
theorem tiny_load_factor_never_returns :
    (0 : ℚ) < 1 / 2 ^ 31 ∧
      ∀ fuel, associateInt (fun k : Nat => k) fuel
        (create (1 / 2 ^ 31) : ExpandableHashMap Nat Nat) 1 10 = none := by
  refine ⟨by norm_num, fun fuel => ?_⟩
  apply associateInt_overflows
  · simp only [create]
    norm_num
  · simp [create, INITIAL_NUMBER_OF_BUCKETS]
  · exact find_create _ _ _

/-- Witness for `associate_returns_on_reachable`: the default maximum load factor, the
identity hash function, four calls for distinct keys and then a fifth, which makes
`rehash` run. -/
theorem associate_returns_on_reachable_witness :
    (∃ N, ∀ fuel, N ≤ fuel →
      ∃ m r j, associateAllInt (fun k : Nat => k) fuel
          [(1, 10), (2, 20), (3, 30), (4, 40)]
          (create DEFAULT_MAXIMUM_LOAD_FACTOR : ExpandableHashMap Nat Nat) = some m ∧
        associateInt (fun k : Nat => k) fuel m 5 50 = some r ∧
        r.m_buckets.length = m.m_buckets.length * 2 ^ j ∧
        r.m_buckets.length ≤ 2 ^ 29 ∧
        r.m_nAssociations ≤ m.m_nAssociations + 1 + ((entries m).length + 1) * j) ∧
    (∀ L0 : ℚ, L0 * 2 ^ 31 ≤ 1 → ∀ fuel,
      associateInt (fun k : Nat => k) fuel
        (create L0 : ExpandableHashMap Nat Nat) 5 50 = none) :=
  associate_returns_on_reachable (fun k : Nat => k) DEFAULT_MAXIMUM_LOAD_FACTOR
    (by norm_num [DEFAULT_MAXIMUM_LOAD_FACTOR]) [(1, 10), (2, 20), (3, 30), (4, 40)] 5 50
    (by norm_num [WithinIntRange, DEFAULT_MAXIMUM_LOAD_FACTOR])

end ExpandableHashMap

end MapDelivery
